import Mathlib

/-!
# Minesweeper game screen: board generation, flood fill, nearest-tile search, session

A shallow embedding of `views/minesweeper_game_screen.c`.

* C arrays (`model->board`, the local `tiles` buffer) are total maps `Nat → _`
  written with `upd`.
* `uint8_t`/`uint16_t` values are `Nat`; arithmetic that the C code performs in
  `uint16_t` is reduced with `% 65536` (`to_u16` for values computed in `int`).
* `int16_t` coordinates are `Int`.
* `furi_hal_random_get()` is a list of draws consumed from the front; running
  out of draws is `none`.
* The `while` loops over the m*lib deque are recursions on a fuel argument;
  running out of fuel is `none`.
* Presentation state (icons, viewport boundaries, clock, info string, debug
  timers) is not read by any of the logic below and is left out.
-/

namespace MineSweeper

/-! ## Data model -/

/-- Enum value `MineSweeperGameScreenTileNone`. -/
abbrev MineSweeperGameScreenTileNone : Nat := 0
/-- Enum value `MineSweeperGameScreenTileZero`; `Zero + n` is the tile with `n` mined neighbours. -/
abbrev MineSweeperGameScreenTileZero : Nat := 1
/-- Enum value `MineSweeperGameScreenTileEight`. -/
abbrev MineSweeperGameScreenTileEight : Nat := 9
/-- Enum value `MineSweeperGameScreenTileMine`. -/
abbrev MineSweeperGameScreenTileMine : Nat := 10

/-- The enum `MineSweeperGameScreenTileState`. -/
inductive MineSweeperGameScreenTileState
  | Flagged
  | Uncleared
  | Cleared
  deriving DecidableEq

/-- The struct `MineSweeperTile` (without its icon element); `tile_type` is the enum value. -/
structure MineSweeperTile where
  tile_state : MineSweeperGameScreenTileState
  tile_type : Nat
  deriving DecidableEq

/-- The struct `CurrentPosition` (`int16_t` row `x_abs` and column `y_abs`). -/
structure CurrentPosition where
  x_abs : Int
  y_abs : Int
  deriving DecidableEq

/-- Modelled from the spec: the struct `Point` is declared in a header that is not part of the
sources; it is a (row, column) pair, `x` the row and `y` the column. -/
structure Point where
  x : Int
  y : Int
  deriving DecidableEq

/-- The struct `MineSweeperGameScreenModel`, logic fields only. -/
structure MineSweeperGameScreenModel where
  board : Nat → MineSweeperTile
  curr_pos : CurrentPosition
  board_width : Nat
  board_height : Nat
  board_difficulty : Nat
  mines_left : Nat
  flags_left : Nat
  is_making_first_move : Bool
  is_holding_down_button : Bool

/-- Which draw/input callback pair is installed on the view: the play pair, the win draw callback
with the end input callback, or the lose draw callback with the end input callback. -/
inductive ViewCallbacks
  | play
  | win
  | lose
  deriving DecidableEq

/-- The game screen instance: the installed view callbacks and the view model. -/
structure MineSweeperGameScreen where
  callbacks : ViewCallbacks
  model : MineSweeperGameScreenModel

/-- Array write `a[i] = v`. -/
def upd {α : Type} (a : Nat → α) (i : Nat) (v : α) : Nat → α :=
  fun j => if j = i then v else a j

/-- Conversion of an `int` value to `uint16_t`. -/
def to_u16 (z : Int) : Nat := (z % 65536).toNat

/-- The neighbour offsets table `offsets[8][2]`, shared by all three loops that use it. -/
def offsets : List (Int × Int) :=
  [(-1, 1), (0, 1), (1, 1), (1, 0), (1, -1), (0, -1), (-1, -1), (-1, 0)]

/-- The body of the `for (j = 0; j < 8; j++)` loops: the positions `(x + off[0], y + off[1])`
that pass the bounds test `dx < 0 || dy < 0 || dx >= board_height || dy >= board_width`,
in table order. -/
def valid_neighbors (board_width board_height : Nat) (x y : Int) : List Point :=
  (offsets.map (fun o => (Point.mk (x + o.1) (y + o.2)))).filter
    (fun p => ¬ (p.x < 0 ∨ p.y < 0 ∨ p.x ≥ (board_height : Int) ∨ p.y ≥ (board_width : Int)))

/-- Linear index `x * board_width + y` stored in a `uint16_t`. -/
def pos_1d (board_width : Nat) (x y : Int) : Nat := to_u16 (x * (board_width : Int) + y)

/-! ## Board generation -/

/-- The table `difficulty_multiplier`: each binary32 constant as `(m, e)`, meaning `m / 2^e`
(0.15f, 0.17f, 0.19f, 0.23f, 0.27f). -/
def difficulty_multiplier : List (Nat × Nat) :=
  [(10066330, 26), (11408507, 26), (12750684, 26), (15435039, 26), (9059697, 25)]

/-- Number of low bits a product loses when it is rounded to a 24-bit significand. -/
def f32_excess_bits : Nat → Nat → Nat
  | 0, _ => 0
  | k + 1, p => if p < 2 ^ 24 then 0 else 1 + f32_excess_bits k (p / 2)

/-- Rounding of an exact integer product to a 24-bit significand, ties to even. -/
def f32_round (p : Nat) : Nat :=
  let s := f32_excess_bits 64 p
  let q := p / 2 ^ s
  let r := p % 2 ^ s
  if 2 * r > 2 ^ s ∨ (2 * r = 2 ^ s ∧ q % 2 = 1) then (q + 1) * 2 ^ s else q * 2 ^ s

/-- The statement `uint16_t num_mines = board_tile_count * difficulty_multiplier[board_difficulty]`:
binary32 product, truncated to an integer, stored in a `uint16_t`. Reading the table past its end
is undefined. -/
def num_mines_of (board_tile_count board_difficulty : Nat) : Option Nat :=
  match difficulty_multiplier[board_difficulty]? with
  | none => none
  | some (m, e) => some ((f32_round (board_tile_count * m) / 2 ^ e) % 65536)

/-- The test `is_invalid_position` of the placement loop. -/
def is_invalid_position (board_tile_count board_width board_height rand_pos x y : Nat) : Prop :=
  rand_pos = 0 ∨ (x = 0 ∧ y = 1) ∨ (x = 1 ∧ y = 0) ∨
    (rand_pos : Int) = (board_tile_count : Int) - 1 ∨
    (x = 0 ∧ (y : Int) = (board_width : Int) - 1) ∨
    ((x : Int) = (board_height : Int) - 1 ∧ y = 0)

instance (tc w h r x y : Nat) : Decidable (is_invalid_position tc w h r x y) := by
  unfold is_invalid_position; infer_instance

/-- The `do { ... } while (...)` loop that draws one mine position: returns the accepted
`rand_pos` and the remaining draws. -/
def draw_mine_position (board_tile_count board_width board_height : Nat) (tiles : Nat → Nat) :
    List Nat → Option (Nat × List Nat)
  | [] => none
  | r :: rest =>
    let rand_pos := (r % board_tile_count) % 65536
    let x := rand_pos / board_width
    let y := rand_pos % board_width
    if tiles rand_pos = MineSweeperGameScreenTileMine ∨
        is_invalid_position board_tile_count board_width board_height rand_pos x y then
      draw_mine_position board_tile_count board_width board_height tiles rest
    else some (rand_pos, rest)

/-- The loop `for (i = 0; i < num_mines; i++)` that places the mines. -/
def place_mines (board_tile_count board_width board_height : Nat) :
    Nat → (Nat → Nat) → List Nat → Option (Nat → Nat)
  | 0, tiles, _ => some tiles
  | n + 1, tiles, draws =>
    match draw_mine_position board_tile_count board_width board_height tiles draws with
    | none => none
    | some (rand_pos, rest) =>
      place_mines board_tile_count board_width board_height n
        (upd tiles rand_pos MineSweeperGameScreenTileMine) rest

/-- The inner loop of the count pass: `mine_count` for tile `i`. -/
def mine_count_at (board_width board_height : Nat) (tiles : Nat → Nat) (i : Nat) : Nat :=
  let x := i / board_width
  let y := i % board_width
  (valid_neighbors board_width board_height x y).countP
    (fun p => tiles (pos_1d board_width p.x p.y) = MineSweeperGameScreenTileMine)

/-- One iteration of the count pass `for (i = 0; i < board_tile_count; i++)`. -/
def count_step (board_width board_height : Nat) (tiles : Nat → Nat) (i : Nat) : Nat → Nat :=
  if tiles i = MineSweeperGameScreenTileMine then tiles
  else upd tiles i (mine_count_at board_width board_height tiles i + 1)

/-- The count pass over the whole `tiles` buffer, in place. -/
def count_pass (board_tile_count board_width board_height : Nat) (tiles : Nat → Nat) : Nat → Nat :=
  (List.range board_tile_count).foldl (count_step board_width board_height) tiles

/-- The loop that saves `tiles` to the view model: type from the buffer, state Uncleared. -/
def save_tiles (board_tile_count : Nat) (tiles : Nat → Nat) (board : Nat → MineSweeperTile) :
    Nat → MineSweeperTile :=
  (List.range board_tile_count).foldl
    (fun b i => upd b i
      { tile_state := MineSweeperGameScreenTileState.Uncleared, tile_type := tiles i }) board

/-- The tile buffer computed by `setup_board` before it is saved to the model. -/
def setup_tiles (board_width board_height board_difficulty : Nat) (draws : List Nat) :
    Option (Nat → Nat) :=
  let board_tile_count := (board_width * board_height) % 65536
  match num_mines_of board_tile_count board_difficulty with
  | none => none
  | some num_mines =>
    match place_mines board_tile_count board_width board_height num_mines
        (fun _ => MineSweeperGameScreenTileNone) draws with
    | none => none
    | some tiles => some (count_pass board_tile_count board_width board_height tiles)

/-- The function `setup_board`, on the model. -/
def setup_board_model (draws : List Nat) (model : MineSweeperGameScreenModel) :
    Option MineSweeperGameScreenModel :=
  let board_tile_count := (model.board_width * model.board_height) % 65536
  match num_mines_of board_tile_count model.board_difficulty,
      setup_tiles model.board_width model.board_height model.board_difficulty draws with
  | some num_mines, some tiles =>
    some { model with
      board := save_tiles board_tile_count tiles model.board
      mines_left := num_mines
      flags_left := num_mines
      curr_pos := { x_abs := 0, y_abs := 0 }
      is_making_first_move := true }
  | _, _ => none

/-- The function `setup_board`: it rewrites the model and leaves the view callbacks alone. -/
def setup_board (draws : List Nat) (inst : MineSweeperGameScreen) : Option MineSweeperGameScreen :=
  match setup_board_model draws inst.model with
  | none => none
  | some model => some { inst with model := model }

/-! ## Flood fill and nearest uncleared tile -/

/-- The `while (point_deq_size(deq) > 0)` loop of `bfs_tile_clear`: `deq` is the deque (front
first), `set` the visited set. -/
def bfs_tile_clear_loop :
    Nat → List Point → List Point → MineSweeperGameScreenModel → Option MineSweeperGameScreenModel
  | _, [], _, model => some model
  | 0, _ :: _, _, _ => none
  | fuel + 1, pos :: deq, set, model =>
    let curr_pos_1d := pos_1d model.board_width pos.x pos.y
    if pos ∈ set then bfs_tile_clear_loop fuel deq set model
    else
      let model1 := { model with
        board := upd model.board curr_pos_1d
          { model.board curr_pos_1d with tile_state := MineSweeperGameScreenTileState.Cleared } }
      if (model1.board curr_pos_1d).tile_type ≠ MineSweeperGameScreenTileZero then
        bfs_tile_clear_loop fuel deq (pos :: set) model1
      else
        bfs_tile_clear_loop fuel
          (deq ++ valid_neighbors model.board_width model.board_height pos.x pos.y)
          (pos :: set) model1

/-- Fuel that lets either search loop run to the end on a `board_width * board_height` board. -/
def bfs_fuel (model : MineSweeperGameScreenModel) : Nat :=
  8 * (model.board_width * model.board_height) + 2

/-- The function `bfs_tile_clear`: flood fill from the cursor. -/
def bfs_tile_clear (model : MineSweeperGameScreenModel) : Option MineSweeperGameScreenModel :=
  let start_pos : Point := { x := model.curr_pos.x_abs, y := model.curr_pos.y_abs }
  bfs_tile_clear_loop (bfs_fuel model) [start_pos] [] model

/-- The `while` loop of `bfs_to_closest_tile`. The outer `none` is fuel exhaustion; the inner
option is the local `result`, which stays unassigned when the deque runs empty. -/
def bfs_to_closest_tile_loop (model : MineSweeperGameScreenModel) (start_pos : Point) :
    Nat → List Point → List Point → Option (Option Point)
  | _, [], _ => some none
  | 0, _ :: _, _ => none
  | fuel + 1, curr_pos :: deq, set =>
    let curr_pos_1d := pos_1d model.board_width curr_pos.x curr_pos.y
    if (model.board curr_pos_1d).tile_state = MineSweeperGameScreenTileState.Uncleared ∧
        ¬ (start_pos.x = curr_pos.x ∧ start_pos.y = curr_pos.y) then
      some (some curr_pos)
    else if curr_pos ∈ set then bfs_to_closest_tile_loop model start_pos fuel deq set
    else
      bfs_to_closest_tile_loop model start_pos fuel
        (deq ++ valid_neighbors model.board_width model.board_height curr_pos.x curr_pos.y)
        (curr_pos :: set)

/-- The function `bfs_to_closest_tile`. -/
def bfs_to_closest_tile (model : MineSweeperGameScreenModel) : Option (Option Point) :=
  let start_pos : Point := { x := model.curr_pos.x_abs, y := model.curr_pos.y_abs }
  bfs_to_closest_tile_loop model start_pos (bfs_fuel model) [start_pos] []

/-! ## Input handling -/

/-- Keys of an input event. -/
inductive InputKey
  | Up
  | Down
  | Right
  | Left
  | Ok
  | Back
  deriving DecidableEq

/-- Types of an input event. -/
inductive InputType
  | Press
  | Release
  | Short
  | Long
  | Repeat
  deriving DecidableEq

/-- An input event. -/
structure InputEvent where
  key : InputKey
  type : InputType
  deriving DecidableEq

/-- The `switch (event->key)` cursor update shared by the play and the end input callbacks
(cursor part only; the default case is handled by the callers). -/
def move_cursor (key : InputKey) (model : MineSweeperGameScreenModel) :
    MineSweeperGameScreenModel :=
  match key with
  | InputKey.Up =>
    { model with curr_pos := { model.curr_pos with
        x_abs := if model.curr_pos.x_abs - 1 < 0 then 0 else model.curr_pos.x_abs - 1 } }
  | InputKey.Down =>
    { model with curr_pos := { model.curr_pos with
        x_abs := if model.curr_pos.x_abs + 1 ≥ (model.board_height : Int)
          then (model.board_height : Int) - 1 else model.curr_pos.x_abs + 1 } }
  | InputKey.Left =>
    { model with curr_pos := { model.curr_pos with
        y_abs := if model.curr_pos.y_abs - 1 < 0 then 0 else model.curr_pos.y_abs - 1 } }
  | InputKey.Right =>
    { model with curr_pos := { model.curr_pos with
        y_abs := if model.curr_pos.y_abs + 1 ≥ (model.board_width : Int)
          then (model.board_width : Int) - 1 else model.curr_pos.y_abs + 1 } }
  | _ => model

/-- The tile state written by the flag branch of the play input callback, with both counters
(`uint16_t` increments and decrements). -/
def toggle_flag (model : MineSweeperGameScreenModel) (curr_pos_1d : Nat) :
    MineSweeperGameScreenModel :=
  let tile := model.board curr_pos_1d
  if tile.tile_state = MineSweeperGameScreenTileState.Flagged then
    { model with
      mines_left := if tile.tile_type = MineSweeperGameScreenTileMine
        then (model.mines_left + 1) % 65536 else model.mines_left
      board := upd model.board curr_pos_1d
        { tile with tile_state := MineSweeperGameScreenTileState.Uncleared }
      flags_left := (model.flags_left + 1) % 65536
      is_holding_down_button := true }
  else if model.flags_left > 0 then
    { model with
      mines_left := if tile.tile_type = MineSweeperGameScreenTileMine
        then (model.mines_left + 65535) % 65536 else model.mines_left
      board := upd model.board curr_pos_1d
        { tile with tile_state := MineSweeperGameScreenTileState.Flagged }
      flags_left := (model.flags_left + 65535) % 65536
      is_holding_down_button := true }
  else model

/-- The function `mine_sweeper_game_screen_view_play_input_callback`. A jump whose search leaves
`result` unassigned is undefined (`none`). -/
def mine_sweeper_game_screen_view_play_input_callback (event : InputEvent)
    (inst : MineSweeperGameScreen) : Option MineSweeperGameScreen :=
  let model := inst.model
  let curr_pos_1d := pos_1d model.board_width model.curr_pos.x_abs model.curr_pos.y_abs
  let state := (model.board curr_pos_1d).tile_state
  let type := (model.board curr_pos_1d).tile_type
  if event.key = InputKey.Ok then
    if event.type = InputType.Press then
      let cleared : MineSweeperGameScreenModel := { model with
        board := upd model.board curr_pos_1d
          { model.board curr_pos_1d with tile_state := MineSweeperGameScreenTileState.Cleared } }
      if state = MineSweeperGameScreenTileState.Uncleared ∧
          type = MineSweeperGameScreenTileMine then
        some { callbacks := ViewCallbacks.lose, model := cleared }
      else if state = MineSweeperGameScreenTileState.Uncleared then
        match bfs_tile_clear cleared with
        | none => none
        | some model1 => some { inst with model := model1 }
      else some inst
    else some inst
  else if event.key = InputKey.Back ∧ event.type = InputType.Release then
    some { inst with model := { model with is_holding_down_button := false } }
  else if event.key = InputKey.Back ∧
      (event.type = InputType.Long ∨ event.type = InputType.Repeat) then
    if state = MineSweeperGameScreenTileState.Cleared then
      match bfs_to_closest_tile model with
      | some (some res) =>
        some { inst with model := { model with
          curr_pos := { x_abs := res.x, y_abs := res.y }
          is_holding_down_button := true } }
      | _ => none
    else if ¬ model.is_holding_down_button = true ∧
        (state = MineSweeperGameScreenTileState.Uncleared ∨
          state = MineSweeperGameScreenTileState.Flagged) then
      let model1 := toggle_flag model curr_pos_1d
      if model1.flags_left = 0 ∧ model1.mines_left = 0 then
        some { callbacks := ViewCallbacks.win, model := model1 }
      else some { inst with model := model1 }
    else some inst
  else if event.type = InputType.Press ∨ event.type = InputType.Repeat then
    some { inst with model := move_cursor event.key model }
  else some inst

/-- The function `mine_sweeper_game_screen_view_end_input_callback`. -/
def mine_sweeper_game_screen_view_end_input_callback (event : InputEvent) (draws : List Nat)
    (inst : MineSweeperGameScreen) : Option MineSweeperGameScreen :=
  if event.type = InputType.Press ∨ event.type = InputType.Repeat then
    match event.key with
    | InputKey.Up => some { inst with model := move_cursor InputKey.Up inst.model }
    | InputKey.Down => some { inst with model := move_cursor InputKey.Down inst.model }
    | InputKey.Left => some { inst with model := move_cursor InputKey.Left inst.model }
    | InputKey.Right => some { inst with model := move_cursor InputKey.Right inst.model }
    | _ => setup_board draws { inst with callbacks := ViewCallbacks.play }
  else some inst

/-- Delivery of an input event to the input callback currently installed on the view. -/
def view_input (event : InputEvent) (draws : List Nat) (inst : MineSweeperGameScreen) :
    Option MineSweeperGameScreen :=
  match inst.callbacks with
  | ViewCallbacks.play => mine_sweeper_game_screen_view_play_input_callback event inst
  | _ => mine_sweeper_game_screen_view_end_input_callback event draws inst

/-- The function `mine_sweeper_game_screen_set_board_information`. -/
def mine_sweeper_game_screen_set_board_information (width height difficulty : Nat)
    (inst : MineSweeperGameScreen) : MineSweeperGameScreen :=
  let width := if width > 146 then 146 else width
  let width := if width < 16 then 16 else width
  let height := if height > 64 then 64 else height
  let height := if height < 7 then 7 else height
  let difficulty := if difficulty > 4 then 4 else difficulty
  { inst with model := { inst.model with
      board_width := width, board_height := height, board_difficulty := difficulty } }

/-- The function `mine_sweeper_game_screen_alloc`; `model0` is the freshly allocated view model. -/
def mine_sweeper_game_screen_alloc (width height difficulty : Nat) (draws : List Nat)
    (model0 : MineSweeperGameScreenModel) : Option MineSweeperGameScreen :=
  setup_board draws
    (mine_sweeper_game_screen_set_board_information width height difficulty
      { callbacks := ViewCallbacks.play, model := model0 })

/-- The function `mine_sweeper_game_screen_reset`. -/
def mine_sweeper_game_screen_reset (width height difficulty : Nat) (draws : List Nat)
    (inst : MineSweeperGameScreen) : Option MineSweeperGameScreen :=
  setup_board draws (mine_sweeper_game_screen_set_board_information width height difficulty inst)

/-- What can happen to a game screen after allocation: an input event is delivered, or the
public reset is called with `uint8_t` arguments. -/
inductive Action
  | input (event : InputEvent)
  | reset (width height difficulty : Nat)
  deriving DecidableEq

/-- One action together with the random draws available while it is handled. -/
def apply_action (a : Action × List Nat) (inst : MineSweeperGameScreen) :
    Option MineSweeperGameScreen :=
  match a.1 with
  | Action.input event => view_input event a.2 inst
  | Action.reset width height difficulty =>
    mine_sweeper_game_screen_reset width height difficulty a.2 inst

/-- A sequence of actions applied in order. -/
def run_actions : List (Action × List Nat) → MineSweeperGameScreen → Option MineSweeperGameScreen
  | [], inst => some inst
  | a :: rest, inst =>
    match apply_action a inst with
    | none => none
    | some inst1 => run_actions rest inst1

/-- A session: allocation followed by a sequence of actions. -/
def session (width height difficulty : Nat) (draws : List Nat)
    (model0 : MineSweeperGameScreenModel) (actions : List (Action × List Nat)) :
    Option MineSweeperGameScreen :=
  match mine_sweeper_game_screen_alloc width height difficulty draws model0 with
  | none => none
  | some inst => run_actions actions inst

/-- Number of indices below `n` whose entry satisfies `P`. -/
def count_tiles {α : Type} (n : Nat) (a : Nat → α) (P : α → Bool) : Nat :=
  (List.range n).countP (fun i => P (a i))

/-- Number of tiles of the board that are currently Flagged. -/
def flagged_count (model : MineSweeperGameScreenModel) : Nat :=
  count_tiles (model.board_width * model.board_height) model.board
    (fun t => decide (t.tile_state = MineSweeperGameScreenTileState.Flagged))

/-- Number of tiles of the board that are Flagged and of type Mine. -/
def flagged_mine_count (model : MineSweeperGameScreenModel) : Nat :=
  count_tiles (model.board_width * model.board_height) model.board
    (fun t => decide (t.tile_state = MineSweeperGameScreenTileState.Flagged ∧
      t.tile_type = MineSweeperGameScreenTileMine))

/-- Number of tiles of the board of type Mine. -/
def mine_total (model : MineSweeperGameScreenModel) : Nat :=
  count_tiles (model.board_width * model.board_height) model.board
    (fun t => decide (t.tile_type = MineSweeperGameScreenTileMine))

/-- A zeroed view model, as a freshly allocated one. -/
def zero_model : MineSweeperGameScreenModel :=
  { board := fun _ =>
      { tile_state := MineSweeperGameScreenTileState.Flagged,
        tile_type := MineSweeperGameScreenTileNone }
    curr_pos := { x_abs := 0, y_abs := 0 }
    board_width := 0
    board_height := 0
    board_difficulty := 0
    mines_left := 0
    flags_left := 0
    is_making_first_move := false
    is_holding_down_button := false }

/-! ## Notions used in the statements -/

/-- A position lies on the board. -/
def in_bounds (board_width board_height : Nat) (p : Point) : Prop :=
  0 ≤ p.x ∧ p.x < (board_height : Int) ∧ 0 ≤ p.y ∧ p.y < (board_width : Int)

instance (w h : Nat) (p : Point) : Decidable (in_bounds w h p) := by
  unfold in_bounds; infer_instance

/-- Tile `j` is one of the 8 neighbours of tile `i` on a board of the given width: the two are
different and their rows and their columns differ by at most one. -/
def is_neighbor_index (board_width i j : Nat) : Prop :=
  j ≠ i ∧ i / board_width ≤ j / board_width + 1 ∧ j / board_width ≤ i / board_width + 1 ∧
    i % board_width ≤ j % board_width + 1 ∧ j % board_width ≤ i % board_width + 1

instance (w i j : Nat) : Decidable (is_neighbor_index w i j) := by
  unfold is_neighbor_index; infer_instance

/-- Number of tiles of the board that are 8-neighbours of tile `i` and hold a mine. -/
def mined_neighbors (board_width board_height : Nat) (types : Nat → Nat) (i : Nat) : Nat :=
  ((List.range (board_width * board_height)).filter
    (fun j => is_neighbor_index board_width i j ∧ types j = MineSweeperGameScreenTileMine)).length

/-! ## A concrete session -/

/-- A sequence of random draws: the first is rejected as a protected position, the third as
already mined, and sixteen are accepted. -/
def demo_draws : List Nat :=
  [0, 70, 70, 71, 72, 73, 74, 75, 76, 77, 78, 81, 82, 83, 84, 85, 86, 87]

/-- A game screen just before its first `setup_board`: a zeroed model with the board
information for a 16 x 7 board of difficulty 0. -/
def demo_fresh : MineSweeperGameScreen :=
  mine_sweeper_game_screen_set_board_information 16 7 0
    { callbacks := ViewCallbacks.play, model := zero_model }

/-- The game screen after `setup_board` with the draws `demo_draws`. -/
def demo_screen : MineSweeperGameScreen :=
  (setup_board demo_draws demo_fresh).getD demo_fresh

/-! ## Notions for the flood fill -/

/-- 8-connected adjacency of two positions. -/
def adjacent (p q : Point) : Prop :=
  q ≠ p ∧ p.x - 1 ≤ q.x ∧ q.x ≤ p.x + 1 ∧ p.y - 1 ≤ q.y ∧ q.y ≤ p.y + 1

/-- The tile type stored at a position of the board. -/
def type_at (model : MineSweeperGameScreenModel) (p : Point) : Nat :=
  (model.board (pos_1d model.board_width p.x p.y)).tile_type

/-- The tile state stored at a position of the board. -/
def state_at (model : MineSweeperGameScreenModel) (p : Point) : MineSweeperGameScreenTileState :=
  (model.board (pos_1d model.board_width p.x p.y)).tile_state

/-- There is an 8-connected in-bounds path `start = p 0, p 1, ..., p k = t` in which every tile
except possibly the last has type Zero. -/
def zero_path_exists (model : MineSweeperGameScreenModel) (start t : Point) : Prop :=
  ∃ (k : Nat) (p : Nat → Point), p 0 = start ∧ p k = t ∧
    (∀ i, i ≤ k → in_bounds model.board_width model.board_height (p i)) ∧
    (∀ i, i < k → adjacent (p i) (p (i + 1)) ∧
      type_at model (p i) = MineSweeperGameScreenTileZero)

/-- Positions the flood fill can reach: the start, and every valid neighbour of a reachable
position of type Zero. -/
inductive zero_reach (model : MineSweeperGameScreenModel) (start : Point) : Point → Prop
  | base : zero_reach model start start
  | step (p q : Point) : zero_reach model start p →
      type_at model p = MineSweeperGameScreenTileZero →
      q ∈ valid_neighbors model.board_width model.board_height p.x p.y →
      zero_reach model start q

/-- Two models agree on everything but the board. -/
def same_except_board (m m0 : MineSweeperGameScreenModel) : Prop :=
  m.curr_pos = m0.curr_pos ∧ m.board_width = m0.board_width ∧
    m.board_height = m0.board_height ∧ m.board_difficulty = m0.board_difficulty ∧
    m.mines_left = m0.mines_left ∧ m.flags_left = m0.flags_left ∧
    m.is_making_first_move = m0.is_making_first_move ∧
    m.is_holding_down_button = m0.is_holding_down_button

/-- Loop invariant of `bfs_tile_clear`, relative to the model `m0` at loop entry. -/
structure clear_inv (m0 : MineSweeperGameScreenModel) (start : Point)
    (deq set : List Point) (model : MineSweeperGameScreenModel) : Prop where
  same : same_except_board model m0
  cleared : ∀ p, p ∈ set → model.board (pos_1d m0.board_width p.x p.y) =
    { m0.board (pos_1d m0.board_width p.x p.y) with
      tile_state := MineSweeperGameScreenTileState.Cleared }
  untouched : ∀ i, (∀ p, p ∈ set → pos_1d m0.board_width p.x p.y ≠ i) →
    model.board i = m0.board i
  nodup : set.Nodup
  set_ok : ∀ p, p ∈ set → in_bounds m0.board_width m0.board_height p ∧ zero_reach m0 start p
  deq_ok : ∀ p, p ∈ deq → in_bounds m0.board_width m0.board_height p ∧ zero_reach m0 start p
  start_seen : start ∈ set ∨ start ∈ deq
  closed : ∀ p, p ∈ set → type_at m0 p = MineSweeperGameScreenTileZero →
    ∀ q, q ∈ valid_neighbors m0.board_width m0.board_height p.x p.y → q ∈ set ∨ q ∈ deq

/-! ## Notions for the nearest-tile search -/

/-- The 8-connected graph distance of two positions: the larger of the row difference and the
column difference. -/
def grid_distance (p q : Point) : Nat := max (q.x - p.x).natAbs (q.y - p.y).natAbs

/-- What the search looks for: an Uncleared tile other than the start. -/
def is_target (model : MineSweeperGameScreenModel) (start p : Point) : Prop :=
  state_at model p = MineSweeperGameScreenTileState.Uncleared ∧ p ≠ start

/-- Loop invariant of `bfs_to_closest_tile`: the deque is `A ++ B`, where `A` holds positions
queued at distance level `L` and `B` those queued at level `L + 1`. -/
structure closest_inv (model : MineSweeperGameScreenModel) (start : Point) (L : Nat)
    (A B set : List Point) : Prop where
  nodup : set.Nodup
  set_ok : ∀ p, p ∈ set → in_bounds model.board_width model.board_height p ∧
    grid_distance start p ≤ L ∧ ¬ is_target model start p
  below : ∀ p, in_bounds model.board_width model.board_height p →
    grid_distance start p < L → p ∈ set
  level : ∀ p, in_bounds model.board_width model.board_height p →
    grid_distance start p = L → p ∈ set ∨ p ∈ A
  a_ok : ∀ p, p ∈ A → in_bounds model.board_width model.board_height p ∧
    grid_distance start p ≤ L
  b_ok : ∀ p, p ∈ B → in_bounds model.board_width model.board_height p ∧
    grid_distance start p ≤ L + 1
  next : ∀ p, p ∈ set → grid_distance start p = L →
    ∀ q, q ∈ valid_neighbors model.board_width model.board_height p.x p.y →
      grid_distance start q = L + 1 → q ∈ B

/-! ## Session invariant -/

/-- The tile types of the model as an array of enum values. -/
def types_of (model : MineSweeperGameScreenModel) : Nat → Nat :=
  fun j => (model.board j).tile_type

/-- Every tile of the board that is not a Mine holds one more than the number of mines that the
count pass finds around it. -/
def counts_consistent (model : MineSweeperGameScreenModel) : Prop :=
  ∀ i, i < model.board_width * model.board_height →
    (model.board i).tile_type ≠ MineSweeperGameScreenTileMine →
    (model.board i).tile_type =
      mine_count_at model.board_width model.board_height (types_of model) i + 1

/-- What holds of the model in every state of a session. -/
structure model_inv (model : MineSweeperGameScreenModel) : Prop where
  width_pos : 0 < model.board_width
  width_lt : model.board_width < 256
  height_pos : 0 < model.board_height
  height_lt : model.board_height < 256
  cursor : in_bounds model.board_width model.board_height
    { x := model.curr_pos.x_abs, y := model.curr_pos.y_abs }
  consistent : counts_consistent model
  mines : num_mines_of (model.board_width * model.board_height) model.board_difficulty =
    some (mine_total model)
  mines_left : model.mines_left + flagged_mine_count model = mine_total model
  flags_left : model.flags_left + flagged_count model ≤ mine_total model

/-! ## Notions for winning and losing -/

/-- Every Mine tile of the board is Flagged and no tile that is not a Mine is Flagged. -/
def won_board (model : MineSweeperGameScreenModel) : Prop :=
  (∀ i, i < model.board_width * model.board_height →
    (model.board i).tile_type = MineSweeperGameScreenTileMine →
    (model.board i).tile_state = MineSweeperGameScreenTileState.Flagged) ∧
  (∀ i, i < model.board_width * model.board_height →
    (model.board i).tile_type ≠ MineSweeperGameScreenTileMine →
    (model.board i).tile_state ≠ MineSweeperGameScreenTileState.Flagged)

/-- The event reaches the flag branch of the play input callback, at whose end the win check is
made: a long or repeated Back while the tile under the cursor is not Cleared and the button is
not marked as held down. -/
def flag_check_made (event : InputEvent) (model : MineSweeperGameScreenModel) : Prop :=
  event.key = InputKey.Back ∧
    (event.type = InputType.Long ∨ event.type = InputType.Repeat) ∧
    (model.board (pos_1d model.board_width model.curr_pos.x_abs
      model.curr_pos.y_abs)).tile_state ≠ MineSweeperGameScreenTileState.Cleared ∧
    model.is_holding_down_button = false

/-- The event is a reveal of an Uncleared Mine: an Ok press while the tile under the cursor is
Uncleared and of type Mine. -/
def reveals_mine (event : InputEvent) (model : MineSweeperGameScreenModel) : Prop :=
  event.key = InputKey.Ok ∧ event.type = InputType.Press ∧
    (model.board (pos_1d model.board_width model.curr_pos.x_abs
      model.curr_pos.y_abs)).tile_state = MineSweeperGameScreenTileState.Uncleared ∧
    (model.board (pos_1d model.board_width model.curr_pos.x_abs
      model.curr_pos.y_abs)).tile_type = MineSweeperGameScreenTileMine

/-- An input event with no random draws attached. -/
def demo_input (key : InputKey) (type : InputType) : Action × List Nat :=
  (Action.input { key := key, type := type }, [])

/-- Flag the tile right of the top left corner, go back to the corner and reveal it. -/
def demo_actions : List (Action × List Nat) :=
  [demo_input InputKey.Right InputType.Press,
   demo_input InputKey.Back InputType.Long,
   demo_input InputKey.Back InputType.Release,
   demo_input InputKey.Left InputType.Press,
   demo_input InputKey.Ok InputType.Press]

/-- Walk to the mine at row 4, column 6 and flag it. -/
def demo_flag_mine : List (Action × List Nat) :=
  [demo_input InputKey.Down InputType.Press,
   demo_input InputKey.Down InputType.Press,
   demo_input InputKey.Down InputType.Press,
   demo_input InputKey.Down InputType.Press,
   demo_input InputKey.Right InputType.Press,
   demo_input InputKey.Right InputType.Press,
   demo_input InputKey.Right InputType.Press,
   demo_input InputKey.Right InputType.Press,
   demo_input InputKey.Right InputType.Press,
   demo_input InputKey.Right InputType.Press,
   demo_input InputKey.Back InputType.Long]

/-- The state of the session with the draws `demo_draws` after the actions `demo_flag_mine`. -/
def demo_flagged : MineSweeperGameScreen :=
  (session 16 7 0 demo_draws zero_model demo_flag_mine).getD demo_fresh

/-- Set a flag on the tile under the cursor and let go of the button. -/
def demo_flag_here : List (Action × List Nat) :=
  [demo_input InputKey.Back InputType.Long, demo_input InputKey.Back InputType.Release]

/-- Flag fifteen of the sixteen mines placed by `demo_draws` (row 4, columns 6 to 14, and
row 5, columns 7 down to 2) and stop on the last mine, at row 5, column 1. -/
def demo_flag_fifteen : List (Action × List Nat) :=
  List.replicate 4 (demo_input InputKey.Down InputType.Press) ++
  List.replicate 6 (demo_input InputKey.Right InputType.Press) ++
  demo_flag_here ++
  (List.replicate 8 (demo_input InputKey.Right InputType.Press :: demo_flag_here)).flatten ++
  [demo_input InputKey.Down InputType.Press] ++
  List.replicate 7 (demo_input InputKey.Left InputType.Press) ++
  demo_flag_here ++
  (List.replicate 5 (demo_input InputKey.Left InputType.Press :: demo_flag_here)).flatten ++
  [demo_input InputKey.Left InputType.Press]

/-- The state of the session one flag before the win. -/
def demo_before_win : MineSweeperGameScreen :=
  (session 16 7 0 demo_draws zero_model demo_flag_fifteen).getD demo_fresh

/-- The state after the last mine has been flagged. -/
def demo_won : MineSweeperGameScreen :=
  (apply_action (demo_input InputKey.Back InputType.Long) demo_before_win).getD demo_fresh

/-- What holds of the game screen in every state of a session: the board has a supported size,
and a board on which every mine and nothing else is Flagged only occurs with the win callbacks
installed. -/
structure phase_inv (inst : MineSweeperGameScreen) : Prop where
  width_ge : 16 ≤ inst.model.board_width
  width_le : inst.model.board_width ≤ 146
  height_ge : 7 ≤ inst.model.board_height
  height_le : inst.model.board_height ≤ 64
  won_only : won_board inst.model → inst.callbacks = ViewCallbacks.win

/-- The state of the session of `demo_actions` just before its last action, the reveal of the
top left corner. -/
def demo_before_reveal : MineSweeperGameScreen :=
  (session 16 7 0 demo_draws zero_model (demo_actions.take 4)).getD demo_fresh

/-- The state after the reveal of the top left corner. -/
def demo_revealed : MineSweeperGameScreen :=
  (view_input { key := InputKey.Ok, type := InputType.Press } [] demo_before_reveal).getD
    demo_fresh

/-- The won state `demo_won` after an Up press. -/
def demo_won_moved : MineSweeperGameScreen :=
  (view_input { key := InputKey.Up, type := InputType.Press } [] demo_won).getD demo_fresh

/-- The key is one of the four direction keys. -/
def is_direction (key : InputKey) : Prop :=
  key = InputKey.Up ∨ key = InputKey.Down ∨ key = InputKey.Left ∨ key = InputKey.Right

instance (key : InputKey) : Decidable (is_direction key) := by
  unfold is_direction; infer_instance

/-- The state of the session in which the flood fill has swallowed a flag and fifteen mines
have been flagged: no flag is left and the cursor stands on the last, Uncleared mine. -/
def demo_no_flags : MineSweeperGameScreen :=
  (session 16 7 0 demo_draws zero_model (demo_actions ++ demo_flag_fifteen)).getD demo_fresh

/-- The state of the session after a flag has been set on the top left corner and the button
has been let go. -/
def demo_corner_flagged : MineSweeperGameScreen :=
  (session 16 7 0 demo_draws zero_model demo_flag_here).getD demo_fresh

instance (event : InputEvent) (model : MineSweeperGameScreenModel) :
    Decidable (flag_check_made event model) := by
  unfold flag_check_made; infer_instance

instance (event : InputEvent) (model : MineSweeperGameScreenModel) :
    Decidable (reveals_mine event model) := by
  unfold reveals_mine; infer_instance


/-! ## The mine count against the decimal densities -/

/-- The densities as the specification words them, in percent: 0.15, 0.17, 0.19, 0.23, 0.27. -/
def spec_density_percent : List Nat := [15, 17, 19, 23, 27]

/-- The mine count as the specification words it: `floor(width * height * density)`, with the
decimal density of the level. -/
def spec_mine_count (board_tile_count board_difficulty : Nat) : Option Nat :=
  match spec_density_percent[board_difficulty]? with
  | none => none
  | some pct => some (board_tile_count * pct / 100)

/-- The rounding of `f32_round` with the number `s` of lost bits given, written with the
primitive operations of `Nat`. -/
def f32_round_at (s p : Nat) : Nat :=
  bif Nat.ble (Nat.succ (Nat.pow 2 s)) (Nat.mul 2 (Nat.mod p (Nat.pow 2 s))) ||
      (Nat.beq (Nat.mul 2 (Nat.mod p (Nat.pow 2 s))) (Nat.pow 2 s) &&
        Nat.beq (Nat.mod (Nat.div p (Nat.pow 2 s)) 2) 1)
  then Nat.mul (Nat.succ (Nat.div p (Nat.pow 2 s))) (Nat.pow 2 s)
  else Nat.mul (Nat.div p (Nat.pow 2 s)) (Nat.pow 2 s)

/-- Test that `s` is the number of bits the product `p` loses: `p` has `24 + s` bits, or fits
in 24 bits when `s = 0`. -/
def excess_ok (s p : Nat) : Bool :=
  Nat.ble s 64 &&
    (bif Nat.beq s 0 then Nat.ble (Nat.succ p) (Nat.pow 2 24)
    else Nat.ble (Nat.pow 2 (Nat.add 23 s)) p && Nat.ble (Nat.succ p) (Nat.pow 2 (Nat.add 24 s)))

/-- A candidate for the number of bits the product `p` loses, found by comparing `p` with the
powers of two from `2^24` to `2^38`. -/
def excess_guess (p : Nat) : Nat :=
  bif Nat.ble p 4294967295 then
    bif Nat.ble p 268435455 then
      bif Nat.ble p 67108863 then
        bif Nat.ble p 33554431 then
          bif Nat.ble p 16777215 then 0 else 1
        else 2
      else bif Nat.ble p 134217727 then 3 else 4
    else
      bif Nat.ble p 1073741823 then
        bif Nat.ble p 536870911 then 5 else 6
      else bif Nat.ble p 2147483647 then 7 else 8
  else
    bif Nat.ble p 68719476735 then
      bif Nat.ble p 17179869183 then
        bif Nat.ble p 8589934591 then 9 else 10
      else bif Nat.ble p 34359738367 then 11 else 12
    else
      bif Nat.ble p 274877906943 then
        bif Nat.ble p 137438953471 then 13 else 14
      else 15

/-- Test that for the tile count `tc` the binary32 product with the constant `m / 2^e`,
truncated and stored in a `uint16_t`, is the floor of `tc * pct / 100`. -/
def floor_agrees_at (tc m e pct : Nat) : Bool :=
  excess_ok (excess_guess (Nat.mul tc m)) (Nat.mul tc m) &&
    Nat.beq
      (Nat.mod (Nat.div (f32_round_at (excess_guess (Nat.mul tc m)) (Nat.mul tc m)) (Nat.pow 2 e))
        65536)
      (Nat.div (Nat.mul tc pct) 100)

/-- The test `floor_agrees_at` for the five difficulty levels. -/
def floor_agrees (tc : Nat) : Bool :=
  floor_agrees_at tc 10066330 26 15 && floor_agrees_at tc 11408507 26 17 &&
  floor_agrees_at tc 12750684 26 19 && floor_agrees_at tc 15435039 26 23 &&
  floor_agrees_at tc 9059697 25 27

/-- Conjunction of a test over all numbers below a bound. -/
def all_below (p : Nat → Bool) : Nat → Bool
  | 0 => true
  | n + 1 => p n && all_below p n

/-! ## Boards without mines and without Uncleared tiles -/

/-- A 4 x 4 board without mines, every tile Uncleared, with the cursor at row 1, column 2. -/
def demo_mine_free : MineSweeperGameScreen :=
  { callbacks := ViewCallbacks.play
    model := { zero_model with
      board := fun _ =>
        { tile_state := MineSweeperGameScreenTileState.Uncleared,
          tile_type := MineSweeperGameScreenTileZero }
      board_width := 4
      board_height := 4
      curr_pos := { x_abs := 1, y_abs := 2 } } }

/-- The board of `demo_mine_free` with every tile Cleared. -/
def demo_all_cleared : MineSweeperGameScreen :=
  { callbacks := ViewCallbacks.play
    model := { demo_mine_free.model with
      board := fun _ =>
        { tile_state := MineSweeperGameScreenTileState.Cleared,
          tile_type := MineSweeperGameScreenTileZero } } }

/-- The board of `demo_mine_free` with the tile under the cursor (index 6) Cleared and the
other fifteen tiles Uncleared. -/
def demo_cursor_cleared : MineSweeperGameScreen :=
  { callbacks := ViewCallbacks.play
    model := { demo_mine_free.model with
      board := upd demo_mine_free.model.board 6
        { tile_state := MineSweeperGameScreenTileState.Cleared,
          tile_type := MineSweeperGameScreenTileZero } } }

/-- While the play callbacks are installed no Mine tile of the board is Cleared. -/
def no_cleared_mine (inst : MineSweeperGameScreen) : Prop :=
  inst.callbacks = ViewCallbacks.play →
    ∀ i, i < inst.model.board_width * inst.model.board_height →
      (inst.model.board i).tile_type = MineSweeperGameScreenTileMine →
      (inst.model.board i).tile_state ≠ MineSweeperGameScreenTileState.Cleared

/-- The state of the session after the actions `demo_actions`: the top left corner has been
revealed and the cursor stands on it. -/
def demo_after_reveal : MineSweeperGameScreen :=
  (session 16 7 0 demo_draws zero_model demo_actions).getD demo_fresh

/-! ## Flags swallowed by the flood fill -/

/-- Number of tiles of the board that are Flagged in `model` and Cleared in `model1`. -/
def swallowed_count (model model1 : MineSweeperGameScreenModel) : Nat :=
  count_tiles (model.board_width * model.board_height)
    (fun i => (model.board i, model1.board i))
    (fun t => decide (t.1.tile_state = MineSweeperGameScreenTileState.Flagged ∧
      t.2.tile_state = MineSweeperGameScreenTileState.Cleared))

/-- The action generates a new board: the public reset, or, with the end input callback
installed, a press or repeat of a key that is not a direction key. -/
def generates_board (a : Action × List Nat) (inst : MineSweeperGameScreen) : Prop :=
  match a.1 with
  | Action.reset _ _ _ => True
  | Action.input event =>
    inst.callbacks ≠ ViewCallbacks.play ∧
      (event.type = InputType.Press ∨ event.type = InputType.Repeat) ∧
      ¬ is_direction event.key

instance (a : Action × List Nat) (inst : MineSweeperGameScreen) :
    Decidable (generates_board a inst) := by
  unfold generates_board
  split <;> infer_instance

/-- A sequence of actions applied in order as in `run_actions`, together with a count kept
beside the game screen: the number of Flagged tiles turned to Cleared since the board was
last generated. -/
def run_swallowed :
    List (Action × List Nat) → MineSweeperGameScreen → Nat →
      Option (MineSweeperGameScreen × Nat)
  | [], inst, k => some (inst, k)
  | a :: rest, inst, k =>
    match apply_action a inst with
    | none => none
    | some inst1 =>
      run_swallowed rest inst1
        (if generates_board a inst then 0 else k + swallowed_count inst.model inst1.model)

/-- A session as in `session`, together with the count of `run_swallowed`. -/
def session_swallowed (width height difficulty : Nat) (draws : List Nat)
    (model0 : MineSweeperGameScreenModel) (actions : List (Action × List Nat)) :
    Option (MineSweeperGameScreen × Nat) :=
  match mine_sweeper_game_screen_alloc width height difficulty draws model0 with
  | none => none
  | some inst => run_swallowed actions inst 0

/-! # Theorems -/

/-! ## Basic facts: array writes, counting, coordinates -/

@[simp] theorem upd_same {α : Type} (a : Nat → α) (i : Nat) (v : α) : upd a i v i = v := by
  simp [upd]

theorem upd_ne {α : Type} (a : Nat → α) (i j : Nat) (v : α) (h : j ≠ i) : upd a i v j = a j := by
  simp [upd, h]

theorem upd_apply {α : Type} (a : Nat → α) (i j : Nat) (v : α) :
    upd a i v j = if j = i then v else a j := rfl

theorem count_tiles_succ {α : Type} (n : Nat) (a : Nat → α) (P : α → Bool) :
    count_tiles (n + 1) a P = count_tiles n a P + (if P (a n) then 1 else 0) := by
  simp [count_tiles, List.range_succ, List.countP_append, List.countP_cons]

theorem count_tiles_le {α : Type} (n : Nat) (a : Nat → α) (P : α → Bool) :
    count_tiles n a P ≤ n := by
  unfold count_tiles
  calc (List.range n).countP _ ≤ (List.range n).length := List.countP_le_length _
    _ = n := List.length_range n

theorem count_tiles_mono {α β : Type} (n : Nat) (a : Nat → α) (b : Nat → β) (P : α → Bool)
    (Q : β → Bool) (h : ∀ i, i < n → P (a i) = true → Q (b i) = true) :
    count_tiles n a P ≤ count_tiles n b Q := by
  induction n with
  | zero => simp [count_tiles]
  | succ n ih =>
    rw [count_tiles_succ, count_tiles_succ]
    have h1 := ih (fun i hi => h i (by omega))
    have h2 := h n (by omega)
    by_cases hp : P (a n) = true
    · simp [hp, h2 hp]; omega
    · simp [hp]; split <;> omega

theorem count_tiles_congr {α β : Type} (n : Nat) (a : Nat → α) (b : Nat → β) (P : α → Bool)
    (Q : β → Bool) (h : ∀ i, i < n → (P (a i) = true ↔ Q (b i) = true)) :
    count_tiles n a P = count_tiles n b Q :=
  Nat.le_antisymm (count_tiles_mono n a b P Q (fun i hi => (h i hi).1))
    (count_tiles_mono n b a Q P (fun i hi => (h i hi).2))

theorem count_tiles_upd {α : Type} (n : Nat) (a : Nat → α) (P : α → Bool) (i : Nat) (v : α)
    (hi : i < n) :
    count_tiles n (upd a i v) P + (if P (a i) then 1 else 0) =
      count_tiles n a P + (if P v then 1 else 0) := by
  induction n with
  | zero => omega
  | succ n ih =>
    rw [count_tiles_succ, count_tiles_succ]
    by_cases hin : i = n
    · subst hin
      have : count_tiles i (upd a i v) P = count_tiles i a P :=
        count_tiles_congr _ _ _ _ _ (fun j hj => by rw [upd_ne _ _ _ _ (by omega)])
      rw [this, upd_same]; omega
    · have := ih (by omega)
      rw [upd_ne _ _ _ _ (fun h => hin h.symm)]; omega

/-- Equal counts of a property and of a weaker one force the two to agree everywhere. -/
theorem count_tiles_eq_forces {α : Type} (n : Nat) (a : Nat → α) (P Q : α → Bool)
    (hsub : ∀ i, i < n → P (a i) = true → Q (a i) = true)
    (heq : count_tiles n a Q ≤ count_tiles n a P) :
    ∀ i, i < n → Q (a i) = true → P (a i) = true := by
  induction n with
  | zero => intro i hi; omega
  | succ n ih =>
    rw [count_tiles_succ, count_tiles_succ] at heq
    have hle := count_tiles_mono n a a P Q (fun i hi => hsub i (by omega))
    have hn := hsub n (by omega)
    intro i hi hq
    by_cases hin : i = n
    · subst hin
      by_contra hp
      simp [hp, hq] at heq
      omega
    · refine ih (fun j hj => hsub j (by omega)) ?_ i (by omega) hq
      by_cases hp : P (a n) = true
      · simp [hp, hn hp] at heq; exact heq
      · simp [hp] at heq; split at heq <;> omega

theorem mul_lt_of_coords (w h a b : Nat) (ha : a < h) (hb : b < w) : a * w + b < w * h := by
  have h1 : (a + 1) * w ≤ h * w := Nat.mul_le_mul_right w ha
  have h2 : (a + 1) * w = a * w + w := by ring
  have h3 : h * w = w * h := Nat.mul_comm h w
  omega

theorem tile_count_lt (w h : Nat) (hw : w < 256) (hh : h < 256) : w * h < 65536 := by
  have : w * h ≤ 255 * 255 := Nat.mul_le_mul (by omega) (by omega)
  omega

theorem pos_1d_eq (w : Nat) (x y : Int) (hx : 0 ≤ x) (hy : 0 ≤ y)
    (h : x.toNat * w + y.toNat < 65536) : pos_1d w x y = x.toNat * w + y.toNat := by
  unfold pos_1d to_u16
  have : x * w + y = ((x.toNat * w + y.toNat : Nat) : Int) := by
    push_cast
    rw [Int.toNat_of_nonneg hx, Int.toNat_of_nonneg hy]
  rw [this]
  omega

/-- In-bounds positions have in-range indices from which the coordinates can be read back. -/
theorem pos_1d_in_bounds (w h : Nat) (hw : w < 256) (hh : h < 256) (p : Point)
    (hp : in_bounds w h p) :
    pos_1d w p.x p.y = p.x.toNat * w + p.y.toNat ∧ pos_1d w p.x p.y < w * h ∧
      ((pos_1d w p.x p.y / w : Nat) : Int) = p.x ∧ ((pos_1d w p.x p.y % w : Nat) : Int) = p.y := by
  obtain ⟨h1, h2, h3, h4⟩ := hp
  have hlt := mul_lt_of_coords w h p.x.toNat p.y.toNat (by omega) (by omega)
  have h65 := tile_count_lt w h hw hh
  have he := pos_1d_eq w p.x p.y h1 h3 (by omega)
  have hyw : p.y.toNat < w := by omega
  have hwpos : 0 < w := by omega
  refine ⟨he, by omega, ?_, ?_⟩
  · rw [he, Nat.add_comm, Nat.add_mul_div_right _ _ hwpos, Nat.div_eq_of_lt hyw]; omega
  · rw [he, Nat.add_comm, Nat.add_mul_mod_self_right, Nat.mod_eq_of_lt hyw]; omega

/-- Every index below the tile count is the index of the in-bounds position (i / w, i % w). -/
theorem index_in_bounds (w h i : Nat) (hw : w < 256) (hh : h < 256) (hi : i < w * h) :
    in_bounds w h { x := ((i / w : Nat) : Int), y := ((i % w : Nat) : Int) } ∧
      pos_1d w ((i / w : Nat) : Int) ((i % w : Nat) : Int) = i := by
  have hwpos : 0 < w := by
    rcases Nat.eq_zero_or_pos w with h0 | h0
    · subst h0; simp at hi
    · exact h0
  have hdiv : i / w < h := by
    rw [Nat.div_lt_iff_lt_mul hwpos]; rw [Nat.mul_comm]; exact hi
  have hmod : i % w < w := Nat.mod_lt _ hwpos
  have hib : in_bounds w h { x := ((i / w : Nat) : Int), y := ((i % w : Nat) : Int) } := by
    refine ⟨Int.ofNat_nonneg _, ?_, Int.ofNat_nonneg _, ?_⟩
    · show ((i / w : Nat) : Int) < h
      exact_mod_cast hdiv
    · show ((i % w : Nat) : Int) < w
      exact_mod_cast hmod
  refine ⟨hib, ?_⟩
  have := (pos_1d_in_bounds w h hw hh _ hib).1
  simp only at this
  rw [this]
  simp only [Int.toNat_ofNat]
  rw [Nat.mul_comm]; exact Nat.div_add_mod i w

theorem pos_1d_inj (w h : Nat) (hw : w < 256) (hh : h < 256) (p q : Point)
    (hp : in_bounds w h p) (hq : in_bounds w h q)
    (heq : pos_1d w p.x p.y = pos_1d w q.x q.y) : p = q := by
  obtain ⟨_, _, hp3, hp4⟩ := pos_1d_in_bounds w h hw hh p hp
  obtain ⟨_, _, hq3, hq4⟩ := pos_1d_in_bounds w h hw hh q hq
  rw [heq] at hp3 hp4
  obtain ⟨px, py⟩ := p
  obtain ⟨qx, qy⟩ := q
  simp only at hp3 hp4 hq3 hq4
  simp only [Point.mk.injEq]
  omega

theorem mem_valid_neighbors (w h : Nat) (x y : Int) (q : Point) :
    q ∈ valid_neighbors w h x y ↔
      in_bounds w h q ∧
      (¬ (q.x = x ∧ q.y = y) ∧ x - 1 ≤ q.x ∧ q.x ≤ x + 1 ∧ y - 1 ≤ q.y ∧ q.y ≤ y + 1) := by
  obtain ⟨qx, qy⟩ := q
  simp only [valid_neighbors, offsets, List.mem_filter, List.mem_map, List.mem_cons, Prod.exists,
    Prod.mk.injEq, Point.mk.injEq, List.mem_singleton, List.not_mem_nil, decide_eq_true_eq,
    in_bounds]
  constructor
  · rintro ⟨⟨a, b, hab, rfl, rfl⟩, hb⟩
    rcases hab with h1 | h1 | h1 | h1 | h1 | h1 | h1 | h1 | h1 <;>
      first
      | (obtain ⟨rfl, rfl⟩ := h1; omega)
      | exact absurd h1 (by simp)
  · rintro ⟨hb, hne, h1, h2, h3, h4⟩
    refine ⟨⟨qx - x, qy - y, ?_, by omega, by omega⟩, by omega⟩
    omega

theorem valid_neighbors_length_le (w h : Nat) (x y : Int) :
    (valid_neighbors w h x y).length ≤ 8 := by
  unfold valid_neighbors
  refine le_trans (List.length_filter_le _ _) ?_
  simp [offsets]

theorem valid_neighbors_nodup (w h : Nat) (x y : Int) : (valid_neighbors w h x y).Nodup := by
  unfold valid_neighbors
  apply List.Nodup.filter
  apply List.Nodup.map
  · intro a b hab
    simp only [Point.mk.injEq] at hab
    ext <;> omega
  · decide
/-! ## Board generation -/

theorem draw_mine_position_spec (tc w h : Nat) (tiles : Nat → Nat) (draws : List Nat)
    (pos : Nat) (rest : List Nat)
    (hd : draw_mine_position tc w h tiles draws = some (pos, rest)) :
    tiles pos ≠ MineSweeperGameScreenTileMine ∧
      ¬ is_invalid_position tc w h pos (pos / w) (pos % w) ∧ (0 < tc → pos < tc) := by
  induction draws with
  | nil => simp [draw_mine_position] at hd
  | cons r rs ih =>
    simp only [draw_mine_position] at hd
    split at hd
    · exact ih hd
    · rename_i hno
      simp only [Option.some.injEq, Prod.mk.injEq] at hd
      obtain ⟨rfl, _⟩ := hd
      refine ⟨fun hm => hno (Or.inl hm), fun hi => hno (Or.inr hi), fun htc => ?_⟩
      exact lt_of_le_of_lt (Nat.mod_le _ _) (Nat.mod_lt _ htc)

/-- The placement loop only adds mines, each at a position that passes the placement test, and
adds exactly `n` of them. -/
theorem place_mines_spec (tc w h : Nat) :
    ∀ (n : Nat) (tiles : Nat → Nat) (draws : List Nat) (tiles1 : Nat → Nat),
      place_mines tc w h n tiles draws = some tiles1 → (n = 0 ∨ 0 < tc) →
      (∀ i, tiles1 i = MineSweeperGameScreenTileMine ∨ tiles1 i = tiles i) ∧
      (∀ i, tiles i = MineSweeperGameScreenTileMine → tiles1 i = MineSweeperGameScreenTileMine) ∧
      (∀ i, tiles1 i = MineSweeperGameScreenTileMine → tiles i = MineSweeperGameScreenTileMine ∨
        (i < tc ∧ ¬ is_invalid_position tc w h i (i / w) (i % w))) ∧
      count_tiles tc tiles1 (fun t => decide (t = MineSweeperGameScreenTileMine)) =
        count_tiles tc tiles (fun t => decide (t = MineSweeperGameScreenTileMine)) + n := by
  intro n
  induction n with
  | zero =>
    intro tiles draws tiles1 hp _
    simp only [place_mines, Option.some.injEq] at hp
    subst hp
    exact ⟨fun i => Or.inr rfl, fun i hi => hi, fun i hi => Or.inl hi, rfl⟩
  | succ n ih =>
    intro tiles draws tiles1 hp htc
    have htc0 : 0 < tc := by omega
    simp only [place_mines] at hp
    split at hp
    · exact absurd hp (by simp)
    · rename_i pos rest hdraw
      obtain ⟨hnm, hninv, hlt⟩ := draw_mine_position_spec tc w h tiles draws pos rest hdraw
      have hpos := hlt htc0
      obtain ⟨h1, h2, h3, h4⟩ := ih _ _ _ hp (Or.inr htc0)
      refine ⟨?_, ?_, ?_, ?_⟩
      · intro i
        rcases h1 i with hi | hi
        · exact Or.inl hi
        · by_cases hip : i = pos
          · subst hip; rw [upd_same] at hi; exact Or.inl hi
          · rw [upd_ne _ _ _ _ hip] at hi; exact Or.inr hi
      · intro i hi
        apply h2
        by_cases hip : i = pos
        · subst hip; rw [upd_same]
        · rw [upd_ne _ _ _ _ hip]; exact hi
      · intro i hi
        rcases h3 i hi with hm | hm
        · by_cases hip : i = pos
          · subst hip; exact Or.inr ⟨hpos, hninv⟩
          · rw [upd_ne _ _ _ _ hip] at hm; exact Or.inl hm
        · exact Or.inr hm
      · rw [h4]
        have := count_tiles_upd tc tiles (fun t => decide (t = MineSweeperGameScreenTileMine)) pos
          MineSweeperGameScreenTileMine hpos
        simp only [hnm, decide_False, decide_True, if_true] at this
        simp at this
        omega

theorem mine_count_at_le (w h : Nat) (tiles : Nat → Nat) (i : Nat) :
    mine_count_at w h tiles i ≤ 8 := by
  unfold mine_count_at
  exact le_trans (List.countP_le_length _) (valid_neighbors_length_le _ _ _ _)

theorem mine_count_at_congr (w h : Nat) (t t1 : Nat → Nat) (i : Nat)
    (hc : ∀ j, t j = MineSweeperGameScreenTileMine ↔ t1 j = MineSweeperGameScreenTileMine) :
    mine_count_at w h t i = mine_count_at w h t1 i := by
  unfold mine_count_at
  apply List.countP_congr
  intro p _
  simp only [decide_eq_true_eq]
  exact hc _

theorem count_step_spec (w h : Nat) (t : Nat → Nat) (i : Nat) :
    (∀ j, count_step w h t i j = MineSweeperGameScreenTileMine ↔
      t j = MineSweeperGameScreenTileMine) ∧
    (t i ≠ MineSweeperGameScreenTileMine → count_step w h t i i = mine_count_at w h t i + 1) ∧
    (∀ j, j ≠ i → count_step w h t i j = t j) := by
  unfold count_step
  by_cases hm : t i = MineSweeperGameScreenTileMine
  · rw [if_pos hm]
    exact ⟨fun j => Iff.rfl, fun hne => absurd hm hne, fun j _ => rfl⟩
  · rw [if_neg hm]
    refine ⟨fun j => ?_, fun _ => upd_same _ _ _, fun j hj => upd_ne _ _ _ _ hj⟩
    by_cases hji : j = i
    · subst hji
      rw [upd_same]
      have := mine_count_at_le w h t j
      have e10 : MineSweeperGameScreenTileMine = 10 := rfl
      constructor
      · intro h10; omega
      · intro h10; exact absurd h10 hm
    · rw [upd_ne _ _ _ _ hji]

theorem count_pass_fold_spec (w h : Nat) (t0 : Nat → Nat) (k : Nat) :
    (∀ j, (List.range k).foldl (count_step w h) t0 j = MineSweeperGameScreenTileMine ↔
      t0 j = MineSweeperGameScreenTileMine) ∧
    (∀ j, j < k → t0 j ≠ MineSweeperGameScreenTileMine →
      (List.range k).foldl (count_step w h) t0 j = mine_count_at w h t0 j + 1) ∧
    (∀ j, k ≤ j → (List.range k).foldl (count_step w h) t0 j = t0 j) := by
  induction k with
  | zero => simp
  | succ k ih =>
    obtain ⟨ih1, ih2, ih3⟩ := ih
    rw [List.range_succ, List.foldl_append]
    simp only [List.foldl_cons, List.foldl_nil]
    obtain ⟨s1, s2, s3⟩ := count_step_spec w h ((List.range k).foldl (count_step w h) t0) k
    refine ⟨fun j => (s1 j).trans (ih1 j), fun j hj hne => ?_, fun j hj => ?_⟩
    · by_cases hjk : j = k
      · subst hjk
        rw [s2 (fun hm => hne ((ih1 j).1 hm))]
        rw [mine_count_at_congr w h _ t0 j ih1]
      · rw [s3 j hjk]; exact ih2 j (by omega) hne
    · rw [s3 j (by omega)]; exact ih3 j (by omega)

/-- After the count pass the mines are where they were, and every other tile below the tile
count holds one more than the number of mines the inner loop finds around it. -/
theorem count_pass_spec (tc w h : Nat) (t0 : Nat → Nat) :
    (∀ j, count_pass tc w h t0 j = MineSweeperGameScreenTileMine ↔
      t0 j = MineSweeperGameScreenTileMine) ∧
    (∀ j, j < tc → t0 j ≠ MineSweeperGameScreenTileMine →
      count_pass tc w h t0 j = mine_count_at w h (count_pass tc w h t0) j + 1) ∧
    (∀ j, tc ≤ j → count_pass tc w h t0 j = t0 j) := by
  obtain ⟨h1, h2, h3⟩ := count_pass_fold_spec w h t0 tc
  refine ⟨h1, fun j hj hne => ?_, h3⟩
  show (List.range tc).foldl (count_step w h) t0 j = _
  rw [h2 j hj hne]
  congr 1
  exact (mine_count_at_congr w h _ t0 j h1).symm

theorem save_tiles_apply (n : Nat) (tiles : Nat → Nat) (board : Nat → MineSweeperTile) (i : Nat) :
    save_tiles n tiles board i =
      if i < n then
        { tile_state := MineSweeperGameScreenTileState.Uncleared, tile_type := tiles i }
      else board i := by
  unfold save_tiles
  induction n with
  | zero => simp
  | succ n ih =>
    rw [List.range_succ, List.foldl_append]
    simp only [List.foldl_cons, List.foldl_nil]
    by_cases hin : i = n
    · subst hin; simp
    · rw [upd_ne _ _ _ _ hin, ih]
      by_cases hlt : i < n
      · simp [hlt, Nat.lt_succ_of_lt hlt]
      · have : ¬ i < n + 1 := by omega
        simp [hlt, this]

theorem num_mines_of_zero (d n : Nat) (h : num_mines_of 0 d = some n) : n = 0 := by
  unfold num_mines_of at h
  have hd : d < 5 ∨ 5 ≤ d := by omega
  rcases hd with hd | hd
  · interval_cases d <;> simp [difficulty_multiplier] at h <;> subst h <;> decide
  · rw [List.getElem?_eq_none (by simpa [difficulty_multiplier] using hd)] at h
    simp at h

theorem num_mines_of_lt (tc d n : Nat) (h : num_mines_of tc d = some n) : n < 65536 := by
  unfold num_mines_of at h
  split at h
  · simp at h
  · simp only [Option.some.injEq] at h
    subst h
    exact Nat.mod_lt _ (by norm_num)
/-- The inner loop of the count pass counts exactly the mined 8-neighbours on the board. -/
theorem mine_count_at_eq_mined_neighbors (w h : Nat) (hw : w < 256) (hh : h < 256)
    (t : Nat → Nat) (i : Nat) (hi : i < w * h) :
    mine_count_at w h t i = mined_neighbors w h t i := by
  obtain ⟨hib, hidx⟩ := index_in_bounds w h i hw hh hi
  have hwpos : 0 < w := by
    rcases Nat.eq_zero_or_pos w with h0 | h0
    · subst h0; simp at hi
    · exact h0
  unfold mine_count_at mined_neighbors
  simp only
  have hmap : (valid_neighbors w h ((i / w : Nat) : Int) ((i % w : Nat) : Int)).countP
      (fun p => decide (t (pos_1d w p.x p.y) = MineSweeperGameScreenTileMine)) =
      (((valid_neighbors w h ((i / w : Nat) : Int) ((i % w : Nat) : Int)).map
        (fun p => pos_1d w p.x p.y)).filter
        (fun j => decide (t j = MineSweeperGameScreenTileMine))).length := by
    rw [← List.countP_eq_length_filter, List.countP_map]
    rfl
  rw [hmap]
  apply List.Perm.length_eq
  rw [List.perm_ext_iff_of_nodup]
  · intro j
    simp only [List.mem_filter, List.mem_map, List.mem_range, decide_eq_true_eq,
      mem_valid_neighbors]
    constructor
    · rintro ⟨⟨q, ⟨hq, hne, h1, h2, h3, h4⟩, rfl⟩, hm⟩
      obtain ⟨_, hlt, hx, hy⟩ := pos_1d_in_bounds w h hw hh q hq
      refine ⟨hlt, ⟨?_, ?_⟩, hm⟩
      · intro hji
        rw [hji] at hx hy
        exact hne ⟨hx.symm, hy.symm⟩
      · omega
    · rintro ⟨hlt, ⟨hne, h1, h2, h3, h4⟩, hm⟩
      obtain ⟨hjb, hjidx⟩ := index_in_bounds w h j hw hh hlt
      refine ⟨⟨_, ⟨hjb, ?_, ?_⟩, hjidx⟩, hm⟩
      · simp only
        rintro ⟨hx, hy⟩
        apply hne
        have hx1 : j / w = i / w := by exact_mod_cast hx
        have hy1 : j % w = i % w := by exact_mod_cast hy
        rw [← Nat.div_add_mod j w, ← Nat.div_add_mod i w, hx1, hy1]
      · simp only; omega
  · apply List.Nodup.filter
    apply List.Nodup.map_on _ (valid_neighbors_nodup _ _ _ _)
    intro p hp q hq hpq
    rw [mem_valid_neighbors] at hp hq
    exact pos_1d_inj w h hw hh p q hp.1 hq.1 hpq
  · exact List.Nodup.filter _ (List.nodup_range _)

/-- What `setup_tiles` computes: exactly `num_mines` mines, all of them at positions that pass
the placement test, and around them the counts of the count pass. -/
theorem setup_tiles_spec (w h d : Nat) (draws : List Nat) (tiles : Nat → Nat)
    (hw : w < 256) (hh : h < 256) (hs : setup_tiles w h d draws = some tiles) :
    ∃ n, num_mines_of (w * h) d = some n ∧
      count_tiles (w * h) tiles (fun t => decide (t = MineSweeperGameScreenTileMine)) = n ∧
      (∀ i, tiles i = MineSweeperGameScreenTileMine →
        i < w * h ∧ ¬ is_invalid_position (w * h) w h i (i / w) (i % w)) ∧
      (∀ i, i < w * h → tiles i ≠ MineSweeperGameScreenTileMine →
        tiles i = mine_count_at w h tiles i + 1) ∧
      (∀ i, w * h ≤ i → tiles i = MineSweeperGameScreenTileNone) := by
  have h65 := tile_count_lt w h hw hh
  unfold setup_tiles at hs
  simp only [Nat.mod_eq_of_lt h65] at hs
  split at hs
  · exact absurd hs (by simp)
  · rename_i n hn
    split at hs
    · exact absurd hs (by simp)
    · rename_i t0 hplace
      simp only [Option.some.injEq] at hs
      subst hs
      have htc : n = 0 ∨ 0 < w * h := by
        rcases Nat.eq_zero_or_pos (w * h) with h0 | h0
        · left; rw [h0] at hn; exact num_mines_of_zero d n hn
        · exact Or.inr h0
      obtain ⟨p1, p2, p3, p4⟩ := place_mines_spec (w * h) w h n _ draws t0 hplace htc
      obtain ⟨c1, c2, c3⟩ := count_pass_spec (w * h) w h t0
      have e10 : MineSweeperGameScreenTileMine = 10 := rfl
      have e0 : MineSweeperGameScreenTileNone = 0 := rfl
      refine ⟨n, hn, ?_, ?_, ?_, ?_⟩
      · rw [count_tiles_congr (w * h) _ t0 _ (fun t => decide (t = MineSweeperGameScreenTileMine))
          (fun i _ => by simpa using c1 i), p4]
        have : count_tiles (w * h) (fun _ => MineSweeperGameScreenTileNone)
            (fun t => decide (t = MineSweeperGameScreenTileMine)) = 0 := by
          simp [count_tiles]
        omega
      · intro i hi
        rcases p3 i ((c1 i).1 hi) with hm | hm
        · omega
        · exact hm
      · intro i hi hne
        exact c2 i hi (fun hm => hne ((c1 i).2 hm))
      · intro i hi
        rw [c3 i hi]
        rcases p1 i with hm | hm
        · rcases p3 i hm with hm1 | hm1
          · omega
          · omega
        · exact hm
theorem option_eq_some_getD {α : Type} (o : Option α) (d : α) (h : o.isSome = true) :
    o = some (o.getD d) := by
  cases o <;> simp_all

/-- Everything `setup_board` does to a game screen whose dimensions fit a `uint8_t`. -/
theorem setup_board_spec (draws : List Nat) (inst inst1 : MineSweeperGameScreen)
    (hw : inst.model.board_width < 256) (hh : inst.model.board_height < 256)
    (hs : setup_board draws inst = some inst1) :
    ∃ n tiles,
      num_mines_of (inst.model.board_width * inst.model.board_height)
        inst.model.board_difficulty = some n ∧
      setup_tiles inst.model.board_width inst.model.board_height inst.model.board_difficulty
        draws = some tiles ∧
      inst1.callbacks = inst.callbacks ∧
      inst1.model.board_width = inst.model.board_width ∧
      inst1.model.board_height = inst.model.board_height ∧
      inst1.model.board_difficulty = inst.model.board_difficulty ∧
      inst1.model.is_holding_down_button = inst.model.is_holding_down_button ∧
      inst1.model.mines_left = n ∧ inst1.model.flags_left = n ∧
      inst1.model.curr_pos = { x_abs := 0, y_abs := 0 } ∧
      (∀ i, inst1.model.board i =
        if i < inst.model.board_width * inst.model.board_height then
          { tile_state := MineSweeperGameScreenTileState.Uncleared, tile_type := tiles i }
        else inst.model.board i) := by
  have h65 := tile_count_lt _ _ hw hh
  unfold setup_board at hs
  split at hs
  · exact absurd hs (by simp)
  · rename_i model hm
    simp only [Option.some.injEq] at hs
    subst hs
    unfold setup_board_model at hm
    simp only [Nat.mod_eq_of_lt h65] at hm
    split at hm
    · rename_i n tiles hn ht
      simp only [Option.some.injEq] at hm
      subst hm
      exact ⟨n, tiles, hn, ht, rfl, rfl, rfl, rfl, rfl, rfl, rfl, rfl,
        fun i => save_tiles_apply _ _ _ i⟩
    · exact absurd hm (by simp)

theorem demo_setup : setup_board demo_draws demo_fresh = some demo_screen :=
  option_eq_some_getD _ _ (by decide!)

/-- After `setup_board` the stored tile types are consistent with the count pass. -/
theorem setup_board_consistent (draws : List Nat) (inst inst1 : MineSweeperGameScreen)
    (hw : inst.model.board_width < 256) (hh : inst.model.board_height < 256)
    (hs : setup_board draws inst = some inst1) : counts_consistent inst1.model := by
  obtain ⟨n, tiles, hn, ht, _, ew, eh, _, _, _, _, _, hb⟩ := setup_board_spec draws inst inst1 hw hh hs
  obtain ⟨n1, _, _, _, s4, _⟩ := setup_tiles_spec _ _ _ draws tiles hw hh ht
  intro i hi hne
  rw [ew, eh] at hi ⊢
  have hbi := hb i
  rw [if_pos hi] at hbi
  rw [hbi] at hne ⊢
  simp only at hne ⊢
  have hcount : mine_count_at inst.model.board_width inst.model.board_height tiles i =
      mine_count_at inst.model.board_width inst.model.board_height (types_of inst1.model) i := by
    unfold mine_count_at
    apply List.countP_congr
    intro p hp
    rw [mem_valid_neighbors] at hp
    have := (pos_1d_in_bounds _ _ hw hh p hp.1).2.1
    simp only [types_of, hb _, if_pos this]
  rw [← hcount]
  exact s4 i hi hne

/-- After `setup_board` the board holds exactly `num_mines` mines. -/
theorem setup_board_mine_total_eq (draws : List Nat) (inst inst1 : MineSweeperGameScreen)
    (hw : inst.model.board_width < 256) (hh : inst.model.board_height < 256)
    (hs : setup_board draws inst = some inst1) :
    num_mines_of (inst1.model.board_width * inst1.model.board_height)
      inst1.model.board_difficulty = some (mine_total inst1.model) := by
  obtain ⟨n, tiles, hn, ht, _, ew, eh, ed, _, _, _, _, hb⟩ :=
    setup_board_spec draws inst inst1 hw hh hs
  obtain ⟨n1, hn1, s2, _, _, _⟩ := setup_tiles_spec _ _ _ draws tiles hw hh ht
  unfold mine_total
  rw [ew, eh, ed, hn1, ← s2]
  congr 1
  apply count_tiles_congr
  intro i hi
  rw [hb i, if_pos hi]

/-- C7: after `setup_board`, every tile below the tile count that is not a Mine has type
`Zero + n`, where `n ≤ 8` is the number of tiles of the board that are 8-neighbours of it and
hold a Mine; in particular it is not left as None. -/
theorem setup_board_counts_neighbors (draws : List Nat) (inst inst1 : MineSweeperGameScreen)
    (i : Nat) (hw : inst.model.board_width < 256) (hh : inst.model.board_height < 256)
    (hs : setup_board draws inst = some inst1)
    (hi : i < inst1.model.board_width * inst1.model.board_height)
    (hne : (inst1.model.board i).tile_type ≠ MineSweeperGameScreenTileMine) :
    (inst1.model.board i).tile_type =
        MineSweeperGameScreenTileZero +
          mined_neighbors inst1.model.board_width inst1.model.board_height
            (fun j => (inst1.model.board j).tile_type) i ∧
      mined_neighbors inst1.model.board_width inst1.model.board_height
        (fun j => (inst1.model.board j).tile_type) i ≤ 8 ∧
      (inst1.model.board i).tile_type ≠ MineSweeperGameScreenTileNone := by
  have hc := setup_board_consistent draws inst inst1 hw hh hs i hi hne
  obtain ⟨_, _, _, _, _, ew, eh, _⟩ := setup_board_spec draws inst inst1 hw hh hs
  have hw1 : inst1.model.board_width < 256 := by rw [ew]; exact hw
  have hh1 : inst1.model.board_height < 256 := by rw [eh]; exact hh
  have h2 := mine_count_at_le inst1.model.board_width inst1.model.board_height
    (types_of inst1.model) i
  have h3 := mine_count_at_eq_mined_neighbors _ _ hw1 hh1 (types_of inst1.model) i hi
  unfold types_of at hc h2 h3
  rw [← h3]
  have e1 : MineSweeperGameScreenTileZero = 1 := rfl
  have e0 : MineSweeperGameScreenTileNone = 0 := rfl
  omega

theorem setup_board_counts_neighbors_witness :
    demo_fresh.model.board_width < 256 ∧ demo_fresh.model.board_height < 256 ∧
    setup_board demo_draws demo_fresh = some demo_screen ∧
    54 < demo_screen.model.board_width * demo_screen.model.board_height ∧
    (demo_screen.model.board 54).tile_type ≠ MineSweeperGameScreenTileMine ∧
    ((demo_screen.model.board 54).tile_type =
        MineSweeperGameScreenTileZero +
          mined_neighbors demo_screen.model.board_width demo_screen.model.board_height
            (fun j => (demo_screen.model.board j).tile_type) 54 ∧
      mined_neighbors demo_screen.model.board_width demo_screen.model.board_height
        (fun j => (demo_screen.model.board j).tile_type) 54 ≤ 8 ∧
      (demo_screen.model.board 54).tile_type ≠ MineSweeperGameScreenTileNone) :=
  ⟨by decide, by decide, demo_setup, by decide!, by decide!,
    setup_board_counts_neighbors demo_draws demo_fresh demo_screen 54 (by decide) (by decide)
      demo_setup (by decide!) (by decide!)⟩
/-- C8: after `setup_board` on a board of width and height at least 2, none of the six
protected positions holds a Mine: index 0, (0,1), (1,0), the last index, (0, width-1) and
(height-1, 0); so the four corners, the last of which is (height-1, width-1), are mine-free. -/
theorem setup_board_protected_positions (draws : List Nat) (inst inst1 : MineSweeperGameScreen)
    (hw : inst.model.board_width < 256) (hh : inst.model.board_height < 256)
    (hw2 : 2 ≤ inst.model.board_width) (hh2 : 2 ≤ inst.model.board_height)
    (hs : setup_board draws inst = some inst1) :
    (inst1.model.board 0).tile_type ≠ MineSweeperGameScreenTileMine ∧
    (inst1.model.board (0 * inst1.model.board_width + 1)).tile_type ≠
      MineSweeperGameScreenTileMine ∧
    (inst1.model.board (1 * inst1.model.board_width + 0)).tile_type ≠
      MineSweeperGameScreenTileMine ∧
    (inst1.model.board (inst1.model.board_width * inst1.model.board_height - 1)).tile_type ≠
      MineSweeperGameScreenTileMine ∧
    (inst1.model.board (0 * inst1.model.board_width + (inst1.model.board_width - 1))).tile_type ≠
      MineSweeperGameScreenTileMine ∧
    (inst1.model.board ((inst1.model.board_height - 1) * inst1.model.board_width + 0)).tile_type ≠
      MineSweeperGameScreenTileMine ∧
    (inst1.model.board ((inst1.model.board_height - 1) * inst1.model.board_width +
      (inst1.model.board_width - 1))).tile_type ≠ MineSweeperGameScreenTileMine := by
  obtain ⟨n, tiles, hn, ht, _, ew, eh, _, _, _, _, _, hb⟩ := setup_board_spec draws inst inst1 hw hh hs
  obtain ⟨n1, _, _, s3, _, _⟩ := setup_tiles_spec _ _ _ draws tiles hw hh ht
  rw [ew, eh]
  generalize inst.model.board_width = w at *
  generalize inst.model.board_height = h at *
  have key : ∀ i, i < w * h → is_invalid_position (w * h) w h i (i / w) (i % w) →
      (inst1.model.board i).tile_type ≠ MineSweeperGameScreenTileMine := by
    intro i hi hinv hm
    rw [hb i, if_pos hi] at hm
    exact (s3 i hm).2 hinv
  have hwh : w * 2 ≤ w * h := Nat.mul_le_mul_left w hh2
  have hlast : (h - 1) * w + (w - 1) = w * h - 1 := by
    have h1 : (h - 1) * w + w = w * h := by
      have : (h - 1 + 1) * w = (h - 1) * w + w := by ring
      rw [← this, Nat.sub_add_cancel (by omega), Nat.mul_comm]
    omega
  have hrow : (h - 1) * w < w * h := by omega
  refine ⟨key 0 (by omega) (Or.inl rfl), key _ (by omega) ?_, key _ (by omega) ?_,
    key _ (by omega) ?_, key _ (by omega) ?_, key _ (by omega) ?_, ?_⟩
  · right; left
    simp only [Nat.zero_mul, Nat.zero_add]
    exact ⟨Nat.div_eq_of_lt (by omega), Nat.mod_eq_of_lt (by omega)⟩
  · right; right; left
    simp only [Nat.one_mul, Nat.add_zero]
    exact ⟨Nat.div_self (by omega), Nat.mod_self w⟩
  · right; right; right; left
    omega
  · right; right; right; right; left
    simp only [Nat.zero_mul, Nat.zero_add]
    refine ⟨Nat.div_eq_of_lt (by omega), ?_⟩
    rw [Nat.mod_eq_of_lt (by omega)]
    omega
  · right; right; right; right; right
    simp only [Nat.add_zero]
    refine ⟨?_, Nat.mul_mod_left _ _⟩
    rw [Nat.mul_div_cancel _ (by omega)]
    omega
  · rw [hlast]
    exact key _ (by omega) (by right; right; right; left; omega)

theorem setup_board_protected_positions_witness :
    demo_fresh.model.board_width < 256 ∧ demo_fresh.model.board_height < 256 ∧
    2 ≤ demo_fresh.model.board_width ∧ 2 ≤ demo_fresh.model.board_height ∧
    setup_board demo_draws demo_fresh = some demo_screen ∧
    ((demo_screen.model.board 0).tile_type ≠ MineSweeperGameScreenTileMine ∧
    (demo_screen.model.board (0 * demo_screen.model.board_width + 1)).tile_type ≠
      MineSweeperGameScreenTileMine ∧
    (demo_screen.model.board (1 * demo_screen.model.board_width + 0)).tile_type ≠
      MineSweeperGameScreenTileMine ∧
    (demo_screen.model.board
      (demo_screen.model.board_width * demo_screen.model.board_height - 1)).tile_type ≠
      MineSweeperGameScreenTileMine ∧
    (demo_screen.model.board
      (0 * demo_screen.model.board_width + (demo_screen.model.board_width - 1))).tile_type ≠
      MineSweeperGameScreenTileMine ∧
    (demo_screen.model.board
      ((demo_screen.model.board_height - 1) * demo_screen.model.board_width + 0)).tile_type ≠
      MineSweeperGameScreenTileMine ∧
    (demo_screen.model.board ((demo_screen.model.board_height - 1) * demo_screen.model.board_width +
      (demo_screen.model.board_width - 1))).tile_type ≠ MineSweeperGameScreenTileMine) :=
  ⟨by decide, by decide, by decide, by decide, demo_setup,
    setup_board_protected_positions demo_draws demo_fresh demo_screen (by decide) (by decide)
      (by decide) (by decide) demo_setup⟩

/-- C9: after `setup_board` the number of tiles below the tile count whose type is Mine is
exactly the `num_mines` computed from the tile count and the difficulty. -/
theorem setup_board_mine_total (draws : List Nat) (inst inst1 : MineSweeperGameScreen)
    (hw : inst.model.board_width < 256) (hh : inst.model.board_height < 256)
    (hs : setup_board draws inst = some inst1) :
    num_mines_of (inst1.model.board_width * inst1.model.board_height)
      inst1.model.board_difficulty = some (mine_total inst1.model) :=
  setup_board_mine_total_eq draws inst inst1 hw hh hs

theorem setup_board_mine_total_witness :
    demo_fresh.model.board_width < 256 ∧ demo_fresh.model.board_height < 256 ∧
    setup_board demo_draws demo_fresh = some demo_screen ∧
    num_mines_of (demo_screen.model.board_width * demo_screen.model.board_height)
      demo_screen.model.board_difficulty = some (mine_total demo_screen.model) :=
  ⟨by decide, by decide, demo_setup,
    setup_board_mine_total demo_draws demo_fresh demo_screen (by decide) (by decide) demo_setup⟩

/-- C10: immediately after `setup_board`, every tile below the tile count is Uncleared, both
counters equal `num_mines`, and the cursor is at (0,0). -/
theorem setup_board_initial_state (draws : List Nat) (inst inst1 : MineSweeperGameScreen)
    (i : Nat) (hw : inst.model.board_width < 256) (hh : inst.model.board_height < 256)
    (hs : setup_board draws inst = some inst1)
    (hi : i < inst1.model.board_width * inst1.model.board_height) :
    (inst1.model.board i).tile_state = MineSweeperGameScreenTileState.Uncleared ∧
    num_mines_of (inst1.model.board_width * inst1.model.board_height)
      inst1.model.board_difficulty = some inst1.model.mines_left ∧
    inst1.model.flags_left = inst1.model.mines_left ∧
    inst1.model.curr_pos = { x_abs := 0, y_abs := 0 } := by
  obtain ⟨n, tiles, hn, ht, _, ew, eh, ed, _, hm, hf, hc, hb⟩ :=
    setup_board_spec draws inst inst1 hw hh hs
  rw [ew, eh] at hi
  rw [ew, eh, ed, hm, hf, hb i, if_pos hi]
  exact ⟨rfl, hn, rfl, hc⟩

theorem setup_board_initial_state_witness :
    demo_fresh.model.board_width < 256 ∧ demo_fresh.model.board_height < 256 ∧
    setup_board demo_draws demo_fresh = some demo_screen ∧
    111 < demo_screen.model.board_width * demo_screen.model.board_height ∧
    ((demo_screen.model.board 111).tile_state = MineSweeperGameScreenTileState.Uncleared ∧
    num_mines_of (demo_screen.model.board_width * demo_screen.model.board_height)
      demo_screen.model.board_difficulty = some demo_screen.model.mines_left ∧
    demo_screen.model.flags_left = demo_screen.model.mines_left ∧
    demo_screen.model.curr_pos = { x_abs := 0, y_abs := 0 }) :=
  ⟨by decide, by decide, demo_setup, by decide!,
    setup_board_initial_state demo_draws demo_fresh demo_screen 111 (by decide) (by decide)
      demo_setup (by decide!)⟩
/-! ## Flood fill -/

theorem visited_length_le (w h : Nat) (hw : w < 256) (hh : h < 256) (set : List Point)
    (hn : set.Nodup) (hb : ∀ p, p ∈ set → in_bounds w h p) : set.length ≤ w * h := by
  have h1 : (set.map (fun p => pos_1d w p.x p.y)).Nodup :=
    List.Nodup.map_on (fun p hp q hq hpq => pos_1d_inj w h hw hh p q (hb p hp) (hb q hq) hpq) hn
  have h2 : set.map (fun p => pos_1d w p.x p.y) ⊆ List.range (w * h) := by
    intro i hi
    rw [List.mem_map] at hi
    obtain ⟨p, hp, rfl⟩ := hi
    rw [List.mem_range]
    exact (pos_1d_in_bounds w h hw hh p (hb p hp)).2.1
  have := (h1.subperm h2).length_le
  simpa using this

theorem bfs_tile_clear_loop_spec (m0 : MineSweeperGameScreenModel) (start : Point)
    (hw : m0.board_width < 256) (hh : m0.board_height < 256) :
    ∀ (fuel : Nat) (deq set : List Point) (model : MineSweeperGameScreenModel),
      clear_inv m0 start deq set model →
      deq.length + 8 * (m0.board_width * m0.board_height - set.length) < fuel →
      ∃ model1 set1, bfs_tile_clear_loop fuel deq set model = some model1 ∧
        clear_inv m0 start [] set1 model1 := by
  intro fuel
  induction fuel with
  | zero => intro deq set model _ hf; omega
  | succ fuel ih =>
    intro deq set model hinv hf
    cases deq with
    | nil => exact ⟨model, set, by simp [bfs_tile_clear_loop], hinv⟩
    | cons pos rest =>
      have hposok := hinv.deq_ok pos (List.mem_cons_self _ _)
      have hwid : model.board_width = m0.board_width := hinv.same.2.1
      have hhei : model.board_height = m0.board_height := hinv.same.2.2.1
      simp only [bfs_tile_clear_loop, hwid, hhei, upd_same]
      by_cases hmem : pos ∈ set
      · rw [if_pos hmem]
        apply ih
        · exact { hinv with
            deq_ok := fun p hp => hinv.deq_ok p (List.mem_cons_of_mem _ hp)
            start_seen := by
              rcases hinv.start_seen with h | h
              · exact Or.inl h
              · rcases List.mem_cons.1 h with h | h
                · exact Or.inl (h ▸ hmem)
                · exact Or.inr h
            closed := fun p hp hz q hq => by
              rcases hinv.closed p hp hz q hq with h | h
              · exact Or.inl h
              · rcases List.mem_cons.1 h with h | h
                · exact Or.inl (h ▸ hmem)
                · exact Or.inr h }
        · simp only [List.length_cons] at hf; omega
      · rw [if_neg hmem]
        have hfresh : ∀ p, p ∈ set → pos_1d m0.board_width p.x p.y ≠
            pos_1d m0.board_width pos.x pos.y := fun p hp heq =>
          hmem (pos_1d_inj _ _ hw hh p pos (hinv.set_ok p hp).1 hposok.1 heq ▸ hp)
        have hold : model.board (pos_1d m0.board_width pos.x pos.y) =
            m0.board (pos_1d m0.board_width pos.x pos.y) := hinv.untouched _ hfresh
        have hnodup : (pos :: set).Nodup := List.nodup_cons.2 ⟨hmem, hinv.nodup⟩
        have hsetok : ∀ p, p ∈ pos :: set →
            in_bounds m0.board_width m0.board_height p ∧ zero_reach m0 start p := by
          intro p hp
          rcases List.mem_cons.1 hp with h | h
          · exact h ▸ hposok
          · exact hinv.set_ok p h
        have hlen := visited_length_le _ _ hw hh (pos :: set) hnodup (fun p hp => (hsetok p hp).1)
        simp only [List.length_cons] at hlen hf
        have hcleared : ∀ p, p ∈ pos :: set →
            upd model.board (pos_1d m0.board_width pos.x pos.y)
              { model.board (pos_1d m0.board_width pos.x pos.y) with
                tile_state := MineSweeperGameScreenTileState.Cleared }
              (pos_1d m0.board_width p.x p.y) =
            { m0.board (pos_1d m0.board_width p.x p.y) with
              tile_state := MineSweeperGameScreenTileState.Cleared } := by
          intro p hp
          rcases List.mem_cons.1 hp with h | h
          · subst h; rw [upd_same, hold]
          · rw [upd_ne _ _ _ _ (hfresh p h)]; exact hinv.cleared p h
        have huntouched : ∀ i, (∀ p, p ∈ pos :: set → pos_1d m0.board_width p.x p.y ≠ i) →
            upd model.board (pos_1d m0.board_width pos.x pos.y)
              { model.board (pos_1d m0.board_width pos.x pos.y) with
                tile_state := MineSweeperGameScreenTileState.Cleared } i = m0.board i := by
          intro i hi
          rw [upd_ne _ _ _ _ (fun h => hi pos (List.mem_cons_self _ _) h.symm)]
          exact hinv.untouched i (fun p hp => hi p (List.mem_cons_of_mem _ hp))
        have hstart : start ∈ pos :: set ∨ start ∈ rest := by
          rcases hinv.start_seen with h | h
          · exact Or.inl (List.mem_cons_of_mem _ h)
          · rcases List.mem_cons.1 h with h | h
            · exact Or.inl (h ▸ List.mem_cons_self _ _)
            · exact Or.inr h
        have htype : (model.board (pos_1d m0.board_width pos.x pos.y)).tile_type =
            type_at m0 pos := by rw [hold]; rfl
        have hsame : ∀ b : Nat → MineSweeperTile, same_except_board
            { board := b
              curr_pos := model.curr_pos
              board_width := m0.board_width
              board_height := m0.board_height
              board_difficulty := model.board_difficulty
              mines_left := model.mines_left
              flags_left := model.flags_left
              is_making_first_move := model.is_making_first_move
              is_holding_down_button := model.is_holding_down_button } m0 := by
          intro b
          obtain ⟨s1, _, _, s4, s5, s6, s7, s8⟩ := hinv.same
          exact ⟨s1, rfl, rfl, s4, s5, s6, s7, s8⟩
        by_cases hz : type_at m0 pos = MineSweeperGameScreenTileZero
        · rw [if_neg (by rw [htype]; exact fun h => h hz)]
          apply ih
          · refine ⟨hsame _, hcleared, huntouched, hnodup, hsetok, ?_, ?_, ?_⟩
            · intro p hp
              rcases List.mem_append.1 hp with h | h
              · exact hinv.deq_ok p (List.mem_cons_of_mem _ h)
              · have hpb := ((mem_valid_neighbors _ _ _ _ _).1 h).1
                exact ⟨hpb, zero_reach.step pos p hposok.2 hz h⟩
            · rcases hstart with h | h
              · exact Or.inl h
              · exact Or.inr (List.mem_append_left _ h)
            · intro p hp hpz q hq
              rcases List.mem_cons.1 hp with h | h
              · subst h; exact Or.inr (List.mem_append_right _ hq)
              · rcases hinv.closed p h hpz q hq with h1 | h1
                · exact Or.inl (List.mem_cons_of_mem _ h1)
                · rcases List.mem_cons.1 h1 with h2 | h2
                  · exact Or.inl (h2 ▸ List.mem_cons_self _ _)
                  · exact Or.inr (List.mem_append_left _ h2)
          · have := valid_neighbors_length_le m0.board_width m0.board_height pos.x pos.y
            simp only [List.length_append, List.length_cons]
            omega
        · rw [if_pos (by rw [htype]; exact hz)]
          apply ih
          · refine ⟨hsame _, hcleared, huntouched, hnodup, hsetok, ?_, hstart, ?_⟩
            · exact fun p hp => hinv.deq_ok p (List.mem_cons_of_mem _ hp)
            · intro p hp hpz q hq
              rcases List.mem_cons.1 hp with h | h
              · subst h; exact absurd hpz hz
              · rcases hinv.closed p h hpz q hq with h1 | h1
                · exact Or.inl (List.mem_cons_of_mem _ h1)
                · rcases List.mem_cons.1 h1 with h2 | h2
                  · exact Or.inl (h2 ▸ List.mem_cons_self _ _)
                  · exact Or.inr h2
          · simp only [List.length_cons]
            omega
theorem zero_reach_in_bounds (m : MineSweeperGameScreenModel) (start t : Point)
    (hs : in_bounds m.board_width m.board_height start) (hr : zero_reach m start t) :
    in_bounds m.board_width m.board_height t := by
  induction hr with
  | base => exact hs
  | step p q _ _ hq _ => exact ((mem_valid_neighbors _ _ _ _ _).1 hq).1

/-- The inductive reachability used in the proofs is the path notion of the statement. -/
theorem zero_reach_iff_path (m : MineSweeperGameScreenModel) (start t : Point)
    (hs : in_bounds m.board_width m.board_height start) :
    zero_reach m start t ↔ zero_path_exists m start t := by
  constructor
  · intro hr
    induction hr with
    | base => exact ⟨0, fun _ => start, rfl, rfl, fun _ _ => hs, fun i hi => absurd hi (by omega)⟩
    | step p q _ hz hq ih =>
      obtain ⟨k, f, h0, hk, hb, hstep⟩ := ih
      obtain ⟨hqb, hqne, hq1, hq2, hq3, hq4⟩ := (mem_valid_neighbors _ _ _ _ _).1 hq
      refine ⟨k + 1, fun i => if i ≤ k then f i else q, ?_, ?_, ?_, ?_⟩
      · simp [h0]
      · simp
      · intro i hi
        by_cases hik : i ≤ k
        · simp only [hik, if_true]; exact hb i hik
        · simp only [hik, if_false]; exact hqb
      · intro i hi
        by_cases hik : i < k
        · have h1 : i ≤ k := by omega
          have h2 : i + 1 ≤ k := by omega
          simp only [h1, h2, if_true]
          exact hstep i hik
        · have hik2 : i = k := by omega
          subst hik2
          have h2 : ¬ (i + 1 ≤ i) := by omega
          simp only [le_refl, if_true, h2, if_false, hk]
          refine ⟨⟨?_, hq1, hq2, hq3, hq4⟩, hz⟩
          intro hqp
          exact hqne ⟨by rw [hqp], by rw [hqp]⟩
  · rintro ⟨k, f, h0, hk, hb, hstep⟩
    have key : ∀ j, j ≤ k → zero_reach m start (f j) := by
      intro j
      induction j with
      | zero => intro _; rw [h0]; exact zero_reach.base
      | succ j ih =>
        intro hj
        obtain ⟨⟨hne, a1, a2, a3, a4⟩, hz⟩ := hstep j (by omega)
        refine zero_reach.step (f j) (f (j + 1)) (ih (by omega)) hz ?_
        rw [mem_valid_neighbors]
        refine ⟨hb (j + 1) hj, ?_, a1, a2, a3, a4⟩
        rintro ⟨hx, hy⟩
        apply hne
        cases hfj : f (j + 1)
        cases hfj2 : f j
        rw [hfj] at hx hy
        rw [hfj2] at hx hy
        simp only at hx hy
        rw [hx, hy]
    rw [← hk]
    exact key k (le_refl k)

/-- The flood fill returns, and at its end some visited set satisfies the loop invariant with
an empty deque. -/
theorem bfs_tile_clear_post (model : MineSweeperGameScreenModel)
    (hw : model.board_width < 256) (hh : model.board_height < 256)
    (hstart : in_bounds model.board_width model.board_height
      { x := model.curr_pos.x_abs, y := model.curr_pos.y_abs }) :
    ∃ model1 set1, bfs_tile_clear model = some model1 ∧
      clear_inv model { x := model.curr_pos.x_abs, y := model.curr_pos.y_abs } [] set1 model1 := by
  unfold bfs_tile_clear
  apply bfs_tile_clear_loop_spec model _ hw hh
  · exact
      { same := ⟨rfl, rfl, rfl, rfl, rfl, rfl, rfl, rfl⟩
        cleared := fun p hp => absurd hp (List.not_mem_nil _)
        untouched := fun i _ => rfl
        nodup := List.nodup_nil
        set_ok := fun p hp => absurd hp (List.not_mem_nil _)
        deq_ok := fun p hp => by
          rw [List.mem_singleton] at hp
          subst hp
          exact ⟨hstart, zero_reach.base⟩
        start_seen := Or.inr (List.mem_singleton_self _)
        closed := fun p hp => absurd hp (List.not_mem_nil _) }
  · simp only [bfs_fuel, List.length_singleton, List.length_nil]
    omega

theorem clear_inv_complete (m0 model1 : MineSweeperGameScreenModel) (start : Point)
    (set1 : List Point) (hinv : clear_inv m0 start [] set1 model1) (t : Point)
    (hr : zero_reach m0 start t) : t ∈ set1 := by
  induction hr with
  | base =>
    rcases hinv.start_seen with h | h
    · exact h
    · exact absurd h (List.not_mem_nil _)
  | step p q _ hz hq ih =>
    rcases hinv.closed p ih hz q hq with h | h
    · exact h
    · exact absurd h (List.not_mem_nil _)

/-- C5: `bfs_tile_clear` returns, changes nothing but tile states, and afterwards a tile `t` of
the board is Cleared if and only if it was Cleared before or there is an 8-connected in-bounds
path from the cursor to `t` in which every tile except possibly the last has type Zero; every
tile without such a path keeps its previous state. -/
theorem bfs_tile_clear_flood (model : MineSweeperGameScreenModel) (t : Point)
    (hw : model.board_width < 256) (hh : model.board_height < 256)
    (hstart : in_bounds model.board_width model.board_height
      { x := model.curr_pos.x_abs, y := model.curr_pos.y_abs })
    (ht : in_bounds model.board_width model.board_height t) :
    ∃ model1, bfs_tile_clear model = some model1 ∧
      same_except_board model1 model ∧
      type_at model1 t = type_at model t ∧
      (state_at model1 t = MineSweeperGameScreenTileState.Cleared ↔
        (state_at model t = MineSweeperGameScreenTileState.Cleared ∨
          zero_path_exists model { x := model.curr_pos.x_abs, y := model.curr_pos.y_abs } t)) ∧
      (¬ zero_path_exists model { x := model.curr_pos.x_abs, y := model.curr_pos.y_abs } t →
        state_at model1 t = state_at model t) := by
  obtain ⟨model1, set1, hrun, hinv⟩ := bfs_tile_clear_post model hw hh hstart
  refine ⟨model1, hrun, hinv.same, ?_⟩
  have hwid : model1.board_width = model.board_width := hinv.same.2.1
  rw [← zero_reach_iff_path model _ t hstart]
  unfold type_at state_at
  rw [hwid]
  by_cases hr : zero_reach model { x := model.curr_pos.x_abs, y := model.curr_pos.y_abs } t
  · have hmem := clear_inv_complete model model1 _ set1 hinv t hr
    rw [hinv.cleared t hmem]
    exact ⟨rfl, ⟨fun _ => Or.inr hr, fun _ => rfl⟩, fun hn => absurd hr hn⟩
  · have hun : model1.board (pos_1d model.board_width t.x t.y) =
        model.board (pos_1d model.board_width t.x t.y) := by
      apply hinv.untouched
      intro p hp heq
      have := pos_1d_inj _ _ hw hh p t (hinv.set_ok p hp).1 ht heq
      exact hr (this ▸ (hinv.set_ok p hp).2)
    rw [hun]
    exact ⟨rfl, ⟨fun h => Or.inl h, fun h => h.elim id (fun h2 => absurd h2 hr)⟩, fun _ => rfl⟩

theorem bfs_tile_clear_flood_witness :
    demo_screen.model.board_width < 256 ∧ demo_screen.model.board_height < 256 ∧
    in_bounds demo_screen.model.board_width demo_screen.model.board_height
      { x := demo_screen.model.curr_pos.x_abs, y := demo_screen.model.curr_pos.y_abs } ∧
    in_bounds demo_screen.model.board_width demo_screen.model.board_height { x := 3, y := 6 } ∧
    ∃ model1, bfs_tile_clear demo_screen.model = some model1 ∧
      same_except_board model1 demo_screen.model ∧
      type_at model1 { x := 3, y := 6 } = type_at demo_screen.model { x := 3, y := 6 } ∧
      (state_at model1 { x := 3, y := 6 } = MineSweeperGameScreenTileState.Cleared ↔
        (state_at demo_screen.model { x := 3, y := 6 } = MineSweeperGameScreenTileState.Cleared ∨
          zero_path_exists demo_screen.model
            { x := demo_screen.model.curr_pos.x_abs, y := demo_screen.model.curr_pos.y_abs }
            { x := 3, y := 6 })) ∧
      (¬ zero_path_exists demo_screen.model
          { x := demo_screen.model.curr_pos.x_abs, y := demo_screen.model.curr_pos.y_abs }
          { x := 3, y := 6 } →
        state_at model1 { x := 3, y := 6 } = state_at demo_screen.model { x := 3, y := 6 }) :=
  ⟨by decide!, by decide!, by decide!, by decide!,
    bfs_tile_clear_flood demo_screen.model { x := 3, y := 6 } (by decide!) (by decide!)
      (by decide!) (by decide!)⟩
/-! ## Nearest uncleared tile -/

theorem point_ne_iff (p q : Point) : p ≠ q ↔ ¬ (q.x = p.x ∧ q.y = p.y) := by
  obtain ⟨px, py⟩ := p
  obtain ⟨qx, qy⟩ := q
  simp only [ne_eq, Point.mk.injEq]
  constructor
  · rintro h ⟨h1, h2⟩; exact h ⟨h1.symm, h2.symm⟩
  · rintro h ⟨h1, h2⟩; exact h ⟨h1.symm, h2.symm⟩

/-- Every in-bounds position at distance `k + 1` from an in-bounds start is a valid neighbour
of an in-bounds position at distance `k`. -/
theorem exists_closer_neighbor (w h : Nat) (start t : Point) (k : Nat)
    (hs : in_bounds w h start) (ht : in_bounds w h t) (hd : grid_distance start t = k + 1) :
    ∃ q, in_bounds w h q ∧ grid_distance start q = k ∧ t ∈ valid_neighbors w h q.x q.y := by
  obtain ⟨sx, sy⟩ := start
  obtain ⟨tx, ty⟩ := t
  unfold in_bounds at hs ht
  unfold grid_distance at hd
  simp only at hs ht hd
  refine ⟨⟨if tx > sx then tx - 1 else if tx < sx then tx + 1 else tx,
    if ty > sy then ty - 1 else if ty < sy then ty + 1 else ty⟩, ?_, ?_, ?_⟩
  · unfold in_bounds; simp only
    split_ifs <;> omega
  · unfold grid_distance; simp only
    split_ifs <;> omega
  · rw [mem_valid_neighbors]
    unfold in_bounds; simp only
    split_ifs <;> omega

theorem neighbor_distance_le (w h : Nat) (start p q : Point)
    (hq : q ∈ valid_neighbors w h p.x p.y) :
    grid_distance start q ≤ grid_distance start p + 1 := by
  rw [mem_valid_neighbors] at hq
  obtain ⟨_, _, h1, h2, h3, h4⟩ := hq
  unfold grid_distance
  omega

/-- With an empty deque the invariant forces every position of the board into the visited set. -/
theorem closest_inv_empty_all (model : MineSweeperGameScreenModel) (start : Point) (L : Nat)
    (set : List Point)
    (hs : in_bounds model.board_width model.board_height start)
    (hinv : closest_inv model start L [] [] set) :
    ∀ (d : Nat) (t : Point), in_bounds model.board_width model.board_height t →
      grid_distance start t = d → t ∈ set := by
  intro d
  induction d with
  | zero =>
    intro t ht hd
    rcases Nat.eq_zero_or_pos L with hL | hL
    · rcases hinv.level t ht (by omega) with h | h
      · exact h
      · exact absurd h (List.not_mem_nil _)
    · exact hinv.below t ht (by omega)
  | succ d ih =>
    intro t ht hd
    obtain ⟨q, hqb, hqd, hqn⟩ := exists_closer_neighbor _ _ start t d hs ht hd
    have hqs := ih q hqb hqd
    have hqL := (hinv.set_ok q hqs).2.1
    rcases Nat.lt_or_ge (d + 1) L with h1 | h1
    · exact hinv.below t ht (by omega)
    · rcases Nat.eq_or_lt_of_le h1 with h2 | h2
      · rcases hinv.level t ht (by omega) with h | h
        · exact h
        · exact absurd h (List.not_mem_nil _)
      · have hdL : d = L := by omega
        have := hinv.next q hqs (by omega) t hqn (by omega)
        exact absurd this (List.not_mem_nil _)

/-- When the positions queued at the current level are used up, the next level takes over. -/
theorem closest_inv_next_level (model : MineSweeperGameScreenModel) (start : Point) (L : Nat)
    (B set : List Point)
    (hs : in_bounds model.board_width model.board_height start)
    (hinv : closest_inv model start L [] B set) :
    closest_inv model start (L + 1) B [] set where
  nodup := hinv.nodup
  set_ok := fun p hp => by
    obtain ⟨h1, h2, h3⟩ := hinv.set_ok p hp
    exact ⟨h1, by omega, h3⟩
  below := fun p hp hd => by
    rcases Nat.lt_or_ge (grid_distance start p) L with h1 | h1
    · exact hinv.below p hp h1
    · rcases hinv.level p hp (by omega) with h | h
      · exact h
      · exact absurd h (List.not_mem_nil _)
  level := fun p hp hd => by
    obtain ⟨q, hqb, hqd, hqn⟩ := exists_closer_neighbor _ _ start p L hs hp hd
    rcases hinv.level q hqb hqd with h | h
    · exact Or.inr (hinv.next q h hqd p hqn hd)
    · exact absurd h (List.not_mem_nil _)
  a_ok := hinv.b_ok
  b_ok := fun p hp => absurd hp (List.not_mem_nil _)
  next := fun p hp hd => by
    have := (hinv.set_ok p hp).2.1
    omega

theorem bfs_to_closest_tile_loop_spec (model : MineSweeperGameScreenModel) (start v : Point)
    (hw : model.board_width < 256) (hh : model.board_height < 256)
    (hs : in_bounds model.board_width model.board_height start)
    (hv : in_bounds model.board_width model.board_height v) (hvt : is_target model start v) :
    ∀ (fuel : Nat) (deq set : List Point),
      (∃ L A B, deq = A ++ B ∧ closest_inv model start L A B set) →
      deq.length + 8 * (model.board_width * model.board_height - set.length) < fuel →
      ∃ p, bfs_to_closest_tile_loop model start fuel deq set = some (some p) ∧
        in_bounds model.board_width model.board_height p ∧ is_target model start p ∧
        grid_distance start p ≤ grid_distance start v := by
  intro fuel
  induction fuel with
  | zero => intro deq set _ hf; omega
  | succ fuel ih =>
    rintro deq set ⟨L0, A0, B0, hdeq, hinv0⟩ hf
    -- pass to a level whose own part of the deque is not empty
    have hnorm : ∃ L A B, deq = A ++ B ∧ closest_inv model start L A B set ∧
        (A = [] → B = []) := by
      cases A0 with
      | nil => exact ⟨L0 + 1, B0, [], by simpa using hdeq,
          closest_inv_next_level model start L0 B0 set hs hinv0, fun _ => rfl⟩
      | cons a A1 => exact ⟨L0, a :: A1, B0, hdeq, hinv0, fun h => absurd h (by simp)⟩
    obtain ⟨L, A, B, hdeq, hinv, hAB⟩ := hnorm
    cases A with
    | nil =>
      have hB := hAB rfl
      subst hB
      have := closest_inv_empty_all model start L set hs hinv _ v hv rfl
      exact absurd hvt (hinv.set_ok v this).2.2
    | cons pos A1 =>
      subst hdeq
      have hposok := hinv.a_ok pos (List.mem_cons_self _ _)
      simp only [List.cons_append, bfs_to_closest_tile_loop]
      by_cases htar : is_target model start pos
      · have hcond : (model.board (pos_1d model.board_width pos.x pos.y)).tile_state =
            MineSweeperGameScreenTileState.Uncleared ∧ ¬ (start.x = pos.x ∧ start.y = pos.y) :=
          ⟨htar.1, (point_ne_iff pos start).1 htar.2⟩
        rw [if_pos hcond]
        refine ⟨pos, rfl, hposok.1, htar, ?_⟩
        by_contra hlt
        have := hinv.below v hv (by omega)
        exact (hinv.set_ok v this).2.2 hvt
      · have hcond : ¬ ((model.board (pos_1d model.board_width pos.x pos.y)).tile_state =
            MineSweeperGameScreenTileState.Uncleared ∧ ¬ (start.x = pos.x ∧ start.y = pos.y)) :=
          fun hc => htar ⟨hc.1, (point_ne_iff pos start).2 hc.2⟩
        rw [if_neg hcond]
        simp only [List.length_cons, List.length_append] at hf
        by_cases hmem : pos ∈ set
        · rw [if_pos hmem]
          apply ih
          · refine ⟨L, A1, B, rfl, { hinv with level := ?_, a_ok := ?_ }⟩
            · intro p hp hd
              rcases hinv.level p hp hd with h | h
              · exact Or.inl h
              · rcases List.mem_cons.1 h with h | h
                · exact Or.inl (h ▸ hmem)
                · exact Or.inr h
            · exact fun p hp => hinv.a_ok p (List.mem_cons_of_mem _ hp)
          · simp only [List.append_eq, List.length_append]; omega
        · rw [if_neg hmem]
          have hdpos : grid_distance start pos = L := by
            by_contra hne
            exact hmem (hinv.below pos hposok.1 (by have := hposok.2; omega))
          have hnodup : (pos :: set).Nodup := List.nodup_cons.2 ⟨hmem, hinv.nodup⟩
          have hsetok : ∀ p, p ∈ pos :: set →
              in_bounds model.board_width model.board_height p ∧
                grid_distance start p ≤ L ∧ ¬ is_target model start p := by
            intro p hp
            rcases List.mem_cons.1 hp with h | h
            · subst h; exact ⟨hposok.1, hposok.2, htar⟩
            · exact hinv.set_ok p h
          have hlen := visited_length_le _ _ hw hh (pos :: set) hnodup
            (fun p hp => (hsetok p hp).1)
          simp only [List.length_cons] at hlen
          have hnb := valid_neighbors_length_le model.board_width model.board_height pos.x pos.y
          apply ih
          · refine ⟨L, A1,
              B ++ valid_neighbors model.board_width model.board_height pos.x pos.y,
              by simp [List.append_assoc], hnodup, hsetok, ?_, ?_, ?_, ?_, ?_⟩
            · exact fun p hp hd => List.mem_cons_of_mem _ (hinv.below p hp hd)
            · intro p hp hd
              rcases hinv.level p hp hd with h | h
              · exact Or.inl (List.mem_cons_of_mem _ h)
              · rcases List.mem_cons.1 h with h | h
                · exact Or.inl (h ▸ List.mem_cons_self _ _)
                · exact Or.inr h
            · exact fun p hp => hinv.a_ok p (List.mem_cons_of_mem _ hp)
            · intro p hp
              rcases List.mem_append.1 hp with h | h
              · exact hinv.b_ok p h
              · refine ⟨((mem_valid_neighbors _ _ _ _ _).1 h).1, ?_⟩
                have := neighbor_distance_le _ _ start pos p h
                omega
            · intro p hp hd q hq hqd
              rcases List.mem_cons.1 hp with h | h
              · subst h; exact List.mem_append_right _ hq
              · exact List.mem_append_left _ (hinv.next p h hd q hq hqd)
          · simp only [List.append_eq, List.length_append, List.length_cons]; omega
/-- C6: when some tile `v` other than the cursor position is Uncleared, `bfs_to_closest_tile`
returns an assigned result `p` that lies on the board, is not the cursor position, is Uncleared,
and is at most as far from the cursor, in 8-connected graph distance, as `v`. -/
theorem bfs_to_closest_tile_nearest (model : MineSweeperGameScreenModel) (v : Point)
    (hw : model.board_width < 256) (hh : model.board_height < 256)
    (hstart : in_bounds model.board_width model.board_height
      { x := model.curr_pos.x_abs, y := model.curr_pos.y_abs })
    (hv : in_bounds model.board_width model.board_height v)
    (hvne : v ≠ { x := model.curr_pos.x_abs, y := model.curr_pos.y_abs })
    (hvs : state_at model v = MineSweeperGameScreenTileState.Uncleared) :
    ∃ p, bfs_to_closest_tile model = some (some p) ∧
      in_bounds model.board_width model.board_height p ∧
      p ≠ { x := model.curr_pos.x_abs, y := model.curr_pos.y_abs } ∧
      state_at model p = MineSweeperGameScreenTileState.Uncleared ∧
      grid_distance { x := model.curr_pos.x_abs, y := model.curr_pos.y_abs } p ≤
        grid_distance { x := model.curr_pos.x_abs, y := model.curr_pos.y_abs } v := by
  have hinit : closest_inv model { x := model.curr_pos.x_abs, y := model.curr_pos.y_abs } 0
      [{ x := model.curr_pos.x_abs, y := model.curr_pos.y_abs }] [] [] :=
    { nodup := List.nodup_nil
      set_ok := fun p hp => absurd hp (List.not_mem_nil _)
      below := fun p _ hd => absurd hd (by omega)
      level := fun p _ hd => by
        right
        rw [List.mem_singleton]
        obtain ⟨px, py⟩ := p
        unfold grid_distance at hd
        simp only at hd
        simp only [Point.mk.injEq]
        omega
      a_ok := fun p hp => by
        rw [List.mem_singleton] at hp
        subst hp
        refine ⟨hstart, ?_⟩
        unfold grid_distance
        simp
      b_ok := fun p hp => absurd hp (List.not_mem_nil _)
      next := fun p hp => absurd hp (List.not_mem_nil _) }
  obtain ⟨p, hrun, hpb, hpt, hpd⟩ :=
    bfs_to_closest_tile_loop_spec model _ v hw hh hstart hv ⟨hvs, hvne⟩ (bfs_fuel model)
      [{ x := model.curr_pos.x_abs, y := model.curr_pos.y_abs }] []
      ⟨0, _, [], by simp, hinit⟩
      (by simp only [bfs_fuel, List.length_singleton, List.length_nil]; omega)
  exact ⟨p, hrun, hpb, hpt.2, hpt.1, hpd⟩

theorem bfs_to_closest_tile_nearest_witness :
    demo_screen.model.board_width < 256 ∧ demo_screen.model.board_height < 256 ∧
    in_bounds demo_screen.model.board_width demo_screen.model.board_height
      { x := demo_screen.model.curr_pos.x_abs, y := demo_screen.model.curr_pos.y_abs } ∧
    in_bounds demo_screen.model.board_width demo_screen.model.board_height { x := 2, y := 5 } ∧
    ({ x := 2, y := 5 } : Point) ≠
      { x := demo_screen.model.curr_pos.x_abs, y := demo_screen.model.curr_pos.y_abs } ∧
    state_at demo_screen.model { x := 2, y := 5 } = MineSweeperGameScreenTileState.Uncleared ∧
    ∃ p, bfs_to_closest_tile demo_screen.model = some (some p) ∧
      in_bounds demo_screen.model.board_width demo_screen.model.board_height p ∧
      p ≠ { x := demo_screen.model.curr_pos.x_abs, y := demo_screen.model.curr_pos.y_abs } ∧
      state_at demo_screen.model p = MineSweeperGameScreenTileState.Uncleared ∧
      grid_distance
          { x := demo_screen.model.curr_pos.x_abs, y := demo_screen.model.curr_pos.y_abs } p ≤
        grid_distance
          { x := demo_screen.model.curr_pos.x_abs, y := demo_screen.model.curr_pos.y_abs }
          { x := 2, y := 5 } :=
  ⟨by decide!, by decide!, by decide!, by decide!, by decide!, by decide!,
    bfs_to_closest_tile_nearest demo_screen.model { x := 2, y := 5 } (by decide!) (by decide!)
      (by decide!) (by decide!) (by decide!) (by decide!)⟩
/-! ## Session invariant -/

theorem cursor_index_lt (model : MineSweeperGameScreenModel) (hinv : model_inv model) :
    pos_1d model.board_width model.curr_pos.x_abs model.curr_pos.y_abs <
      model.board_width * model.board_height :=
  (pos_1d_in_bounds _ _ hinv.width_lt hinv.height_lt _ hinv.cursor).2.1

theorem move_cursor_inv (key : InputKey) (model : MineSweeperGameScreenModel)
    (hinv : model_inv model) : model_inv (move_cursor key model) := by
  have hc := hinv.cursor
  have hwp := hinv.width_pos
  have hhp := hinv.height_pos
  unfold in_bounds at hc
  simp only at hc
  cases key
  case Up =>
    have hcur : in_bounds (move_cursor InputKey.Up model).board_width
        (move_cursor InputKey.Up model).board_height
        { x := (move_cursor InputKey.Up model).curr_pos.x_abs,
          y := (move_cursor InputKey.Up model).curr_pos.y_abs } := by
      unfold in_bounds move_cursor
      simp only
      split_ifs <;> omega
    exact { hinv with cursor := hcur }
  case Down =>
    have hcur : in_bounds (move_cursor InputKey.Down model).board_width
        (move_cursor InputKey.Down model).board_height
        { x := (move_cursor InputKey.Down model).curr_pos.x_abs,
          y := (move_cursor InputKey.Down model).curr_pos.y_abs } := by
      unfold in_bounds move_cursor
      simp only
      split_ifs <;> omega
    exact { hinv with cursor := hcur }
  case Right =>
    have hcur : in_bounds (move_cursor InputKey.Right model).board_width
        (move_cursor InputKey.Right model).board_height
        { x := (move_cursor InputKey.Right model).curr_pos.x_abs,
          y := (move_cursor InputKey.Right model).curr_pos.y_abs } := by
      unfold in_bounds move_cursor
      simp only
      split_ifs <;> omega
    exact { hinv with cursor := hcur }
  case Left =>
    have hcur : in_bounds (move_cursor InputKey.Left model).board_width
        (move_cursor InputKey.Left model).board_height
        { x := (move_cursor InputKey.Left model).curr_pos.x_abs,
          y := (move_cursor InputKey.Left model).curr_pos.y_abs } := by
      unfold in_bounds move_cursor
      simp only
      split_ifs <;> omega
    exact { hinv with cursor := hcur }
  case Ok => exact hinv
  case Back => exact hinv

/-- Board facts carried over by a change of tile states that creates no flag and leaves the
flagged mines flagged. -/
theorem model_inv_of_states (model model1 : MineSweeperGameScreenModel)
    (hinv : model_inv model)
    (hsame : same_except_board model1 model)
    (htype : ∀ i, (model1.board i).tile_type = (model.board i).tile_type)
    (hflag : ∀ i, i < model.board_width * model.board_height →
      (model1.board i).tile_state = MineSweeperGameScreenTileState.Flagged →
      (model.board i).tile_state = MineSweeperGameScreenTileState.Flagged)
    (hkeep : ∀ i, i < model.board_width * model.board_height →
      (model.board i).tile_state = MineSweeperGameScreenTileState.Flagged →
      (model.board i).tile_type = MineSweeperGameScreenTileMine →
      (model1.board i).tile_state = MineSweeperGameScreenTileState.Flagged) :
    model_inv model1 := by
  obtain ⟨s1, s2, s3, s4, s5, s6, s7, s8⟩ := hsame
  have htypes : types_of model1 = types_of model := funext htype
  have hmt : mine_total model1 = mine_total model := by
    unfold mine_total
    rw [s2, s3]
    exact count_tiles_congr _ _ _ _ _ (fun i _ => by rw [htype i])
  have hfm : flagged_mine_count model1 = flagged_mine_count model := by
    unfold flagged_mine_count
    rw [s2, s3]
    apply count_tiles_congr
    intro i hi
    simp only [decide_eq_true_eq, htype i]
    constructor
    · rintro ⟨h1, h2⟩; exact ⟨hflag i hi h1, h2⟩
    · rintro ⟨h1, h2⟩; exact ⟨hkeep i hi h1 h2, h2⟩
  have hfc : flagged_count model1 ≤ flagged_count model := by
    unfold flagged_count
    rw [s2, s3]
    apply count_tiles_mono
    intro i hi
    simp only [decide_eq_true_eq]
    exact hflag i hi
  refine ⟨by rw [s2]; exact hinv.width_pos, by rw [s2]; exact hinv.width_lt,
    by rw [s3]; exact hinv.height_pos, by rw [s3]; exact hinv.height_lt,
    by rw [s1, s2, s3]; exact hinv.cursor, ?_, ?_, ?_, ?_⟩
  · intro i hi hne
    rw [s2, s3] at hi
    rw [htype i] at hne ⊢
    rw [s2, s3, htypes]
    exact hinv.consistent i hi hne
  · rw [s2, s3, s4, hmt]; exact hinv.mines
  · rw [s5, hfm, hmt]; exact hinv.mines_left
  · rw [s6, hmt]; have := hinv.flags_left; omega

/-- On a board with consistent counts, a flood fill started on a tile that is not a mine
reaches no mine. -/
theorem zero_reach_not_mine (model : MineSweeperGameScreenModel) (start p : Point)
    (hw : model.board_width < 256) (hh : model.board_height < 256)
    (hc : counts_consistent model)
    (hs : in_bounds model.board_width model.board_height start)
    (hsm : type_at model start ≠ MineSweeperGameScreenTileMine)
    (hr : zero_reach model start p) : type_at model p ≠ MineSweeperGameScreenTileMine := by
  induction hr with
  | base => exact hsm
  | step p q hrp hz hq _ =>
    have hpb := zero_reach_in_bounds model start p hs hrp
    obtain ⟨_, hlt, hx, hy⟩ := pos_1d_in_bounds _ _ hw hh p hpb
    have e1 : MineSweeperGameScreenTileZero = 1 := rfl
    have e10 : MineSweeperGameScreenTileMine = 10 := rfl
    unfold type_at at hz
    have hcons := hc _ hlt (by rw [hz]; omega)
    rw [hz] at hcons
    have hzero : mine_count_at model.board_width model.board_height (types_of model)
        (pos_1d model.board_width p.x p.y) = 0 := by omega
    unfold mine_count_at at hzero
    simp only [hx, hy] at hzero
    rw [List.countP_eq_zero] at hzero
    have := hzero q hq
    simpa [types_of, type_at] using this

theorem bfs_to_closest_tile_loop_in_bounds (model : MineSweeperGameScreenModel) (start r : Point) :
    ∀ (fuel : Nat) (deq set : List Point),
      (∀ p, p ∈ deq → in_bounds model.board_width model.board_height p) →
      bfs_to_closest_tile_loop model start fuel deq set = some (some r) →
      in_bounds model.board_width model.board_height r := by
  intro fuel
  induction fuel with
  | zero =>
    intro deq set _ hrun
    cases deq <;> simp [bfs_to_closest_tile_loop] at hrun
  | succ fuel ih =>
    intro deq set hdeq hrun
    cases deq with
    | nil => simp [bfs_to_closest_tile_loop] at hrun
    | cons pos rest =>
      simp only [bfs_to_closest_tile_loop] at hrun
      split_ifs at hrun with h1 h2
      · simp only [Option.some.injEq] at hrun
        exact hrun ▸ hdeq pos (List.mem_cons_self _ _)
      · exact ih rest set (fun p hp => hdeq p (List.mem_cons_of_mem _ hp)) hrun
      · refine ih _ _ (fun p hp => ?_) hrun
        rcases List.mem_append.1 hp with h | h
        · exact hdeq p (List.mem_cons_of_mem _ h)
        · exact ((mem_valid_neighbors _ _ _ _ _).1 h).1
theorem setup_board_inv (draws : List Nat) (inst inst1 : MineSweeperGameScreen)
    (hw0 : 0 < inst.model.board_width) (hw : inst.model.board_width < 256)
    (hh0 : 0 < inst.model.board_height) (hh : inst.model.board_height < 256)
    (hs : setup_board draws inst = some inst1) : model_inv inst1.model := by
  have hcons := setup_board_consistent draws inst inst1 hw hh hs
  have hmines := setup_board_mine_total_eq draws inst inst1 hw hh hs
  obtain ⟨n, tiles, hn, ht, _, ew, eh, ed, _, hm, hf, hc, hb⟩ :=
    setup_board_spec draws inst inst1 hw hh hs
  have hn2 : mine_total inst1.model = n := by
    rw [ew, eh, ed, hn] at hmines
    exact (Option.some.inj hmines).symm
  have hunc : ∀ i, i < inst1.model.board_width * inst1.model.board_height →
      (inst1.model.board i).tile_state = MineSweeperGameScreenTileState.Uncleared := by
    intro i hi
    rw [ew, eh] at hi
    rw [hb i, if_pos hi]
  have hfc : flagged_count inst1.model = 0 := by
    have : flagged_count inst1.model ≤ count_tiles
        (inst1.model.board_width * inst1.model.board_height) inst1.model.board
        (fun _ => false) :=
      count_tiles_mono _ _ _ _ _ (fun i hi hp => by
        simp only [decide_eq_true_eq] at hp
        rw [hunc i hi] at hp
        exact absurd hp (by decide))
    have h0 : count_tiles (inst1.model.board_width * inst1.model.board_height)
        inst1.model.board (fun _ => false) = 0 := by simp [count_tiles]
    omega
  have hfm : flagged_mine_count inst1.model ≤ flagged_count inst1.model :=
    count_tiles_mono _ _ _ _ _ (fun i _ hp => by
      simp only [decide_eq_true_eq] at hp ⊢
      exact hp.1)
  refine ⟨by rw [ew]; exact hw0, by rw [ew]; exact hw, by rw [eh]; exact hh0,
    by rw [eh]; exact hh, ?_, hcons, hmines, by rw [hm, hn2]; omega, by rw [hf, hn2]; omega⟩
  rw [hc, ew, eh]
  unfold in_bounds
  simp only
  omega

theorem mine_total_lt (model : MineSweeperGameScreenModel) (hinv : model_inv model) :
    mine_total model < 65536 :=
  num_mines_of_lt _ _ _ hinv.mines

theorem flagged_mine_le_flagged (model : MineSweeperGameScreenModel) :
    flagged_mine_count model ≤ flagged_count model :=
  count_tiles_mono _ _ _ _ _ (fun i _ hp => by
    simp only [decide_eq_true_eq] at hp ⊢
    exact hp.1)

theorem flagged_mine_le_total (model : MineSweeperGameScreenModel) :
    flagged_mine_count model ≤ mine_total model :=
  count_tiles_mono _ _ _ _ _ (fun i _ hp => by
    simp only [decide_eq_true_eq] at hp ⊢
    exact hp.2)

/-- Writing a new state to the tile under the cursor keeps the board facts as long as the
counters account for the flag that appears or disappears. -/
theorem state_write_inv (model model1 : MineSweeperGameScreenModel) (i : Nat)
    (s : MineSweeperGameScreenTileState) (hinv : model_inv model)
    (hi : i < model.board_width * model.board_height)
    (hb : model1.board = upd model.board i { model.board i with tile_state := s })
    (hcur : model1.curr_pos = model.curr_pos)
    (hw : model1.board_width = model.board_width)
    (hh : model1.board_height = model.board_height)
    (hd : model1.board_difficulty = model.board_difficulty)
    (hml : model1.mines_left +
        (if s = MineSweeperGameScreenTileState.Flagged ∧
          (model.board i).tile_type = MineSweeperGameScreenTileMine then 1 else 0) =
      model.mines_left +
        (if (model.board i).tile_state = MineSweeperGameScreenTileState.Flagged ∧
          (model.board i).tile_type = MineSweeperGameScreenTileMine then 1 else 0))
    (hfl : model1.flags_left +
        (if s = MineSweeperGameScreenTileState.Flagged then 1 else 0) ≤
      model.flags_left +
        (if (model.board i).tile_state = MineSweeperGameScreenTileState.Flagged then 1 else 0)) :
    model_inv model1 := by
  have htype : ∀ j, (model1.board j).tile_type = (model.board j).tile_type := by
    intro j
    rw [hb, upd_apply]
    split
    · rename_i hj; rw [hj]
    · rfl
  have htypes : types_of model1 = types_of model := funext htype
  have hmt : mine_total model1 = mine_total model := by
    unfold mine_total
    rw [hw, hh]
    exact count_tiles_congr _ _ _ _ _ (fun j _ => by rw [htype j])
  have hfc := count_tiles_upd (model.board_width * model.board_height) model.board
    (fun t => decide (t.tile_state = MineSweeperGameScreenTileState.Flagged)) i
    { model.board i with tile_state := s } hi
  have hfm := count_tiles_upd (model.board_width * model.board_height) model.board
    (fun t => decide (t.tile_state = MineSweeperGameScreenTileState.Flagged ∧
      t.tile_type = MineSweeperGameScreenTileMine)) i
    { model.board i with tile_state := s } hi
  simp only [decide_eq_true_eq] at hfc hfm
  have hfc1 : flagged_count model1 = count_tiles (model.board_width * model.board_height)
      (upd model.board i { model.board i with tile_state := s })
      (fun t => decide (t.tile_state = MineSweeperGameScreenTileState.Flagged)) := by
    unfold flagged_count; rw [hw, hh, hb]
  have hfm1 : flagged_mine_count model1 = count_tiles (model.board_width * model.board_height)
      (upd model.board i { model.board i with tile_state := s })
      (fun t => decide (t.tile_state = MineSweeperGameScreenTileState.Flagged ∧
        t.tile_type = MineSweeperGameScreenTileMine)) := by
    unfold flagged_mine_count; rw [hw, hh, hb]
  have hfc0 : flagged_count model = count_tiles (model.board_width * model.board_height)
      model.board (fun t => decide (t.tile_state = MineSweeperGameScreenTileState.Flagged)) := rfl
  have hfm0 : flagged_mine_count model = count_tiles (model.board_width * model.board_height)
      model.board (fun t => decide (t.tile_state = MineSweeperGameScreenTileState.Flagged ∧
        t.tile_type = MineSweeperGameScreenTileMine)) := rfl
  rw [← hfc1, ← hfc0] at hfc
  rw [← hfm1, ← hfm0] at hfm
  have h1 := hinv.mines_left
  have h2 := hinv.flags_left
  refine ⟨by rw [hw]; exact hinv.width_pos, by rw [hw]; exact hinv.width_lt,
    by rw [hh]; exact hinv.height_pos, by rw [hh]; exact hinv.height_lt,
    by rw [hcur, hw, hh]; exact hinv.cursor, ?_, ?_, ?_, ?_⟩
  · intro j hj hne
    rw [hw, hh] at hj
    rw [htype j] at hne ⊢
    rw [hw, hh, htypes]
    exact hinv.consistent j hj hne
  · rw [hw, hh, hd, hmt]; exact hinv.mines
  · rw [hmt]; omega
  · rw [hmt]; omega
theorem count_tiles_pos {α : Type} (n : Nat) (a : Nat → α) (P : α → Bool) (i : Nat)
    (hi : i < n) (hp : P (a i) = true) : 1 ≤ count_tiles n a P := by
  unfold count_tiles
  exact List.countP_pos_iff.2 ⟨i, List.mem_range.2 hi, hp⟩

theorem count_tiles_lt_of_witness {α : Type} (n : Nat) (a : Nat → α) (P Q : α → Bool) (i : Nat)
    (hi : i < n) (hsub : ∀ j, j < n → P (a j) = true → Q (a j) = true)
    (hq : Q (a i) = true) (hp : ¬ P (a i) = true) :
    count_tiles n a P + 1 ≤ count_tiles n a Q := by
  induction n with
  | zero => omega
  | succ n ih =>
    rw [count_tiles_succ, count_tiles_succ]
    by_cases hin : i = n
    · subst hin
      have := count_tiles_mono i a a P Q (fun j hj => hsub j (by omega))
      have hpf : P (a i) = false := by simpa using hp
      rw [hq, hpf]
      simp only [if_true, Bool.false_eq_true, if_false]
      omega
    · have h1 := ih (by omega) (fun j hj => hsub j (by omega))
      have h2 := hsub n (by omega)
      by_cases hpn : P (a n) = true
      · rw [hpn, h2 hpn]; omega
      · have hpf : P (a n) = false := by simpa using hpn
        rw [hpf]
        simp only [Bool.false_eq_true, if_false]
        split <;> omega

theorem toggle_flag_inv (model : MineSweeperGameScreenModel) (hinv : model_inv model) :
    model_inv (toggle_flag model
      (pos_1d model.board_width model.curr_pos.x_abs model.curr_pos.y_abs)) := by
  have hi := cursor_index_lt model hinv
  have hmt := mine_total_lt model hinv
  have h1 := hinv.mines_left
  have h2 := hinv.flags_left
  generalize pos_1d model.board_width model.curr_pos.x_abs model.curr_pos.y_abs = i at hi
  unfold toggle_flag
  simp only
  by_cases c1 : (model.board i).tile_state = MineSweeperGameScreenTileState.Flagged
  · -- the tile is Flagged: the flag is taken back
    rw [if_pos c1]
    have hfc : 1 ≤ flagged_count model :=
      count_tiles_pos _ _ _ i hi (by simpa using c1)
    refine state_write_inv model _ i MineSweeperGameScreenTileState.Uncleared hinv hi
      rfl rfl rfl rfl rfl ?_ ?_
    · by_cases hm : (model.board i).tile_type = MineSweeperGameScreenTileMine
      · have hfm : 1 ≤ flagged_mine_count model :=
          count_tiles_pos _ _ _ i hi (by simpa using ⟨c1, hm⟩)
        simp only [c1, hm, and_self, if_true]
        simp
        omega
      · simp [hm]
    · simp only [c1, if_true]
      simp
      omega
  · rw [if_neg c1]
    by_cases c2 : model.flags_left > 0
    · -- the tile is not Flagged and a flag is left: the flag is set
      rw [if_pos c2]
      have hfm : (model.board i).tile_type = MineSweeperGameScreenTileMine →
          flagged_mine_count model + 1 ≤ mine_total model := fun hm =>
        count_tiles_lt_of_witness _ _ _ _ i hi
          (fun j _ hp => by
            simp only [decide_eq_true_eq] at hp ⊢
            exact hp.2)
          (by simpa using hm) (by simp [c1])
      refine state_write_inv model _ i MineSweeperGameScreenTileState.Flagged hinv hi
        rfl rfl rfl rfl rfl ?_ ?_
      · by_cases hm : (model.board i).tile_type = MineSweeperGameScreenTileMine
        · have := hfm hm
          simp only [c1, hm, and_self, false_and, if_true, if_false]
          omega
        · simp [hm]
      · simp only [c1, if_false, if_true]
        omega
    · rw [if_neg c2]
      exact hinv

theorem clear_cursor_inv (model : MineSweeperGameScreenModel) (hinv : model_inv model)
    (hstate : (model.board (pos_1d model.board_width model.curr_pos.x_abs
      model.curr_pos.y_abs)).tile_state = MineSweeperGameScreenTileState.Uncleared) :
    model_inv { model with
      board := upd model.board
        (pos_1d model.board_width model.curr_pos.x_abs model.curr_pos.y_abs)
        { model.board (pos_1d model.board_width model.curr_pos.x_abs model.curr_pos.y_abs) with
          tile_state := MineSweeperGameScreenTileState.Cleared } } := by
  refine state_write_inv model _ _ MineSweeperGameScreenTileState.Cleared hinv
    (cursor_index_lt model hinv) rfl rfl rfl rfl rfl ?_ ?_
  · simp [hstate]
  · simp [hstate]

theorem flood_inv (model model1 : MineSweeperGameScreenModel) (hinv : model_inv model)
    (hnm : type_at model { x := model.curr_pos.x_abs, y := model.curr_pos.y_abs } ≠
      MineSweeperGameScreenTileMine)
    (hrun : bfs_tile_clear model = some model1) : model_inv model1 := by
  obtain ⟨m1, set1, hrun1, hci⟩ :=
    bfs_tile_clear_post model hinv.width_lt hinv.height_lt hinv.cursor
  rw [hrun] at hrun1
  obtain rfl := Option.some.inj hrun1
  have hcase : ∀ i, model1.board i = model.board i ∨
      (model1.board i = { model.board i with
          tile_state := MineSweeperGameScreenTileState.Cleared } ∧
        (model.board i).tile_type ≠ MineSweeperGameScreenTileMine) := by
    intro i
    by_cases hex : ∃ p, p ∈ set1 ∧ pos_1d model.board_width p.x p.y = i
    · obtain ⟨p, hp, rfl⟩ := hex
      right
      refine ⟨hci.cleared p hp, ?_⟩
      exact zero_reach_not_mine model _ p hinv.width_lt hinv.height_lt hinv.consistent
        hinv.cursor hnm (hci.set_ok p hp).2
    · left
      exact hci.untouched i (fun p hp heq => hex ⟨p, hp, heq⟩)
  apply model_inv_of_states model model1 hinv hci.same
  · intro i
    rcases hcase i with h | ⟨h, _⟩ <;> rw [h]
  · intro i _ hf
    rcases hcase i with h | ⟨h, _⟩
    · rw [h] at hf; exact hf
    · rw [h] at hf; exact absurd hf (by simp)
  · intro i _ hf hm
    rcases hcase i with h | ⟨_, h⟩
    · rw [h]; exact hf
    · exact absurd hm h
theorem model_inv_holding (model : MineSweeperGameScreenModel) (b : Bool)
    (hinv : model_inv model) : model_inv { model with is_holding_down_button := b } :=
  ⟨hinv.width_pos, hinv.width_lt, hinv.height_pos, hinv.height_lt, hinv.cursor,
    hinv.consistent, hinv.mines, hinv.mines_left, hinv.flags_left⟩

theorem model_inv_jump (model : MineSweeperGameScreenModel) (res : Point)
    (hinv : model_inv model) (hres : in_bounds model.board_width model.board_height res) :
    model_inv { model with
      curr_pos := { x_abs := res.x, y_abs := res.y }
      is_holding_down_button := true } :=
  ⟨hinv.width_pos, hinv.width_lt, hinv.height_pos, hinv.height_lt, hres,
    hinv.consistent, hinv.mines, hinv.mines_left, hinv.flags_left⟩

theorem bfs_to_closest_tile_in_bounds (model : MineSweeperGameScreenModel) (res : Point)
    (hinv : model_inv model) (hrun : bfs_to_closest_tile model = some (some res)) :
    in_bounds model.board_width model.board_height res := by
  unfold bfs_to_closest_tile at hrun
  refine bfs_to_closest_tile_loop_in_bounds model _ res _ _ _ (fun p hp => ?_) hrun
  rw [List.mem_singleton] at hp
  subst hp
  exact hinv.cursor

theorem play_input_inv (event : InputEvent) (inst inst1 : MineSweeperGameScreen)
    (hinv : model_inv inst.model)
    (hrun : mine_sweeper_game_screen_view_play_input_callback event inst = some inst1) :
    model_inv inst1.model := by
  unfold mine_sweeper_game_screen_view_play_input_callback at hrun
  simp only at hrun
  split_ifs at hrun with c1 c2 c3 c4 c5 c6 c7 c8 c9 c10
  · obtain rfl := Option.some.inj hrun
    exact clear_cursor_inv inst.model hinv c3.1
  · have hcl := clear_cursor_inv inst.model hinv c4
    split at hrun
    · exact absurd hrun (by simp)
    · rename_i model1 hbfs
      obtain rfl := Option.some.inj hrun
      refine flood_inv _ model1 hcl ?_ hbfs
      unfold type_at
      simp only [upd_same]
      exact fun hm => c3 ⟨c4, hm⟩
  · obtain rfl := Option.some.inj hrun
    exact hinv
  · obtain rfl := Option.some.inj hrun
    exact hinv
  · obtain rfl := Option.some.inj hrun
    exact model_inv_holding inst.model false hinv
  · split at hrun
    · rename_i res hbfs
      obtain rfl := Option.some.inj hrun
      exact model_inv_jump inst.model res hinv (bfs_to_closest_tile_in_bounds _ _ hinv hbfs)
    · exact absurd hrun (by simp)
  · obtain rfl := Option.some.inj hrun
    exact toggle_flag_inv inst.model hinv
  · obtain rfl := Option.some.inj hrun
    exact toggle_flag_inv inst.model hinv
  · obtain rfl := Option.some.inj hrun
    exact hinv
  · obtain rfl := Option.some.inj hrun
    exact move_cursor_inv event.key inst.model hinv
  · obtain rfl := Option.some.inj hrun
    exact hinv

theorem setup_board_callbacks (draws : List Nat) (inst inst1 : MineSweeperGameScreen)
    (hs : setup_board draws inst = some inst1) : inst1.callbacks = inst.callbacks := by
  unfold setup_board at hs
  split at hs
  · exact absurd hs (by simp)
  · obtain rfl := Option.some.inj hs
    rfl

theorem end_input_inv (event : InputEvent) (draws : List Nat)
    (inst inst1 : MineSweeperGameScreen) (hinv : model_inv inst.model)
    (hrun : mine_sweeper_game_screen_view_end_input_callback event draws inst = some inst1) :
    model_inv inst1.model := by
  unfold mine_sweeper_game_screen_view_end_input_callback at hrun
  split_ifs at hrun with c1
  · split at hrun
    · obtain rfl := Option.some.inj hrun
      exact move_cursor_inv InputKey.Up inst.model hinv
    · obtain rfl := Option.some.inj hrun
      exact move_cursor_inv InputKey.Down inst.model hinv
    · obtain rfl := Option.some.inj hrun
      exact move_cursor_inv InputKey.Left inst.model hinv
    · obtain rfl := Option.some.inj hrun
      exact move_cursor_inv InputKey.Right inst.model hinv
    · exact setup_board_inv draws { callbacks := ViewCallbacks.play, model := inst.model } inst1
        hinv.width_pos hinv.width_lt hinv.height_pos hinv.height_lt hrun
  · obtain rfl := Option.some.inj hrun
    exact hinv

theorem view_input_inv (event : InputEvent) (draws : List Nat)
    (inst inst1 : MineSweeperGameScreen) (hinv : model_inv inst.model)
    (hrun : view_input event draws inst = some inst1) : model_inv inst1.model := by
  unfold view_input at hrun
  split at hrun
  · exact play_input_inv event inst inst1 hinv hrun
  · exact end_input_inv event draws inst inst1 hinv hrun

theorem set_board_information_dims (width height difficulty : Nat)
    (inst : MineSweeperGameScreen) :
    16 ≤ (mine_sweeper_game_screen_set_board_information width height difficulty
        inst).model.board_width ∧
      (mine_sweeper_game_screen_set_board_information width height difficulty
        inst).model.board_width ≤ 146 ∧
      7 ≤ (mine_sweeper_game_screen_set_board_information width height difficulty
        inst).model.board_height ∧
      (mine_sweeper_game_screen_set_board_information width height difficulty
        inst).model.board_height ≤ 64 ∧
      (mine_sweeper_game_screen_set_board_information width height difficulty
        inst).model.board_difficulty ≤ 4 := by
  unfold mine_sweeper_game_screen_set_board_information
  simp only
  refine ⟨?_, ?_, ?_, ?_, ?_⟩ <;> split_ifs <;> omega

theorem reset_inv (width height difficulty : Nat) (draws : List Nat)
    (inst inst1 : MineSweeperGameScreen)
    (hrun : mine_sweeper_game_screen_reset width height difficulty draws inst = some inst1) :
    model_inv inst1.model := by
  unfold mine_sweeper_game_screen_reset at hrun
  obtain ⟨h1, h2, h3, h4, _⟩ := set_board_information_dims width height difficulty inst
  exact setup_board_inv draws _ inst1 (by omega) (by omega) (by omega) (by omega) hrun

theorem alloc_inv (width height difficulty : Nat) (draws : List Nat)
    (model0 : MineSweeperGameScreenModel) (inst1 : MineSweeperGameScreen)
    (hrun : mine_sweeper_game_screen_alloc width height difficulty draws model0 = some inst1) :
    model_inv inst1.model := by
  unfold mine_sweeper_game_screen_alloc at hrun
  obtain ⟨h1, h2, h3, h4, _⟩ := set_board_information_dims width height difficulty
    { callbacks := ViewCallbacks.play, model := model0 }
  exact setup_board_inv draws _ inst1 (by omega) (by omega) (by omega) (by omega) hrun

theorem apply_action_inv (a : Action × List Nat) (inst inst1 : MineSweeperGameScreen)
    (hinv : model_inv inst.model) (hrun : apply_action a inst = some inst1) :
    model_inv inst1.model := by
  unfold apply_action at hrun
  split at hrun
  · exact view_input_inv _ _ inst inst1 hinv hrun
  · exact reset_inv _ _ _ _ inst inst1 hrun

theorem run_actions_inv (actions : List (Action × List Nat)) :
    ∀ (inst inst1 : MineSweeperGameScreen), model_inv inst.model →
      run_actions actions inst = some inst1 → model_inv inst1.model := by
  induction actions with
  | nil =>
    intro inst inst1 hinv hrun
    simp only [run_actions, Option.some.injEq] at hrun
    exact hrun ▸ hinv
  | cons a rest ih =>
    intro inst inst1 hinv hrun
    simp only [run_actions] at hrun
    split at hrun
    · exact absurd hrun (by simp)
    · rename_i inst2 h2
      exact ih inst2 inst1 (apply_action_inv a inst inst2 hinv h2) hrun

/-- The invariant holds in every state of a session. -/
theorem session_inv (width height difficulty : Nat) (draws : List Nat)
    (model0 : MineSweeperGameScreenModel) (actions : List (Action × List Nat))
    (inst : MineSweeperGameScreen)
    (hrun : session width height difficulty draws model0 actions = some inst) :
    model_inv inst.model := by
  unfold session at hrun
  split at hrun
  · exact absurd hrun (by simp)
  · rename_i inst0 h0
    exact run_actions_inv actions inst0 inst (alloc_inv _ _ _ _ _ inst0 h0) hrun
/-! ## Winning and losing -/

/-- In every state that satisfies the invariant, the win check `flags_left == 0 &&
mines_left == 0` is true exactly when every mine is Flagged and nothing else is. -/
theorem win_check_iff (model : MineSweeperGameScreenModel) (hinv : model_inv model) :
    (model.flags_left = 0 ∧ model.mines_left = 0) ↔ won_board model := by
  have h1 := hinv.mines_left
  have h2 := hinv.flags_left
  have h3 := flagged_mine_le_flagged model
  constructor
  · rintro ⟨hf, hm⟩
    constructor
    · intro i hi hmine
      have := count_tiles_eq_forces (model.board_width * model.board_height) model.board
        (fun t => decide (t.tile_state = MineSweeperGameScreenTileState.Flagged ∧
          t.tile_type = MineSweeperGameScreenTileMine))
        (fun t => decide (t.tile_type = MineSweeperGameScreenTileMine))
        (fun j _ hp => by simp only [decide_eq_true_eq] at hp ⊢; exact hp.2)
        (by
          show mine_total model ≤ flagged_mine_count model
          omega) i hi (by simpa using hmine)
      simp only [decide_eq_true_eq] at this
      exact this.1
    · intro i hi hnm hfl
      have := count_tiles_eq_forces (model.board_width * model.board_height) model.board
        (fun t => decide (t.tile_state = MineSweeperGameScreenTileState.Flagged ∧
          t.tile_type = MineSweeperGameScreenTileMine))
        (fun t => decide (t.tile_state = MineSweeperGameScreenTileState.Flagged))
        (fun j _ hp => by simp only [decide_eq_true_eq] at hp ⊢; exact hp.1)
        (by
          show flagged_count model ≤ flagged_mine_count model
          omega) i hi (by simpa using hfl)
      simp only [decide_eq_true_eq] at this
      exact hnm this.2
  · rintro ⟨hall, hnone⟩
    have e1 : flagged_mine_count model = mine_total model :=
      count_tiles_congr _ _ _ _ _ (fun i hi => by
        simp only [decide_eq_true_eq]
        exact ⟨fun h => h.2, fun h => ⟨hall i hi h, h⟩⟩)
    have e2 : flagged_count model = flagged_mine_count model :=
      count_tiles_congr _ _ _ _ _ (fun i hi => by
        simp only [decide_eq_true_eq]
        constructor
        · intro h
          refine ⟨h, ?_⟩
          by_contra hnm
          exact hnone i hi hnm h
        · exact fun h => h.1)
    omega

/-- Which callbacks the play input callback leaves installed. -/
theorem play_input_callbacks (event : InputEvent) (inst inst1 : MineSweeperGameScreen)
    (hplay : inst.callbacks = ViewCallbacks.play)
    (hrun : mine_sweeper_game_screen_view_play_input_callback event inst = some inst1) :
    (inst1.callbacks = ViewCallbacks.win ↔
      (flag_check_made event inst.model ∧
        inst1.model.flags_left = 0 ∧ inst1.model.mines_left = 0)) ∧
    (inst1.callbacks = ViewCallbacks.lose ↔ reveals_mine event inst.model) := by
  unfold flag_check_made reveals_mine
  unfold mine_sweeper_game_screen_view_play_input_callback at hrun
  simp only at hrun
  split_ifs at hrun with c1 c2 c3 c4 c5 c6 c7 c8 c9 c10
  · obtain rfl := Option.some.inj hrun
    simp [c1, c2, c3.1, c3.2]
  · split at hrun
    · exact absurd hrun (by simp)
    · obtain rfl := Option.some.inj hrun
      simp only [hplay, c1]
      simp
      intro _ h1 h2
      exact c3 ⟨h1, h2⟩
  · obtain rfl := Option.some.inj hrun
    simp only [hplay, c1]
    simp
    intro _ h1
    exact absurd h1 c4
  · obtain rfl := Option.some.inj hrun
    simp only [hplay, c1]
    simp
    intro h
    exact absurd h c2
  · obtain rfl := Option.some.inj hrun
    simp only [hplay, c5.1, c5.2]
    simp
  · split at hrun
    · obtain rfl := Option.some.inj hrun
      simp only [hplay, c6.1, c7]
      simp
    · exact absurd hrun (by simp)
  · obtain rfl := Option.some.inj hrun
    simp only [c6.1]
    simp only [Bool.not_eq_true] at c8
    simp [c6.2, c7, c8.1, c9.1, c9.2]
  · obtain rfl := Option.some.inj hrun
    simp only [hplay, c6.1]
    simp
    intro _ _ _ h1 h2
    exact c9 ⟨h1, h2⟩
  · obtain rfl := Option.some.inj hrun
    simp only [hplay, c6.1]
    simp
    intro _ hst hhold
    exfalso
    apply c8
    refine ⟨by simp [hhold], ?_⟩
    cases hs : (inst.model.board (pos_1d inst.model.board_width inst.model.curr_pos.x_abs
      inst.model.curr_pos.y_abs)).tile_state
    · right; rfl
    · left; rfl
    · exact absurd hs hst
  · obtain rfl := Option.some.inj hrun
    simp only [hplay]
    simp
    constructor
    · intro hk ht
      exact absurd ⟨hk, ht⟩ c6
    · intro hk
      exact absurd hk c1
  · obtain rfl := Option.some.inj hrun
    simp only [hplay]
    simp
    constructor
    · intro hk ht
      exact absurd ⟨hk, ht⟩ c6
    · intro hk
      exact absurd hk c1

/-- The end input callback leaves the installed callbacks alone or reinstalls the play pair. -/
theorem end_input_callbacks (event : InputEvent) (draws : List Nat)
    (inst inst1 : MineSweeperGameScreen)
    (hrun : mine_sweeper_game_screen_view_end_input_callback event draws inst = some inst1) :
    inst1.callbacks = inst.callbacks ∨ inst1.callbacks = ViewCallbacks.play := by
  unfold mine_sweeper_game_screen_view_end_input_callback at hrun
  split_ifs at hrun with c1
  · split at hrun
    · obtain rfl := Option.some.inj hrun; exact Or.inl rfl
    · obtain rfl := Option.some.inj hrun; exact Or.inl rfl
    · obtain rfl := Option.some.inj hrun; exact Or.inl rfl
    · obtain rfl := Option.some.inj hrun; exact Or.inl rfl
    · exact Or.inr (setup_board_callbacks draws _ inst1 hrun)
  · obtain rfl := Option.some.inj hrun; exact Or.inl rfl

theorem reset_callbacks (width height difficulty : Nat) (draws : List Nat)
    (inst inst1 : MineSweeperGameScreen)
    (hrun : mine_sweeper_game_screen_reset width height difficulty draws inst = some inst1) :
    inst1.callbacks = inst.callbacks := by
  unfold mine_sweeper_game_screen_reset at hrun
  exact setup_board_callbacks draws
    (mine_sweeper_game_screen_set_board_information width height difficulty inst) inst1 hrun
theorem demo_flagged_run :
    session 16 7 0 demo_draws zero_model demo_flag_mine = some demo_flagged :=
  option_eq_some_getD _ _ (by decide!)

/-- C2: in every state of a session, the board holds exactly `num_mines` mines, and
`mines_left` equals that number minus the number of tiles that are Flagged and of type Mine. -/
theorem session_mines_left (width height difficulty : Nat) (draws : List Nat)
    (model0 : MineSweeperGameScreenModel) (actions : List (Action × List Nat))
    (inst : MineSweeperGameScreen)
    (hrun : session width height difficulty draws model0 actions = some inst) :
    num_mines_of (inst.model.board_width * inst.model.board_height)
      inst.model.board_difficulty = some (mine_total inst.model) ∧
    (inst.model.mines_left : Int) =
      (mine_total inst.model : Int) - (flagged_mine_count inst.model : Int) := by
  have hinv := session_inv width height difficulty draws model0 actions inst hrun
  refine ⟨hinv.mines, ?_⟩
  have := hinv.mines_left
  omega

theorem session_mines_left_witness :
    session 16 7 0 demo_draws zero_model demo_flag_mine = some demo_flagged ∧
    flagged_mine_count demo_flagged.model = 1 ∧
    (num_mines_of (demo_flagged.model.board_width * demo_flagged.model.board_height)
      demo_flagged.model.board_difficulty = some (mine_total demo_flagged.model) ∧
    (demo_flagged.model.mines_left : Int) =
      (mine_total demo_flagged.model : Int) - (flagged_mine_count demo_flagged.model : Int)) :=
  ⟨demo_flagged_run, by decide!,
    session_mines_left 16 7 0 demo_draws zero_model demo_flag_mine demo_flagged demo_flagged_run⟩

/-- C1, evaluated: in the session that flags the tile right of the top left corner and then
reveals the corner, the flood fill clears the flagged tile without giving the flag back, so
that the session is still being played with `flags_left = 15` although 16 mines were placed and
no tile is Flagged. -/
theorem flood_fill_swallows_flag :
    (session 16 7 0 demo_draws zero_model demo_actions).map
      (fun s => (s.model.flags_left, flagged_count s.model, mine_total s.model,
        s.model.mines_left, s.callbacks)) =
      some (15, 0, 16, 16, ViewCallbacks.play) := by
  decide!
/-! ## The number of mines is positive on every supported board -/

theorem f32_excess_bits_le (k p : Nat) :
    f32_excess_bits k p = 0 ∨ 2 ^ f32_excess_bits k p ≤ p := by
  induction k generalizing p with
  | zero => left; rfl
  | succ k ih =>
    unfold f32_excess_bits
    split
    · left; rfl
    · rename_i hp
      right
      rcases ih (p / 2) with h | h
      · rw [h]
        have : (2 : Nat) ^ 24 = 16777216 := by norm_num
        simp only [Nat.add_zero, pow_one]
        omega
      · rw [Nat.add_comm, pow_succ]
        have := Nat.div_mul_le_self p 2
        calc 2 ^ f32_excess_bits k (p / 2) * 2 ≤ p / 2 * 2 := Nat.mul_le_mul_right 2 h
          _ ≤ p := this

/-- Rounding to 24 bits changes a product by less than a factor of two in either direction. -/
theorem f32_round_bounds (p : Nat) : p ≤ 2 * f32_round p ∧ f32_round p ≤ 2 * p := by
  unfold f32_round
  simp only
  generalize hs : f32_excess_bits 64 p = s
  have hdm := Nat.div_add_mod p (2 ^ s)
  have hmod : p % 2 ^ s < 2 ^ s := Nat.mod_lt _ (Nat.pos_pow_of_pos s (by norm_num))
  have hcomm : 2 ^ s * (p / 2 ^ s) = p / 2 ^ s * 2 ^ s := Nat.mul_comm _ _
  have hsucc : (p / 2 ^ s + 1) * 2 ^ s = p / 2 ^ s * 2 ^ s + 2 ^ s := by ring
  rcases f32_excess_bits_le 64 p with h0 | hle
  · rw [hs] at h0
    subst h0
    simp only [pow_zero, Nat.div_one, Nat.mod_one, Nat.mul_zero, Nat.mul_one] at *
    split_ifs <;> omega
  · rw [hs] at hle
    have hq : 1 ≤ p / 2 ^ s := (Nat.one_le_div_iff (Nat.pos_pow_of_pos s (by norm_num))).2 hle
    have hqs : 2 ^ s ≤ p / 2 ^ s * 2 ^ s := Nat.le_mul_of_pos_left _ hq
    split_ifs <;> omega

theorem div_mod_pos_of_bounds (b e : Nat) (hlo : 2 ^ e ≤ b) (hhi : b < 65536 * 2 ^ e) :
    1 ≤ (b / 2 ^ e) % 65536 := by
  have hpos : 0 < 2 ^ e := Nat.pos_pow_of_pos e (by norm_num)
  have h1 : 1 ≤ b / 2 ^ e := (Nat.one_le_div_iff hpos).2 hlo
  have h2 : b / 2 ^ e < 65536 := (Nat.div_lt_iff_lt_mul hpos).2 hhi
  rw [Nat.mod_eq_of_lt h2]
  exact h1

theorem num_mines_of_pos (tc d n : Nat) (h1 : 112 ≤ tc) (h2 : tc ≤ 9344)
    (h : num_mines_of tc d = some n) : 1 ≤ n := by
  unfold num_mines_of at h
  have hd : d < 5 ∨ 5 ≤ d := by omega
  rcases hd with hd | hd
  · interval_cases d <;>
      simp only [difficulty_multiplier, List.getElem?_cons_zero, List.getElem?_cons_succ,
        Option.some.injEq] at h <;>
      subst h
    · have := f32_round_bounds (tc * 10066330)
      exact div_mod_pos_of_bounds _ _ (by norm_num; omega) (by norm_num; omega)
    · have := f32_round_bounds (tc * 11408507)
      exact div_mod_pos_of_bounds _ _ (by norm_num; omega) (by norm_num; omega)
    · have := f32_round_bounds (tc * 12750684)
      exact div_mod_pos_of_bounds _ _ (by norm_num; omega) (by norm_num; omega)
    · have := f32_round_bounds (tc * 15435039)
      exact div_mod_pos_of_bounds _ _ (by norm_num; omega) (by norm_num; omega)
    · have := f32_round_bounds (tc * 9059697)
      exact div_mod_pos_of_bounds _ _ (by norm_num; omega) (by norm_num; omega)
  · rw [List.getElem?_eq_none (by simpa [difficulty_multiplier] using hd)] at h
    simp at h
/-! ## A won board only occurs with the win callbacks installed -/

theorem supported_tile_count (w h : Nat) (h1 : 16 ≤ w) (h2 : w ≤ 146) (h3 : 7 ≤ h)
    (h4 : h ≤ 64) : 112 ≤ w * h ∧ w * h ≤ 9344 := by
  have ha : 16 * 7 ≤ w * h := Nat.mul_le_mul h1 h3
  have hb : w * h ≤ 146 * 64 := Nat.mul_le_mul h2 h4
  omega

theorem setup_board_dims (draws : List Nat) (inst inst1 : MineSweeperGameScreen)
    (hs : setup_board draws inst = some inst1) :
    inst1.model.board_width = inst.model.board_width ∧
      inst1.model.board_height = inst.model.board_height := by
  unfold setup_board at hs
  split at hs
  · exact absurd hs (by simp)
  · rename_i model hm
    obtain rfl := Option.some.inj hs
    unfold setup_board_model at hm
    simp only at hm
    split at hm
    · obtain rfl := Option.some.inj hm
      exact ⟨rfl, rfl⟩
    · exact absurd hm (by simp)

/-- A freshly generated board of a supported size is not a won board: it has a mine, and that
mine is Uncleared. -/
theorem fresh_not_won (draws : List Nat) (inst inst1 : MineSweeperGameScreen)
    (h1 : 16 ≤ inst.model.board_width) (h2 : inst.model.board_width ≤ 146)
    (h3 : 7 ≤ inst.model.board_height) (h4 : inst.model.board_height ≤ 64)
    (hs : setup_board draws inst = some inst1) : ¬ won_board inst1.model := by
  have hinv := setup_board_inv draws inst inst1 (by omega) (by omega) (by omega) (by omega) hs
  obtain ⟨ew, eh⟩ := setup_board_dims draws inst inst1 hs
  obtain ⟨n, tiles, _, _, _, _, _, _, _, _, _, _, hb⟩ :=
    setup_board_spec draws inst inst1 (by omega) (by omega) hs
  obtain ⟨hlo, hhi⟩ := supported_tile_count _ _ h1 h2 h3 h4
  have hpos := num_mines_of_pos _ _ _ (by rw [ew, eh]; exact hlo) (by rw [ew, eh]; exact hhi)
    hinv.mines
  unfold mine_total count_tiles at hpos
  obtain ⟨i, hi, hm⟩ := List.countP_pos_iff.1 hpos
  rw [List.mem_range] at hi
  simp only [decide_eq_true_eq] at hm
  intro hwon
  have hf := hwon.1 i hi hm
  rw [ew, eh] at hi
  rw [hb i, if_pos hi] at hf
  simp at hf

theorem won_board_of_counters (m m1 : MineSweeperGameScreenModel) (hinv : model_inv m)
    (hinv1 : model_inv m1) (hf : m1.flags_left = m.flags_left)
    (hm : m1.mines_left = m.mines_left) (hwon : won_board m1) : won_board m := by
  have h := (win_check_iff m1 hinv1).2 hwon
  rw [hf, hm] at h
  exact (win_check_iff m hinv).1 h

/-- An input handled by the play input callback leaves both counters alone unless it reaches
the flag branch. -/
theorem play_input_counters (event : InputEvent) (inst inst1 : MineSweeperGameScreen)
    (hinv : model_inv inst.model)
    (hrun : mine_sweeper_game_screen_view_play_input_callback event inst = some inst1) :
    (inst1.model.flags_left = inst.model.flags_left ∧
      inst1.model.mines_left = inst.model.mines_left ∧
      inst1.model.board_width = inst.model.board_width ∧
      inst1.model.board_height = inst.model.board_height) ∨
    (flag_check_made event inst.model ∧
      inst1.model.board_width = inst.model.board_width ∧
      inst1.model.board_height = inst.model.board_height) := by
  unfold flag_check_made
  unfold mine_sweeper_game_screen_view_play_input_callback at hrun
  simp only at hrun
  split_ifs at hrun with c1 c2 c3 c4 c5 c6 c7 c8 c9 c10
  · obtain rfl := Option.some.inj hrun
    exact Or.inl ⟨rfl, rfl, rfl, rfl⟩
  · have hcl := clear_cursor_inv inst.model hinv c4
    split at hrun
    · exact absurd hrun (by simp)
    · rename_i model1 hbfs
      obtain rfl := Option.some.inj hrun
      obtain ⟨m1, set1, hrun1, hci⟩ :=
        bfs_tile_clear_post _ hcl.width_lt hcl.height_lt hcl.cursor
      rw [hbfs] at hrun1
      obtain rfl := Option.some.inj hrun1
      obtain ⟨_, s2, s3, _, s5, s6, _, _⟩ := hci.same
      exact Or.inl ⟨s6, s5, s2, s3⟩
  · obtain rfl := Option.some.inj hrun
    exact Or.inl ⟨rfl, rfl, rfl, rfl⟩
  · obtain rfl := Option.some.inj hrun
    exact Or.inl ⟨rfl, rfl, rfl, rfl⟩
  · obtain rfl := Option.some.inj hrun
    exact Or.inl ⟨rfl, rfl, rfl, rfl⟩
  · split at hrun
    · obtain rfl := Option.some.inj hrun
      exact Or.inl ⟨rfl, rfl, rfl, rfl⟩
    · exact absurd hrun (by simp)
  · obtain rfl := Option.some.inj hrun
    simp only [Bool.not_eq_true] at c8
    refine Or.inr ⟨⟨c6.1, c6.2, c7, c8.1⟩, ?_⟩
    unfold toggle_flag
    simp only
    split_ifs <;> exact ⟨rfl, rfl⟩
  · obtain rfl := Option.some.inj hrun
    simp only [Bool.not_eq_true] at c8
    refine Or.inr ⟨⟨c6.1, c6.2, c7, c8.1⟩, ?_⟩
    unfold toggle_flag
    simp only
    split_ifs <;> exact ⟨rfl, rfl⟩
  · obtain rfl := Option.some.inj hrun
    exact Or.inl ⟨rfl, rfl, rfl, rfl⟩
  · obtain rfl := Option.some.inj hrun
    refine Or.inl ⟨?_, ?_, ?_, ?_⟩ <;> cases event.key <;> rfl
  · obtain rfl := Option.some.inj hrun
    exact Or.inl ⟨rfl, rfl, rfl, rfl⟩

theorem move_cursor_board (key : InputKey) (model : MineSweeperGameScreenModel) :
    (move_cursor key model).board = model.board ∧
      (move_cursor key model).board_width = model.board_width ∧
      (move_cursor key model).board_height = model.board_height := by
  cases key <;> exact ⟨rfl, rfl, rfl⟩

theorem apply_action_phase_inv (a : Action × List Nat) (inst inst1 : MineSweeperGameScreen)
    (hinv : model_inv inst.model) (hph : phase_inv inst)
    (hrun : apply_action a inst = some inst1) : phase_inv inst1 := by
  have hinv1 := apply_action_inv a inst inst1 hinv hrun
  unfold apply_action at hrun
  split at hrun
  · rename_i event ha
    unfold view_input at hrun
    split at hrun
    · rename_i hplay
      obtain ⟨hw, _⟩ := play_input_callbacks event inst inst1 hplay hrun
      rcases play_input_counters event inst inst1 hinv hrun with ⟨hf, hm, ew, eh⟩ | ⟨hfc, ew, eh⟩
      · refine ⟨by rw [ew]; exact hph.width_ge, by rw [ew]; exact hph.width_le,
          by rw [eh]; exact hph.height_ge, by rw [eh]; exact hph.height_le, fun hwon => ?_⟩
        have := hph.won_only (won_board_of_counters _ _ hinv hinv1 hf hm hwon)
        rw [hplay] at this
        exact absurd this (by decide)
      · refine ⟨by rw [ew]; exact hph.width_ge, by rw [ew]; exact hph.width_le,
          by rw [eh]; exact hph.height_ge, by rw [eh]; exact hph.height_le, fun hwon => ?_⟩
        exact hw.2 ⟨hfc, (win_check_iff _ hinv1).2 hwon⟩
    · unfold mine_sweeper_game_screen_view_end_input_callback at hrun
      have hmove : ∀ key, phase_inv
          { callbacks := inst.callbacks, model := move_cursor key inst.model } := by
        intro key
        obtain ⟨eb, ew, eh⟩ := move_cursor_board key inst.model
        refine ⟨by show 16 ≤ (move_cursor key inst.model).board_width; rw [ew]; exact hph.width_ge,
          by show (move_cursor key inst.model).board_width ≤ 146; rw [ew]; exact hph.width_le,
          by show 7 ≤ (move_cursor key inst.model).board_height; rw [eh]; exact hph.height_ge,
          by show (move_cursor key inst.model).board_height ≤ 64; rw [eh]; exact hph.height_le,
          fun hwon => ?_⟩
        apply hph.won_only
        unfold won_board at hwon ⊢
        simp only [eb, ew, eh] at hwon
        exact hwon
      split_ifs at hrun with c1
      · split at hrun
        · obtain rfl := Option.some.inj hrun; exact hmove _
        · obtain rfl := Option.some.inj hrun; exact hmove _
        · obtain rfl := Option.some.inj hrun; exact hmove _
        · obtain rfl := Option.some.inj hrun; exact hmove _
        · obtain ⟨ew, eh⟩ := setup_board_dims a.2 _ inst1 hrun
          simp only at ew eh
          refine ⟨by rw [ew]; exact hph.width_ge, by rw [ew]; exact hph.width_le,
            by rw [eh]; exact hph.height_ge, by rw [eh]; exact hph.height_le, fun hwon => ?_⟩
          exact absurd hwon (fresh_not_won a.2
            { callbacks := ViewCallbacks.play, model := inst.model } inst1
            hph.width_ge hph.width_le hph.height_ge hph.height_le hrun)
      · obtain rfl := Option.some.inj hrun
        exact hph
  · rename_i w h d ha
    unfold mine_sweeper_game_screen_reset at hrun
    obtain ⟨d1, d2, d3, d4, _⟩ := set_board_information_dims w h d inst
    obtain ⟨ew, eh⟩ := setup_board_dims a.2 _ inst1 hrun
    refine ⟨by rw [ew]; exact d1, by rw [ew]; exact d2, by rw [eh]; exact d3,
      by rw [eh]; exact d4, fun hwon => ?_⟩
    exact absurd hwon (fresh_not_won a.2 _ inst1 d1 d2 d3 d4 hrun)

theorem run_actions_phase_inv (actions : List (Action × List Nat)) :
    ∀ (inst inst1 : MineSweeperGameScreen), model_inv inst.model → phase_inv inst →
      run_actions actions inst = some inst1 → phase_inv inst1 := by
  induction actions with
  | nil =>
    intro inst inst1 _ hph hrun
    simp only [run_actions, Option.some.injEq] at hrun
    exact hrun ▸ hph
  | cons a rest ih =>
    intro inst inst1 hinv hph hrun
    simp only [run_actions] at hrun
    split at hrun
    · exact absurd hrun (by simp)
    · rename_i inst2 h2
      exact ih inst2 inst1 (apply_action_inv a inst inst2 hinv h2)
        (apply_action_phase_inv a inst inst2 hinv hph h2) hrun

theorem session_phase_inv (width height difficulty : Nat) (draws : List Nat)
    (model0 : MineSweeperGameScreenModel) (actions : List (Action × List Nat))
    (inst : MineSweeperGameScreen)
    (hrun : session width height difficulty draws model0 actions = some inst) :
    phase_inv inst := by
  unfold session at hrun
  split at hrun
  · exact absurd hrun (by simp)
  · rename_i inst0 h0
    refine run_actions_phase_inv actions inst0 inst (alloc_inv _ _ _ _ _ inst0 h0) ?_ hrun
    unfold mine_sweeper_game_screen_alloc at h0
    obtain ⟨d1, d2, d3, d4, _⟩ := set_board_information_dims width height difficulty
      { callbacks := ViewCallbacks.play, model := model0 }
    obtain ⟨ew, eh⟩ := setup_board_dims draws _ inst0 h0
    refine ⟨by rw [ew]; exact d1, by rw [ew]; exact d2, by rw [eh]; exact d3,
      by rw [eh]; exact d4, fun hwon => ?_⟩
    exact absurd hwon (fresh_not_won draws _ inst0 d1 d2 d3 d4 h0)
theorem demo_before_win_run :
    session 16 7 0 demo_draws zero_model demo_flag_fifteen = some demo_before_win :=
  option_eq_some_getD _ _ (by decide!)

theorem demo_won_step :
    apply_action (demo_input InputKey.Back InputType.Long) demo_before_win = some demo_won :=
  option_eq_some_getD _ _ (by decide!)

/-- The win callbacks become installed exactly by an input that reaches the flag branch with
the play callbacks installed and leaves a won board. -/
theorem becomes_won_iff (a : Action × List Nat) (inst inst1 : MineSweeperGameScreen)
    (hinv : model_inv inst.model) (hstep : apply_action a inst = some inst1) :
    (inst.callbacks ≠ ViewCallbacks.win ∧ inst1.callbacks = ViewCallbacks.win) ↔
      (inst.callbacks = ViewCallbacks.play ∧
        (∃ event, a.1 = Action.input event ∧ flag_check_made event inst.model) ∧
        won_board inst1.model) := by
  have hinv1 := apply_action_inv a inst inst1 hinv hstep
  have hcheck := win_check_iff inst1.model hinv1
  unfold apply_action at hstep
  split at hstep
  · rename_i event ha
    unfold view_input at hstep
    split at hstep
    · rename_i hplay
      obtain ⟨hw, _⟩ := play_input_callbacks event inst inst1 hplay hstep
      rw [hw, hcheck]
      constructor
      · rintro ⟨_, hf, hwb⟩
        exact ⟨hplay, ⟨event, ha, hf⟩, hwb⟩
      · rintro ⟨_, ⟨event1, ha1, hf⟩, hwb⟩
        rw [ha] at ha1
        obtain rfl := Action.input.inj ha1
        exact ⟨by rw [hplay]; decide, hf, hwb⟩
    · rename_i hnp
      have hcb := end_input_callbacks event a.2 inst inst1 hstep
      constructor
      · rintro ⟨h1, h2⟩
        rcases hcb with h | h
        · exact absurd (h ▸ h2) h1
        · rw [h] at h2; exact absurd h2 (by decide)
      · rintro ⟨h1, _⟩
        exact absurd h1 (hnp · )
  · rename_i w h d ha
    have hcb := reset_callbacks w h d a.2 inst inst1 hstep
    constructor
    · rintro ⟨h1, h2⟩
      exact absurd (hcb ▸ h2) h1
    · rintro ⟨_, ⟨event, ha1, _⟩, _⟩
      rw [ha] at ha1
      exact absurd ha1 (by simp)

/-- C3: for a state `inst` of a session and an action that takes it to `inst1`, the win
callbacks become installed if and only if afterwards every Mine tile is Flagged and no other
tile is; this only happens with the play callbacks installed, by an input event that reaches
the flag branch; and the win check `flags_left == 0 && mines_left == 0` is true in `inst1`
exactly in those board states. -/
theorem won_iff_all_mines_flagged (width height difficulty : Nat) (draws : List Nat)
    (model0 : MineSweeperGameScreenModel) (actions : List (Action × List Nat))
    (inst inst1 : MineSweeperGameScreen) (a : Action × List Nat)
    (hrun : session width height difficulty draws model0 actions = some inst)
    (hstep : apply_action a inst = some inst1) :
    ((inst.callbacks ≠ ViewCallbacks.win ∧ inst1.callbacks = ViewCallbacks.win) ↔
      (inst.callbacks ≠ ViewCallbacks.win ∧ won_board inst1.model)) ∧
    ((inst.callbacks ≠ ViewCallbacks.win ∧ inst1.callbacks = ViewCallbacks.win) →
      (inst.callbacks = ViewCallbacks.play ∧
        ∃ event, a.1 = Action.input event ∧ flag_check_made event inst.model)) ∧
    ((inst1.model.flags_left = 0 ∧ inst1.model.mines_left = 0) ↔ won_board inst1.model) := by
  have hinv := session_inv width height difficulty draws model0 actions inst hrun
  have hph := session_phase_inv width height difficulty draws model0 actions inst hrun
  have hinv1 := apply_action_inv a inst inst1 hinv hstep
  have hph1 := apply_action_phase_inv a inst inst1 hinv hph hstep
  have hiff := becomes_won_iff a inst inst1 hinv hstep
  refine ⟨⟨fun h => ⟨h.1, (hiff.1 h).2.2⟩, fun h => ⟨h.1, hph1.won_only h.2⟩⟩,
    fun h => ⟨(hiff.1 h).1, (hiff.1 h).2.1⟩, win_check_iff inst1.model hinv1⟩

theorem won_iff_all_mines_flagged_witness :
    session 16 7 0 demo_draws zero_model demo_flag_fifteen = some demo_before_win ∧
    apply_action (demo_input InputKey.Back InputType.Long) demo_before_win = some demo_won ∧
    demo_won.callbacks = ViewCallbacks.win ∧
    (((demo_before_win.callbacks ≠ ViewCallbacks.win ∧
        demo_won.callbacks = ViewCallbacks.win) ↔
      (demo_before_win.callbacks ≠ ViewCallbacks.win ∧ won_board demo_won.model)) ∧
    ((demo_before_win.callbacks ≠ ViewCallbacks.win ∧
        demo_won.callbacks = ViewCallbacks.win) →
      (demo_before_win.callbacks = ViewCallbacks.play ∧
        ∃ event, (demo_input InputKey.Back InputType.Long).1 = Action.input event ∧
          flag_check_made event demo_before_win.model)) ∧
    ((demo_won.model.flags_left = 0 ∧ demo_won.model.mines_left = 0) ↔
      won_board demo_won.model)) :=
  ⟨demo_before_win_run, demo_won_step, by decide!,
    won_iff_all_mines_flagged 16 7 0 demo_draws zero_model demo_flag_fifteen demo_before_win
      demo_won (demo_input InputKey.Back InputType.Long) demo_before_win_run demo_won_step⟩

/-- C4: an action installs the lose callbacks on a game screen that did not have them if and
only if the play callbacks are installed and the action is an Ok press while the tile under the
cursor is Uncleared and of type Mine; no other input, no reset and no flood fill does. -/
theorem lost_iff_reveals_mine (inst : MineSweeperGameScreen) (a : Action × List Nat) :
    (inst.callbacks ≠ ViewCallbacks.lose ∧
      ∃ inst1, apply_action a inst = some inst1 ∧ inst1.callbacks = ViewCallbacks.lose) ↔
    (inst.callbacks = ViewCallbacks.play ∧
      ∃ event, a.1 = Action.input event ∧ reveals_mine event inst.model) := by
  constructor
  · rintro ⟨hne, inst1, hstep, hlose⟩
    unfold apply_action at hstep
    split at hstep
    · rename_i event ha
      unfold view_input at hstep
      split at hstep
      · rename_i hplay
        obtain ⟨_, hl⟩ := play_input_callbacks event inst inst1 hplay hstep
        exact ⟨hplay, event, ha, hl.1 hlose⟩
      · rename_i hnp
        rcases end_input_callbacks event a.2 inst inst1 hstep with h | h
        · exact absurd (h ▸ hlose) hne
        · rw [h] at hlose; exact absurd hlose (by decide)
    · rename_i w h d ha
      have hcb := reset_callbacks w h d a.2 inst inst1 hstep
      exact absurd (hcb ▸ hlose) hne
  · rintro ⟨hplay, event, ha, hk, ht, hs, hm⟩
    refine ⟨by rw [hplay]; decide, ?_⟩
    unfold apply_action
    rw [ha]
    simp only
    unfold view_input
    rw [hplay]
    simp only
    unfold mine_sweeper_game_screen_view_play_input_callback
    simp only [hk, ht, hs, hm, and_self, if_true]
    exact ⟨_, rfl, rfl⟩
/-! ## Board information, resets and input in a terminal phase -/

/-- C14: `mine_sweeper_game_screen_set_board_information` stores the width clamped to
[16,146], the height clamped to [7,64] and the difficulty clamped to [0,4]: each stored value
is `min (max v lo) hi`, lies in its range, and equals the input when that is in range. It
changes nothing else. -/
theorem set_board_information_clamps (width height difficulty : Nat)
    (inst : MineSweeperGameScreen) :
    (mine_sweeper_game_screen_set_board_information width height difficulty
      inst).model.board_width = min (max width 16) 146 ∧
    (mine_sweeper_game_screen_set_board_information width height difficulty
      inst).model.board_height = min (max height 7) 64 ∧
    (mine_sweeper_game_screen_set_board_information width height difficulty
      inst).model.board_difficulty = min difficulty 4 ∧
    (16 ≤ min (max width 16) 146 ∧ min (max width 16) 146 ≤ 146) ∧
    (7 ≤ min (max height 7) 64 ∧ min (max height 7) 64 ≤ 64) ∧
    min difficulty 4 ≤ 4 ∧
    (16 ≤ width ∧ width ≤ 146 → min (max width 16) 146 = width) ∧
    (7 ≤ height ∧ height ≤ 64 → min (max height 7) 64 = height) ∧
    (difficulty ≤ 4 → min difficulty 4 = difficulty) ∧
    (width < 16 → min (max width 16) 146 = 16) ∧ (146 < width → min (max width 16) 146 = 146) ∧
    (height < 7 → min (max height 7) 64 = 7) ∧ (64 < height → min (max height 7) 64 = 64) ∧
    (4 < difficulty → min difficulty 4 = 4) ∧
    (mine_sweeper_game_screen_set_board_information width height difficulty
      inst).callbacks = inst.callbacks ∧
    (mine_sweeper_game_screen_set_board_information width height difficulty
      inst).model.board = inst.model.board ∧
    (mine_sweeper_game_screen_set_board_information width height difficulty
      inst).model.curr_pos = inst.model.curr_pos ∧
    (mine_sweeper_game_screen_set_board_information width height difficulty
      inst).model.mines_left = inst.model.mines_left ∧
    (mine_sweeper_game_screen_set_board_information width height difficulty
      inst).model.flags_left = inst.model.flags_left := by
  refine ⟨?_, ?_, ?_, by omega, by omega, by omega, by omega, by omega, by omega, by omega,
    by omega, by omega, by omega, by omega, rfl, rfl, rfl, rfl, rfl⟩
  · unfold mine_sweeper_game_screen_set_board_information
    simp only
    split_ifs <;> omega
  · unfold mine_sweeper_game_screen_set_board_information
    simp only
    split_ifs <;> omega
  · unfold mine_sweeper_game_screen_set_board_information
    simp only
    split_ifs <;> omega

/-- The cursor after the `switch (event->key)` of either input callback: one clamped step in
the direction of the key, the other coordinate and everything else unchanged. -/
theorem move_cursor_step (key : InputKey) (model : MineSweeperGameScreenModel)
    (hc : in_bounds model.board_width model.board_height
      { x := model.curr_pos.x_abs, y := model.curr_pos.y_abs }) :
    (move_cursor key model).board = model.board ∧
    (move_cursor key model).mines_left = model.mines_left ∧
    (move_cursor key model).flags_left = model.flags_left ∧
    (move_cursor key model).board_width = model.board_width ∧
    (move_cursor key model).board_height = model.board_height ∧
    (key = InputKey.Up →
      (move_cursor key model).curr_pos.y_abs = model.curr_pos.y_abs ∧
      (move_cursor key model).curr_pos.x_abs =
        (if model.curr_pos.x_abs = 0 then 0 else model.curr_pos.x_abs - 1)) ∧
    (key = InputKey.Down →
      (move_cursor key model).curr_pos.y_abs = model.curr_pos.y_abs ∧
      (move_cursor key model).curr_pos.x_abs =
        (if model.curr_pos.x_abs = (model.board_height : Int) - 1 then model.curr_pos.x_abs
          else model.curr_pos.x_abs + 1)) ∧
    (key = InputKey.Left →
      (move_cursor key model).curr_pos.x_abs = model.curr_pos.x_abs ∧
      (move_cursor key model).curr_pos.y_abs =
        (if model.curr_pos.y_abs = 0 then 0 else model.curr_pos.y_abs - 1)) ∧
    (key = InputKey.Right →
      (move_cursor key model).curr_pos.x_abs = model.curr_pos.x_abs ∧
      (move_cursor key model).curr_pos.y_abs =
        (if model.curr_pos.y_abs = (model.board_width : Int) - 1 then model.curr_pos.y_abs
          else model.curr_pos.y_abs + 1)) ∧
    in_bounds model.board_width model.board_height
      { x := (move_cursor key model).curr_pos.x_abs,
        y := (move_cursor key model).curr_pos.y_abs } := by
  unfold in_bounds at hc ⊢
  simp only at hc
  cases key <;>
    refine ⟨rfl, rfl, rfl, rfl, rfl, ?_, ?_, ?_, ?_, ?_⟩ <;>
    first
    | (intro h; exact absurd h (by decide))
    | (intro _; refine ⟨rfl, ?_⟩; unfold move_cursor; simp only; split_ifs <;> omega)
    | (unfold move_cursor; simp only; split_ifs <;> omega)
    | (unfold move_cursor; simp only; omega)
/-- C11, evaluated: a reset of the won game screen `demo_won` generates a fresh board (cursor
(0,0), both counters 16, no tile Flagged) but leaves the win callbacks installed, whereas the
allocation with the same arguments installs the play callbacks. -/
theorem reset_after_win_keeps_win_callbacks :
    demo_won.callbacks = ViewCallbacks.win ∧
    (mine_sweeper_game_screen_reset 16 7 0 demo_draws demo_won).map
      (fun s => (s.callbacks, s.model.curr_pos, s.model.mines_left, s.model.flags_left,
        flagged_count s.model)) =
      some (ViewCallbacks.win, { x_abs := 0, y_abs := 0 }, 16, 16, 0) ∧
    (mine_sweeper_game_screen_alloc 16 7 0 demo_draws zero_model).map (fun s => s.callbacks) =
      some ViewCallbacks.play := by
  decide!

/-- A press or repeat of a direction key is handled alike by both input callbacks: the cursor
makes its step and nothing else changes. -/
theorem view_input_direction (event : InputEvent) (draws : List Nat)
    (inst : MineSweeperGameScreen) (hdir : is_direction event.key)
    (htype : event.type = InputType.Press ∨ event.type = InputType.Repeat) :
    view_input event draws inst =
      some { callbacks := inst.callbacks, model := move_cursor event.key inst.model } := by
  unfold view_input
  cases hcb : inst.callbacks <;> simp only
  · unfold mine_sweeper_game_screen_view_play_input_callback
    simp only
    have h1 : ¬ event.key = InputKey.Ok := by
      rcases hdir with h | h | h | h <;> rw [h] <;> decide
    have h2 : ¬ event.key = InputKey.Back := by
      rcases hdir with h | h | h | h <;> rw [h] <;> decide
    rw [if_neg h1, if_neg (fun h => h2 h.1), if_neg (fun h => h2 h.1), if_pos htype, hcb]
  · unfold mine_sweeper_game_screen_view_end_input_callback
    rw [if_pos htype]
    rcases hdir with h | h | h | h <;> rw [h] <;> simp only [hcb]
  · unfold mine_sweeper_game_screen_view_end_input_callback
    rw [if_pos htype]
    rcases hdir with h | h | h | h <;> rw [h] <;> simp only [hcb]

/-- C12, as stated, fails: with the win callbacks installed, an Up press moves the cursor from
(5,1) to (4,1). -/
theorem end_input_moves_cursor :
    demo_won.callbacks = ViewCallbacks.win ∧
    demo_won.model.curr_pos = { x_abs := 5, y_abs := 1 } ∧
    (view_input { key := InputKey.Up, type := InputType.Press } [] demo_won).map
      (fun s => s.model.curr_pos) = some { x_abs := 4, y_abs := 1 } ∧
    ¬ ((view_input { key := InputKey.Up, type := InputType.Press } [] demo_won).map
      (fun s => s.model.curr_pos) = some demo_won.model.curr_pos) := by
  decide!

/-- C12, amended: with the win or the lose callbacks installed, a press or repeat of a
direction key leaves the callbacks, the board, the board size and both counters unchanged and
moves the cursor by the clamped step of `move_cursor`, which keeps it on the board; an event
that is neither a press nor a repeat changes nothing at all. -/
theorem terminal_phase_input (event : InputEvent) (draws : List Nat)
    (inst : MineSweeperGameScreen)
    (hterm : inst.callbacks = ViewCallbacks.win ∨ inst.callbacks = ViewCallbacks.lose)
    (hc : in_bounds inst.model.board_width inst.model.board_height
      { x := inst.model.curr_pos.x_abs, y := inst.model.curr_pos.y_abs }) :
    ((is_direction event.key ∧
        (event.type = InputType.Press ∨ event.type = InputType.Repeat)) →
      ∃ inst1, view_input event draws inst = some inst1 ∧
        inst1.callbacks = inst.callbacks ∧
        inst1.model.board = inst.model.board ∧
        inst1.model.board_width = inst.model.board_width ∧
        inst1.model.board_height = inst.model.board_height ∧
        inst1.model.mines_left = inst.model.mines_left ∧
        inst1.model.flags_left = inst.model.flags_left ∧
        inst1.model.curr_pos = (move_cursor event.key inst.model).curr_pos ∧
        in_bounds inst.model.board_width inst.model.board_height
          { x := inst1.model.curr_pos.x_abs, y := inst1.model.curr_pos.y_abs }) ∧
    (¬ (event.type = InputType.Press ∨ event.type = InputType.Repeat) →
      view_input event draws inst = some inst) := by
  constructor
  · rintro ⟨hdir, htype⟩
    obtain ⟨m1, m2, m3, m4, m5, _, _, _, _, m10⟩ := move_cursor_step event.key inst.model hc
    exact ⟨_, view_input_direction event draws inst hdir htype, rfl, m1, m4, m5, m2, m3, rfl, m10⟩
  · intro hnt
    unfold view_input
    rcases hterm with h | h <;> rw [h] <;> simp only <;>
      unfold mine_sweeper_game_screen_view_end_input_callback <;> rw [if_neg hnt]

theorem demo_won_moved_step :
    view_input { key := InputKey.Up, type := InputType.Press } [] demo_won =
      some demo_won_moved :=
  option_eq_some_getD _ _ (by decide!)

theorem terminal_phase_input_witness :
    (demo_won.callbacks = ViewCallbacks.win ∨ demo_won.callbacks = ViewCallbacks.lose) ∧
    in_bounds demo_won.model.board_width demo_won.model.board_height
      { x := demo_won.model.curr_pos.x_abs, y := demo_won.model.curr_pos.y_abs } ∧
    is_direction InputKey.Up ∧
    demo_won_moved.model.curr_pos = { x_abs := 4, y_abs := 1 } ∧
    (∃ inst1, view_input { key := InputKey.Up, type := InputType.Press } [] demo_won =
        some inst1 ∧
      inst1.callbacks = demo_won.callbacks ∧
      inst1.model.board = demo_won.model.board ∧
      inst1.model.board_width = demo_won.model.board_width ∧
      inst1.model.board_height = demo_won.model.board_height ∧
      inst1.model.mines_left = demo_won.model.mines_left ∧
      inst1.model.flags_left = demo_won.model.flags_left ∧
      inst1.model.curr_pos = (move_cursor InputKey.Up demo_won.model).curr_pos ∧
      in_bounds demo_won.model.board_width demo_won.model.board_height
        { x := inst1.model.curr_pos.x_abs, y := inst1.model.curr_pos.y_abs }) :=
  ⟨by decide!, by decide!, by decide, by decide!,
    (terminal_phase_input { key := InputKey.Up, type := InputType.Press } [] demo_won
      (by decide!) (by decide!)).1 ⟨by decide, by decide⟩⟩
/-- C13: in every state of a session, a press or repeat of a direction key is handled, keeps the
cursor within the board, changes exactly one coordinate by one unless the cursor already stands
on the edge it moves toward (then it stays), and changes neither the installed callbacks, nor
any tile, nor a counter. -/
theorem cursor_move_in_bounds (width height difficulty : Nat) (draws : List Nat)
    (model0 : MineSweeperGameScreenModel) (actions : List (Action × List Nat))
    (inst : MineSweeperGameScreen) (event : InputEvent) (draws1 : List Nat)
    (hrun : session width height difficulty draws model0 actions = some inst)
    (hdir : is_direction event.key)
    (htype : event.type = InputType.Press ∨ event.type = InputType.Repeat) :
    ∃ inst1, view_input event draws1 inst = some inst1 ∧
      in_bounds inst1.model.board_width inst1.model.board_height
        { x := inst1.model.curr_pos.x_abs, y := inst1.model.curr_pos.y_abs } ∧
      inst1.callbacks = inst.callbacks ∧
      inst1.model.board = inst.model.board ∧
      inst1.model.board_width = inst.model.board_width ∧
      inst1.model.board_height = inst.model.board_height ∧
      inst1.model.mines_left = inst.model.mines_left ∧
      inst1.model.flags_left = inst.model.flags_left ∧
      (event.key = InputKey.Up →
        inst1.model.curr_pos.y_abs = inst.model.curr_pos.y_abs ∧
        inst1.model.curr_pos.x_abs =
          (if inst.model.curr_pos.x_abs = 0 then 0 else inst.model.curr_pos.x_abs - 1)) ∧
      (event.key = InputKey.Down →
        inst1.model.curr_pos.y_abs = inst.model.curr_pos.y_abs ∧
        inst1.model.curr_pos.x_abs =
          (if inst.model.curr_pos.x_abs = (inst.model.board_height : Int) - 1
            then inst.model.curr_pos.x_abs else inst.model.curr_pos.x_abs + 1)) ∧
      (event.key = InputKey.Left →
        inst1.model.curr_pos.x_abs = inst.model.curr_pos.x_abs ∧
        inst1.model.curr_pos.y_abs =
          (if inst.model.curr_pos.y_abs = 0 then 0 else inst.model.curr_pos.y_abs - 1)) ∧
      (event.key = InputKey.Right →
        inst1.model.curr_pos.x_abs = inst.model.curr_pos.x_abs ∧
        inst1.model.curr_pos.y_abs =
          (if inst.model.curr_pos.y_abs = (inst.model.board_width : Int) - 1
            then inst.model.curr_pos.y_abs else inst.model.curr_pos.y_abs + 1)) := by
  have hinv := session_inv width height difficulty draws model0 actions inst hrun
  obtain ⟨m1, m2, m3, m4, m5, m6, m7, m8, m9, m10⟩ :=
    move_cursor_step event.key inst.model hinv.cursor
  refine ⟨_, view_input_direction event draws1 inst hdir htype, ?_, rfl, m1, m4, m5, m2, m3,
    m6, m7, m8, m9⟩
  show in_bounds (move_cursor event.key inst.model).board_width
    (move_cursor event.key inst.model).board_height _
  rw [m4, m5]
  exact m10

theorem cursor_move_in_bounds_witness :
    session 16 7 0 demo_draws zero_model demo_flag_fifteen = some demo_before_win ∧
    is_direction InputKey.Left ∧
    demo_before_win.model.curr_pos = { x_abs := 5, y_abs := 1 } ∧
    ∃ inst1, view_input { key := InputKey.Left, type := InputType.Repeat } [] demo_before_win =
        some inst1 ∧
      in_bounds inst1.model.board_width inst1.model.board_height
        { x := inst1.model.curr_pos.x_abs, y := inst1.model.curr_pos.y_abs } ∧
      inst1.callbacks = demo_before_win.callbacks ∧
      inst1.model.board = demo_before_win.model.board ∧
      inst1.model.board_width = demo_before_win.model.board_width ∧
      inst1.model.board_height = demo_before_win.model.board_height ∧
      inst1.model.mines_left = demo_before_win.model.mines_left ∧
      inst1.model.flags_left = demo_before_win.model.flags_left ∧
      (InputKey.Left = InputKey.Up →
        inst1.model.curr_pos.y_abs = demo_before_win.model.curr_pos.y_abs ∧
        inst1.model.curr_pos.x_abs =
          (if demo_before_win.model.curr_pos.x_abs = 0 then 0
            else demo_before_win.model.curr_pos.x_abs - 1)) ∧
      (InputKey.Left = InputKey.Down →
        inst1.model.curr_pos.y_abs = demo_before_win.model.curr_pos.y_abs ∧
        inst1.model.curr_pos.x_abs =
          (if demo_before_win.model.curr_pos.x_abs =
              (demo_before_win.model.board_height : Int) - 1
            then demo_before_win.model.curr_pos.x_abs
            else demo_before_win.model.curr_pos.x_abs + 1)) ∧
      (InputKey.Left = InputKey.Left →
        inst1.model.curr_pos.x_abs = demo_before_win.model.curr_pos.x_abs ∧
        inst1.model.curr_pos.y_abs =
          (if demo_before_win.model.curr_pos.y_abs = 0 then 0
            else demo_before_win.model.curr_pos.y_abs - 1)) ∧
      (InputKey.Left = InputKey.Right →
        inst1.model.curr_pos.x_abs = demo_before_win.model.curr_pos.x_abs ∧
        inst1.model.curr_pos.y_abs =
          (if demo_before_win.model.curr_pos.y_abs =
              (demo_before_win.model.board_width : Int) - 1
            then demo_before_win.model.curr_pos.y_abs
            else demo_before_win.model.curr_pos.y_abs + 1)) :=
  ⟨demo_before_win_run, by decide, by decide!,
    cursor_move_in_bounds 16 7 0 demo_draws zero_model demo_flag_fifteen demo_before_win
      { key := InputKey.Left, type := InputType.Repeat } [] demo_before_win_run (by decide)
      (by decide)⟩

/-- C15, as stated, fails: with the win callbacks installed and the cursor on a Flagged tile,
an Ok press generates a new board, moves the cursor to (0,0), sets both counters to 16 and
installs the play callbacks; and after an Ok press has revealed the mine at (4,6), a second
Ok press on that tile, now Cleared, generates a new board as well. -/
theorem reveal_in_terminal_phase_restarts :
    demo_won.callbacks = ViewCallbacks.win ∧
    demo_won.model.curr_pos = { x_abs := 5, y_abs := 1 } ∧
    demo_won.model.flags_left = 0 ∧ demo_won.model.mines_left = 0 ∧
    (demo_won.model.board (pos_1d demo_won.model.board_width demo_won.model.curr_pos.x_abs
      demo_won.model.curr_pos.y_abs)).tile_state = MineSweeperGameScreenTileState.Flagged ∧
    (view_input { key := InputKey.Ok, type := InputType.Press } demo_draws demo_won).map
      (fun s => (s.callbacks, s.model.curr_pos, s.model.flags_left, s.model.mines_left,
        flagged_count s.model)) =
      some (ViewCallbacks.play, { x_abs := 0, y_abs := 0 }, 16, 16, 0) ∧
    (session 16 7 0 demo_draws zero_model
        (demo_flag_mine.take 10 ++ [demo_input InputKey.Ok InputType.Press])).map
      (fun s => (s.callbacks, s.model.curr_pos,
        (s.model.board (pos_1d s.model.board_width s.model.curr_pos.x_abs
          s.model.curr_pos.y_abs)).tile_state)) =
      some (ViewCallbacks.lose, { x_abs := 4, y_abs := 6 },
        MineSweeperGameScreenTileState.Cleared) ∧
    (session 16 7 0 demo_draws zero_model
        (demo_flag_mine.take 10 ++ [demo_input InputKey.Ok InputType.Press,
          (Action.input { key := InputKey.Ok, type := InputType.Press }, demo_draws)])).map
      (fun s => (s.callbacks, s.model.curr_pos,
        (s.model.board (pos_1d s.model.board_width 4 6)).tile_state)) =
      some (ViewCallbacks.play, { x_abs := 0, y_abs := 0 },
        MineSweeperGameScreenTileState.Uncleared) := by
  decide!

/-- C15, amended: with the play callbacks installed, on a board of `uint8_t` size with the
cursor on it, an Ok press while the tile under the cursor is Flagged or Cleared returns the
game screen unchanged; and when an Ok press has taken `inst` to `inst1` and the play callbacks
are still installed, a second Ok press returns `inst1` unchanged. -/
theorem reveal_noop (inst inst1 : MineSweeperGameScreen) (draws draws1 : List Nat)
    (hplay : inst.callbacks = ViewCallbacks.play)
    (hw : inst.model.board_width < 256) (hh : inst.model.board_height < 256)
    (hc : in_bounds inst.model.board_width inst.model.board_height
      { x := inst.model.curr_pos.x_abs, y := inst.model.curr_pos.y_abs }) :
    ((inst.model.board (pos_1d inst.model.board_width inst.model.curr_pos.x_abs
        inst.model.curr_pos.y_abs)).tile_state ≠ MineSweeperGameScreenTileState.Uncleared →
      view_input { key := InputKey.Ok, type := InputType.Press } draws inst = some inst) ∧
    (view_input { key := InputKey.Ok, type := InputType.Press } draws inst = some inst1 →
      inst1.callbacks = ViewCallbacks.play →
      view_input { key := InputKey.Ok, type := InputType.Press } draws1 inst1 = some inst1) := by
  have hnoop : ∀ (s : MineSweeperGameScreen) (ds : List Nat),
      s.callbacks = ViewCallbacks.play →
      (s.model.board (pos_1d s.model.board_width s.model.curr_pos.x_abs
        s.model.curr_pos.y_abs)).tile_state ≠ MineSweeperGameScreenTileState.Uncleared →
      view_input { key := InputKey.Ok, type := InputType.Press } ds s = some s := by
    intro s ds hp hst
    unfold view_input
    rw [hp]
    simp only
    unfold mine_sweeper_game_screen_view_play_input_callback
    simp only [if_true, hst, false_and, if_false]
  refine ⟨hnoop inst draws hplay, fun hfirst hplay1 => ?_⟩
  apply hnoop inst1 draws1 hplay1
  unfold view_input at hfirst
  rw [hplay] at hfirst
  simp only at hfirst
  unfold mine_sweeper_game_screen_view_play_input_callback at hfirst
  simp only [if_true] at hfirst
  split_ifs at hfirst with c3 c4
  · obtain rfl := Option.some.inj hfirst
    simp at hplay1
  · split at hfirst
    · exact absurd hfirst (by simp)
    · rename_i model1 hbfs
      obtain rfl := Option.some.inj hfirst
      obtain ⟨m1, set1, hrun1, hci⟩ := bfs_tile_clear_post
        { inst.model with
          board := upd inst.model.board
            (pos_1d inst.model.board_width inst.model.curr_pos.x_abs inst.model.curr_pos.y_abs)
            { inst.model.board (pos_1d inst.model.board_width inst.model.curr_pos.x_abs
                inst.model.curr_pos.y_abs) with
              tile_state := MineSweeperGameScreenTileState.Cleared } } hw hh hc
      rw [hbfs] at hrun1
      obtain rfl := Option.some.inj hrun1
      obtain ⟨s1, s2, _⟩ := hci.same
      have hstart : ({ x := inst.model.curr_pos.x_abs, y := inst.model.curr_pos.y_abs } : Point)
          ∈ set1 := by
        rcases hci.start_seen with h | h
        · exact h
        · exact absurd h (List.not_mem_nil _)
      have hcl := hci.cleared _ hstart
      simp only at hcl s1 s2 ⊢
      rw [s1, s2, hcl]
      simp
  · obtain rfl := Option.some.inj hfirst
    exact c4
theorem demo_before_reveal_run :
    session 16 7 0 demo_draws zero_model (demo_actions.take 4) = some demo_before_reveal :=
  option_eq_some_getD _ _ (by decide!)

theorem demo_revealed_step :
    view_input { key := InputKey.Ok, type := InputType.Press } [] demo_before_reveal =
      some demo_revealed :=
  option_eq_some_getD _ _ (by decide!)

theorem reveal_noop_witness :
    demo_before_reveal.callbacks = ViewCallbacks.play ∧
    demo_before_reveal.model.board_width < 256 ∧
    demo_before_reveal.model.board_height < 256 ∧
    in_bounds demo_before_reveal.model.board_width demo_before_reveal.model.board_height
      { x := demo_before_reveal.model.curr_pos.x_abs,
        y := demo_before_reveal.model.curr_pos.y_abs } ∧
    view_input { key := InputKey.Ok, type := InputType.Press } [] demo_before_reveal =
      some demo_revealed ∧
    demo_revealed.callbacks = ViewCallbacks.play ∧
    view_input { key := InputKey.Ok, type := InputType.Press } [] demo_revealed =
      some demo_revealed :=
  ⟨by decide!, by decide!, by decide!, by decide!, demo_revealed_step, by decide!,
    (reveal_noop demo_before_reveal demo_revealed [] [] (by decide!) (by decide!) (by decide!)
      (by decide!)).2 demo_revealed_step (by decide!)⟩

/-! ## The flag branch -/

/-- An event that reaches the flag branch is handled by writing `toggle_flag` to the model; the
play callbacks stay installed or the win callbacks replace them. -/
theorem flag_branch_result (event : InputEvent) (draws : List Nat)
    (inst : MineSweeperGameScreen) (hplay : inst.callbacks = ViewCallbacks.play)
    (hflag : flag_check_made event inst.model) :
    ∃ inst1, view_input event draws inst = some inst1 ∧
      inst1.model = toggle_flag inst.model
        (pos_1d inst.model.board_width inst.model.curr_pos.x_abs inst.model.curr_pos.y_abs) ∧
      (inst1.callbacks = ViewCallbacks.win ∨ inst1.callbacks = ViewCallbacks.play) := by
  obtain ⟨hk, ht, hst, hhold⟩ := hflag
  unfold view_input
  rw [hplay]
  simp only
  unfold mine_sweeper_game_screen_view_play_input_callback
  simp only
  have h1 : ¬ event.key = InputKey.Ok := by rw [hk]; decide
  have h2 : ¬ (event.key = InputKey.Back ∧ event.type = InputType.Release) := by
    rintro ⟨_, h⟩
    rcases ht with h3 | h3 <;> rw [h3] at h <;> exact absurd h (by decide)
  have h4 : ¬ inst.model.is_holding_down_button = true ∧
      ((inst.model.board (pos_1d inst.model.board_width inst.model.curr_pos.x_abs
          inst.model.curr_pos.y_abs)).tile_state = MineSweeperGameScreenTileState.Uncleared ∨
        (inst.model.board (pos_1d inst.model.board_width inst.model.curr_pos.x_abs
          inst.model.curr_pos.y_abs)).tile_state = MineSweeperGameScreenTileState.Flagged) := by
    refine ⟨by simp [hhold], ?_⟩
    cases hs : (inst.model.board (pos_1d inst.model.board_width inst.model.curr_pos.x_abs
      inst.model.curr_pos.y_abs)).tile_state
    · right; rfl
    · left; rfl
    · exact absurd hs hst
  rw [if_neg h1, if_neg h2, if_pos ⟨hk, ht⟩, if_neg hst, if_pos h4]
  split_ifs
  · exact ⟨_, rfl, rfl, Or.inl rfl⟩
  · exact ⟨_, rfl, rfl, Or.inr hplay⟩

/-- What `toggle_flag` does at the cursor in a state that satisfies the session invariant: the
counters move by exactly one, without wrapping. -/
theorem toggle_flag_exact (model : MineSweeperGameScreenModel) (hinv : model_inv model) :
    (toggle_flag model (pos_1d model.board_width model.curr_pos.x_abs
      model.curr_pos.y_abs)).curr_pos = model.curr_pos ∧
    (∀ j, j ≠ pos_1d model.board_width model.curr_pos.x_abs model.curr_pos.y_abs →
      (toggle_flag model (pos_1d model.board_width model.curr_pos.x_abs
        model.curr_pos.y_abs)).board j = model.board j) ∧
    (∀ j, ((toggle_flag model (pos_1d model.board_width model.curr_pos.x_abs
      model.curr_pos.y_abs)).board j).tile_type = (model.board j).tile_type) ∧
    ((model.board (pos_1d model.board_width model.curr_pos.x_abs
        model.curr_pos.y_abs)).tile_state = MineSweeperGameScreenTileState.Uncleared →
      0 < model.flags_left →
      ((toggle_flag model (pos_1d model.board_width model.curr_pos.x_abs
        model.curr_pos.y_abs)).board (pos_1d model.board_width model.curr_pos.x_abs
        model.curr_pos.y_abs)).tile_state = MineSweeperGameScreenTileState.Flagged ∧
      (toggle_flag model (pos_1d model.board_width model.curr_pos.x_abs
        model.curr_pos.y_abs)).flags_left + 1 = model.flags_left ∧
      (toggle_flag model (pos_1d model.board_width model.curr_pos.x_abs
        model.curr_pos.y_abs)).mines_left +
        (if (model.board (pos_1d model.board_width model.curr_pos.x_abs
          model.curr_pos.y_abs)).tile_type = MineSweeperGameScreenTileMine then 1 else 0) =
        model.mines_left) ∧
    ((model.board (pos_1d model.board_width model.curr_pos.x_abs
        model.curr_pos.y_abs)).tile_state = MineSweeperGameScreenTileState.Flagged →
      ((toggle_flag model (pos_1d model.board_width model.curr_pos.x_abs
        model.curr_pos.y_abs)).board (pos_1d model.board_width model.curr_pos.x_abs
        model.curr_pos.y_abs)).tile_state = MineSweeperGameScreenTileState.Uncleared ∧
      (toggle_flag model (pos_1d model.board_width model.curr_pos.x_abs
        model.curr_pos.y_abs)).flags_left = model.flags_left + 1 ∧
      (toggle_flag model (pos_1d model.board_width model.curr_pos.x_abs
        model.curr_pos.y_abs)).mines_left =
        model.mines_left +
        (if (model.board (pos_1d model.board_width model.curr_pos.x_abs
          model.curr_pos.y_abs)).tile_type = MineSweeperGameScreenTileMine then 1 else 0)) := by
  have hi := cursor_index_lt model hinv
  have hmt := mine_total_lt model hinv
  have h1 := hinv.mines_left
  have h2 := hinv.flags_left
  generalize pos_1d model.board_width model.curr_pos.x_abs model.curr_pos.y_abs = i at hi
  refine ⟨?_, ?_, ?_, ?_, ?_⟩
  · unfold toggle_flag; simp only; split_ifs <;> rfl
  · intro j hj
    unfold toggle_flag; simp only
    split_ifs <;> simp only [upd_ne _ _ _ _ hj]
  · intro j
    unfold toggle_flag; simp only
    split_ifs <;>
      first
      | rfl
      | (simp only [upd_apply]
         split_ifs with hji <;>
           first
           | rfl
           | rw [hji])
  · intro hst hfl
    have hnf : ¬ (model.board i).tile_state = MineSweeperGameScreenTileState.Flagged := by
      rw [hst]; decide
    have hfm : (model.board i).tile_type = MineSweeperGameScreenTileMine →
        flagged_mine_count model + 1 ≤ mine_total model := fun hm =>
      count_tiles_lt_of_witness _ _ _ _ i hi
        (fun j _ hp => by
          simp only [decide_eq_true_eq] at hp ⊢
          exact hp.2)
        (by simpa using hm) (by simp [hnf])
    unfold toggle_flag
    simp only [if_neg hnf, if_pos hfl, upd_same]
    refine ⟨trivial, by omega, ?_⟩
    by_cases hm : (model.board i).tile_type = MineSweeperGameScreenTileMine
    · have := hfm hm
      simp only [hm, if_true]
      omega
    · simp only [hm, if_false]
      omega
  · intro hst
    have hfc : 1 ≤ flagged_count model :=
      count_tiles_pos _ _ _ i hi (by simpa using hst)
    unfold toggle_flag
    simp only [if_pos hst, upd_same]
    refine ⟨trivial, by omega, ?_⟩
    by_cases hm : (model.board i).tile_type = MineSweeperGameScreenTileMine
    · have hfm : 1 ≤ flagged_mine_count model :=
        count_tiles_pos _ _ _ i hi (by simpa using ⟨hst, hm⟩)
      simp only [hm, if_true]
      omega
    · simp only [hm, if_false]
      omega
theorem demo_corner_flagged_run :
    session 16 7 0 demo_draws zero_model demo_flag_here = some demo_corner_flagged :=
  option_eq_some_getD _ _ (by decide!)

/-- C16: in a state of a session with the play callbacks installed, an event that reaches the
flag branch is handled and changes neither the cursor, nor any other tile, nor any tile type.
On an Uncleared tile with `flags_left > 0` it sets the tile to Flagged, takes exactly one off
`flags_left`, and takes one off `mines_left` exactly when the tile is a Mine; on a Flagged tile
it sets the tile to Uncleared, adds exactly one to `flags_left`, and adds one to `mines_left`
exactly when the tile is a Mine. -/
theorem toggle_flag_effect (width height difficulty : Nat) (draws : List Nat)
    (model0 : MineSweeperGameScreenModel) (actions : List (Action × List Nat))
    (inst : MineSweeperGameScreen) (event : InputEvent) (draws1 : List Nat)
    (hrun : session width height difficulty draws model0 actions = some inst)
    (hplay : inst.callbacks = ViewCallbacks.play)
    (hflag : flag_check_made event inst.model) :
    ∃ inst1, view_input event draws1 inst = some inst1 ∧
      inst1.model.curr_pos = inst.model.curr_pos ∧
      (∀ j, j ≠ pos_1d inst.model.board_width inst.model.curr_pos.x_abs
          inst.model.curr_pos.y_abs → inst1.model.board j = inst.model.board j) ∧
      (∀ j, (inst1.model.board j).tile_type = (inst.model.board j).tile_type) ∧
      ((inst.model.board (pos_1d inst.model.board_width inst.model.curr_pos.x_abs
          inst.model.curr_pos.y_abs)).tile_state = MineSweeperGameScreenTileState.Uncleared →
        0 < inst.model.flags_left →
        (inst1.model.board (pos_1d inst.model.board_width inst.model.curr_pos.x_abs
          inst.model.curr_pos.y_abs)).tile_state = MineSweeperGameScreenTileState.Flagged ∧
        inst1.model.flags_left + 1 = inst.model.flags_left ∧
        inst1.model.mines_left +
          (if (inst.model.board (pos_1d inst.model.board_width inst.model.curr_pos.x_abs
            inst.model.curr_pos.y_abs)).tile_type = MineSweeperGameScreenTileMine
            then 1 else 0) = inst.model.mines_left) ∧
      ((inst.model.board (pos_1d inst.model.board_width inst.model.curr_pos.x_abs
          inst.model.curr_pos.y_abs)).tile_state = MineSweeperGameScreenTileState.Flagged →
        (inst1.model.board (pos_1d inst.model.board_width inst.model.curr_pos.x_abs
          inst.model.curr_pos.y_abs)).tile_state = MineSweeperGameScreenTileState.Uncleared ∧
        inst1.model.flags_left = inst.model.flags_left + 1 ∧
        inst1.model.mines_left = inst.model.mines_left +
          (if (inst.model.board (pos_1d inst.model.board_width inst.model.curr_pos.x_abs
            inst.model.curr_pos.y_abs)).tile_type = MineSweeperGameScreenTileMine
            then 1 else 0)) := by
  have hinv := session_inv width height difficulty draws model0 actions inst hrun
  obtain ⟨inst1, hstep, hmodel, _⟩ := flag_branch_result event draws1 inst hplay hflag
  refine ⟨inst1, hstep, ?_⟩
  rw [hmodel]
  exact toggle_flag_exact inst.model hinv

theorem toggle_flag_effect_witness :
    session 16 7 0 demo_draws zero_model demo_flag_fifteen = some demo_before_win ∧
    demo_before_win.callbacks = ViewCallbacks.play ∧
    flag_check_made { key := InputKey.Back, type := InputType.Long } demo_before_win.model ∧
    (demo_before_win.model.board (pos_1d demo_before_win.model.board_width
      demo_before_win.model.curr_pos.x_abs demo_before_win.model.curr_pos.y_abs)).tile_state =
      MineSweeperGameScreenTileState.Uncleared ∧
    (demo_before_win.model.board (pos_1d demo_before_win.model.board_width
      demo_before_win.model.curr_pos.x_abs demo_before_win.model.curr_pos.y_abs)).tile_type =
      MineSweeperGameScreenTileMine ∧
    0 < demo_before_win.model.flags_left ∧
    session 16 7 0 demo_draws zero_model demo_flag_here = some demo_corner_flagged ∧
    demo_corner_flagged.callbacks = ViewCallbacks.play ∧
    flag_check_made { key := InputKey.Back, type := InputType.Long } demo_corner_flagged.model ∧
    (demo_corner_flagged.model.board (pos_1d demo_corner_flagged.model.board_width
      demo_corner_flagged.model.curr_pos.x_abs
      demo_corner_flagged.model.curr_pos.y_abs)).tile_state =
      MineSweeperGameScreenTileState.Flagged ∧
    (∃ inst1, view_input { key := InputKey.Back, type := InputType.Long } [] demo_before_win =
        some inst1 ∧
      (inst1.model.board (pos_1d demo_before_win.model.board_width
        demo_before_win.model.curr_pos.x_abs demo_before_win.model.curr_pos.y_abs)).tile_state =
        MineSweeperGameScreenTileState.Flagged ∧
      inst1.model.flags_left + 1 = demo_before_win.model.flags_left ∧
      inst1.model.mines_left + 1 = demo_before_win.model.mines_left) ∧
    (∃ inst1, view_input { key := InputKey.Back, type := InputType.Long } []
        demo_corner_flagged = some inst1 ∧
      (inst1.model.board (pos_1d demo_corner_flagged.model.board_width
        demo_corner_flagged.model.curr_pos.x_abs
        demo_corner_flagged.model.curr_pos.y_abs)).tile_state =
        MineSweeperGameScreenTileState.Uncleared ∧
      inst1.model.flags_left = demo_corner_flagged.model.flags_left + 1) := by
  have hbw : demo_before_win.callbacks = ViewCallbacks.play ∧
      flag_check_made { key := InputKey.Back, type := InputType.Long } demo_before_win.model ∧
      (demo_before_win.model.board (pos_1d demo_before_win.model.board_width
        demo_before_win.model.curr_pos.x_abs demo_before_win.model.curr_pos.y_abs)).tile_state =
        MineSweeperGameScreenTileState.Uncleared ∧
      (demo_before_win.model.board (pos_1d demo_before_win.model.board_width
        demo_before_win.model.curr_pos.x_abs demo_before_win.model.curr_pos.y_abs)).tile_type =
        MineSweeperGameScreenTileMine ∧
      0 < demo_before_win.model.flags_left := by decide!
  have hcf : demo_corner_flagged.callbacks = ViewCallbacks.play ∧
      flag_check_made { key := InputKey.Back, type := InputType.Long }
        demo_corner_flagged.model ∧
      (demo_corner_flagged.model.board (pos_1d demo_corner_flagged.model.board_width
        demo_corner_flagged.model.curr_pos.x_abs
        demo_corner_flagged.model.curr_pos.y_abs)).tile_state =
        MineSweeperGameScreenTileState.Flagged := by decide!
  obtain ⟨hP, hC, hA, hM, hF⟩ := hbw
  obtain ⟨hP2, hC2, hB⟩ := hcf
  refine ⟨demo_before_win_run, hP, hC, hA, hM, hF, demo_corner_flagged_run, hP2, hC2, hB,
    ?_, ?_⟩
  · obtain ⟨inst1, h1, _, _, _, h5, _⟩ :=
      toggle_flag_effect 16 7 0 demo_draws zero_model demo_flag_fifteen demo_before_win
        { key := InputKey.Back, type := InputType.Long } [] demo_before_win_run hP hC
    obtain ⟨a, b, c⟩ := h5 hA hF
    rw [if_pos hM] at c
    exact ⟨inst1, h1, a, b, c⟩
  · obtain ⟨inst1, h1, _, _, _, _, h6⟩ :=
      toggle_flag_effect 16 7 0 demo_draws zero_model demo_flag_here demo_corner_flagged
        { key := InputKey.Back, type := InputType.Long } [] demo_corner_flagged_run hP2 hC2
    obtain ⟨a, b, _⟩ := h6 hB
    exact ⟨inst1, h1, a, b⟩

theorem demo_no_flags_run :
    session 16 7 0 demo_draws zero_model (demo_actions ++ demo_flag_fifteen) =
      some demo_no_flags :=
  option_eq_some_getD _ _ (by decide!)

/-- C18: in every state of a session both counters are at most the number of mines on the
board, which is below 65536; and an input handled by the play input callback leaves each
counter where it is, or takes exactly one off a counter that is positive, or adds exactly one:
no decrement or increment wraps around. -/
theorem session_counters_no_wrap (width height difficulty : Nat) (draws : List Nat)
    (model0 : MineSweeperGameScreenModel) (actions : List (Action × List Nat))
    (inst inst1 : MineSweeperGameScreen) (event : InputEvent) (draws1 : List Nat)
    (hrun : session width height difficulty draws model0 actions = some inst)
    (hplay : inst.callbacks = ViewCallbacks.play)
    (hstep : view_input event draws1 inst = some inst1) :
    inst.model.flags_left ≤ mine_total inst.model ∧
    inst.model.mines_left ≤ mine_total inst.model ∧
    mine_total inst.model < 65536 ∧
    (inst1.model.flags_left = inst.model.flags_left ∨
      (0 < inst.model.flags_left ∧ inst1.model.flags_left + 1 = inst.model.flags_left) ∨
      inst1.model.flags_left = inst.model.flags_left + 1) ∧
    (inst1.model.mines_left = inst.model.mines_left ∨
      (0 < inst.model.mines_left ∧ inst1.model.mines_left + 1 = inst.model.mines_left) ∨
      inst1.model.mines_left = inst.model.mines_left + 1) ∧
    inst1.model.flags_left ≤ mine_total inst1.model ∧
    inst1.model.mines_left ≤ mine_total inst1.model := by
  have hinv := session_inv width height difficulty draws model0 actions inst hrun
  have hinv1 := view_input_inv event draws1 inst inst1 hinv hstep
  have a1 := hinv.mines_left
  have a2 := hinv.flags_left
  have b1 := hinv1.mines_left
  have b2 := hinv1.flags_left
  refine ⟨by omega, by omega, mine_total_lt _ hinv, ?_, ?_, by omega, by omega⟩
  all_goals
    have hstep2 := hstep
    unfold view_input at hstep2
    rw [hplay] at hstep2
    simp only at hstep2
    rcases play_input_counters event inst inst1 hinv hstep2 with ⟨hf, hm, _, _⟩ | ⟨hfc, _, _⟩
    · first
      | exact Or.inl hf
      | exact Or.inl hm
    · obtain ⟨inst2, hstep3, hmodel, _⟩ := flag_branch_result event draws1 inst hplay hfc
      rw [hstep] at hstep3
      obtain rfl := Option.some.inj hstep3
      obtain ⟨_, _, _, hunc, hflg⟩ := toggle_flag_exact inst.model hinv
      rw [← hmodel] at hunc hflg
      cases hs : (inst.model.board (pos_1d inst.model.board_width inst.model.curr_pos.x_abs
        inst.model.curr_pos.y_abs)).tile_state
      · obtain ⟨_, e1, e2⟩ := hflg hs
        split at e2 <;> omega
      · rcases Nat.eq_zero_or_pos inst.model.flags_left with h0 | hpos
        · have hnf : ¬ (inst.model.board (pos_1d inst.model.board_width
              inst.model.curr_pos.x_abs inst.model.curr_pos.y_abs)).tile_state =
              MineSweeperGameScreenTileState.Flagged := by rw [hs]; decide
          have htog : toggle_flag inst.model (pos_1d inst.model.board_width
              inst.model.curr_pos.x_abs inst.model.curr_pos.y_abs) = inst.model := by
            unfold toggle_flag
            simp only [if_neg hnf, h0, gt_iff_lt, Nat.lt_irrefl, if_false]
          rw [htog] at hmodel
          rw [hmodel]
          exact Or.inl rfl
        · obtain ⟨_, e1, e2⟩ := hunc hs hpos
          split at e2 <;> omega
      · exact absurd hs hfc.2.2.1

theorem session_counters_no_wrap_witness :
    session 16 7 0 demo_draws zero_model demo_flag_fifteen = some demo_before_win ∧
    demo_before_win.callbacks = ViewCallbacks.play ∧
    view_input { key := InputKey.Back, type := InputType.Long } [] demo_before_win =
      some demo_won ∧
    (demo_before_win.model.flags_left ≤ mine_total demo_before_win.model ∧
    demo_before_win.model.mines_left ≤ mine_total demo_before_win.model ∧
    mine_total demo_before_win.model < 65536 ∧
    (demo_won.model.flags_left = demo_before_win.model.flags_left ∨
      (0 < demo_before_win.model.flags_left ∧
        demo_won.model.flags_left + 1 = demo_before_win.model.flags_left) ∨
      demo_won.model.flags_left = demo_before_win.model.flags_left + 1) ∧
    (demo_won.model.mines_left = demo_before_win.model.mines_left ∨
      (0 < demo_before_win.model.mines_left ∧
        demo_won.model.mines_left + 1 = demo_before_win.model.mines_left) ∨
      demo_won.model.mines_left = demo_before_win.model.mines_left + 1) ∧
    demo_won.model.flags_left ≤ mine_total demo_won.model ∧
    demo_won.model.mines_left ≤ mine_total demo_won.model) := by
  have hp : demo_before_win.callbacks = ViewCallbacks.play := by decide!
  exact ⟨demo_before_win_run, hp, demo_won_step,
    session_counters_no_wrap 16 7 0 demo_draws zero_model demo_flag_fifteen demo_before_win
      demo_won { key := InputKey.Back, type := InputType.Long } [] demo_before_win_run hp
      demo_won_step⟩

theorem all_below_spec (p : Nat → Bool) (n : Nat) (h : all_below p n = true) :
    ∀ i, i < n → p i = true := by
  induction n with
  | zero => intro i hi; omega
  | succ n ih =>
    simp only [all_below, Bool.and_eq_true] at h
    intro i hi
    rcases Nat.lt_succ_iff_lt_or_eq.1 hi with hlt | rfl
    · exact ih h.2 i hlt
    · exact h.1

theorem f32_excess_bits_eq (k : Nat) : ∀ (p s : Nat), s ≤ k →
    ((s = 0 ∧ p < 2 ^ 24) ∨ (0 < s ∧ 2 ^ (23 + s) ≤ p ∧ p < 2 ^ (24 + s))) →
    f32_excess_bits k p = s := by
  induction k with
  | zero =>
    intro p s hs _
    have : s = 0 := by omega
    subst this
    rfl
  | succ k ih =>
    intro p s hs hc
    unfold f32_excess_bits
    by_cases hp : p < 2 ^ 24
    · rw [if_pos hp]
      rcases hc with ⟨h0, _⟩ | ⟨hpos, hlo, _⟩
      · exact h0.symm
      · have : 2 ^ 24 ≤ 2 ^ (23 + s) := Nat.pow_le_pow_right (by norm_num) (by omega)
        omega
    · rw [if_neg hp]
      rcases hc with ⟨_, h1⟩ | ⟨hpos, hlo, hhi⟩
      · exact absurd h1 hp
      · obtain ⟨t, rfl⟩ : ∃ t, s = t + 1 := ⟨s - 1, by omega⟩
        have e1 : 2 ^ (23 + (t + 1)) = 2 * 2 ^ (23 + t) := by
          rw [← Nat.add_assoc, Nat.pow_succ, Nat.mul_comm]
        have e2 : 2 ^ (24 + (t + 1)) = 2 * 2 ^ (24 + t) := by
          rw [← Nat.add_assoc, Nat.pow_succ, Nat.mul_comm]
        rw [e1] at hlo
        rw [e2] at hhi
        have ht := ih (p / 2) t (by omega) (by
          rcases Nat.eq_zero_or_pos t with h0 | h0
          · left
            subst h0
            refine ⟨rfl, ?_⟩
            simp only [Nat.add_zero] at hhi
            omega
          · right
            refine ⟨h0, ?_, ?_⟩ <;> omega)
        rw [ht]
        omega

theorem excess_ok_spec (s p : Nat) (h : excess_ok s p = true) : f32_excess_bits 64 p = s := by
  unfold excess_ok at h
  simp only [Bool.and_eq_true, Nat.ble_eq] at h
  obtain ⟨hs, hc⟩ := h
  apply f32_excess_bits_eq 64 p s hs
  by_cases h0 : s = 0
  · subst h0
    simp only [Nat.beq_refl, cond_true, Nat.ble_eq, Nat.pow_eq, Nat.succ_eq_add_one] at hc
    exact Or.inl ⟨rfl, by omega⟩
  · have hb : Nat.beq s 0 = false := by
      cases hq : Nat.beq s 0
      · rfl
      · exact absurd (Nat.eq_of_beq_eq_true hq) h0
    rw [hb] at hc
    simp only [cond_false, Bool.and_eq_true, Nat.ble_eq, Nat.pow_eq, Nat.add_eq,
      Nat.succ_eq_add_one] at hc
    exact Or.inr ⟨by omega, hc.1, by omega⟩

theorem f32_round_at_spec (s p : Nat) (h : f32_excess_bits 64 p = s) :
    f32_round p = f32_round_at s p := by
  have e : f32_round_at s p =
      (bif Nat.ble (2 ^ s + 1) (2 * (p % 2 ^ s)) ||
        (Nat.beq (2 * (p % 2 ^ s)) (2 ^ s) && Nat.beq (p / 2 ^ s % 2) 1)
      then (p / 2 ^ s + 1) * 2 ^ s else p / 2 ^ s * 2 ^ s) := rfl
  rw [e]
  unfold f32_round
  simp only [h]
  by_cases hc : 2 * (p % 2 ^ s) > 2 ^ s ∨ (2 * (p % 2 ^ s) = 2 ^ s ∧ p / 2 ^ s % 2 = 1)
  · rw [if_pos hc]
    have hb : (Nat.ble (2 ^ s + 1) (2 * (p % 2 ^ s)) ||
        (Nat.beq (2 * (p % 2 ^ s)) (2 ^ s) && Nat.beq (p / 2 ^ s % 2) 1)) = true := by
      rcases hc with h1 | ⟨h1, h2⟩
      · rw [Bool.or_eq_true]
        left
        rw [Nat.ble_eq]
        omega
      · rw [Bool.or_eq_true, Bool.and_eq_true]
        right
        rw [h1, h2]
        exact ⟨Nat.beq_refl _, Nat.beq_refl _⟩
    rw [hb]
    rfl
  · rw [if_neg hc]
    have hb : (Nat.ble (2 ^ s + 1) (2 * (p % 2 ^ s)) ||
        (Nat.beq (2 * (p % 2 ^ s)) (2 ^ s) && Nat.beq (p / 2 ^ s % 2) 1)) = false := by
      rw [Bool.eq_false_iff]
      intro hh
      rw [Bool.or_eq_true, Bool.and_eq_true, Nat.ble_eq] at hh
      apply hc
      rcases hh with h1 | ⟨h1, h2⟩
      · left; omega
      · right; exact ⟨Nat.eq_of_beq_eq_true h1, Nat.eq_of_beq_eq_true h2⟩
    rw [hb]
    rfl

theorem floor_agrees_at_spec (tc m e pct : Nat) (h : floor_agrees_at tc m e pct = true) :
    (f32_round (tc * m) / 2 ^ e) % 65536 = tc * pct / 100 := by
  unfold floor_agrees_at at h
  rw [Bool.and_eq_true] at h
  obtain ⟨hs, hv⟩ := h
  have he := excess_ok_spec _ _ hs
  have hv2 := Nat.eq_of_beq_eq_true hv
  rw [← f32_round_at_spec _ _ he] at hv2
  exact hv2

theorem floor_agrees_spec (tc d : Nat) (hd : d ≤ 4) (h : floor_agrees tc = true) :
    num_mines_of tc d = spec_mine_count tc d := by
  unfold floor_agrees at h
  simp only [Bool.and_eq_true] at h
  obtain ⟨⟨⟨⟨h0, h1⟩, h2⟩, h3⟩, h4⟩ := h
  unfold num_mines_of spec_mine_count
  interval_cases d <;>
    simp only [difficulty_multiplier, spec_density_percent, List.getElem?_cons_zero,
      List.getElem?_cons_succ, Option.some.injEq]
  · exact floor_agrees_at_spec _ _ _ _ h0
  · exact floor_agrees_at_spec _ _ _ _ h1
  · exact floor_agrees_at_spec _ _ _ _ h2
  · exact floor_agrees_at_spec _ _ _ _ h3
  · exact floor_agrees_at_spec _ _ _ _ h4

set_option maxRecDepth 100000 in
theorem floor_agrees_all : all_below floor_agrees 9345 = true := by decide!

theorem num_mines_of_eq_spec (tc d : Nat) (htc : tc ≤ 9344) (hd : d ≤ 4) :
    num_mines_of tc d = spec_mine_count tc d :=
  floor_agrees_spec tc d hd (all_below_spec floor_agrees 9345 floor_agrees_all tc (by omega))

theorem spec_mine_count_some (tc d : Nat) (hd : d ≤ 4) :
    ∃ pct, spec_density_percent[d]? = some pct ∧ 15 ≤ pct ∧ pct ≤ 27 ∧
      spec_mine_count tc d = some (tc * pct / 100) := by
  unfold spec_mine_count
  interval_cases d
  · exact ⟨15, rfl, by omega, by omega, rfl⟩
  · exact ⟨17, rfl, by omega, by omega, rfl⟩
  · exact ⟨19, rfl, by omega, by omega, rfl⟩
  · exact ⟨23, rfl, by omega, by omega, rfl⟩
  · exact ⟨27, rfl, by omega, by omega, rfl⟩

/-- C19: for every width in [16,146], height in [7,64] and difficulty index up to 4, the mine
count computed from the binary32 product `board_tile_count * difficulty_multiplier[d]`,
truncated to a `uint16_t`, is `floor(width * height * density)` with the decimal density of
the level (15, 17, 19, 23 or 27 percent); and a board generated by `setup_board` for these
settings holds exactly that many mines, with both counters set to it. -/
theorem num_mines_floor_density (w h d : Nat) (hw1 : 16 ≤ w) (hw2 : w ≤ 146) (hh1 : 7 ≤ h)
    (hh2 : h ≤ 64) (hd : d ≤ 4) :
    num_mines_of (w * h % 65536) d = spec_mine_count (w * h) d ∧
    (∃ pct, spec_density_percent[d]? = some pct ∧
      num_mines_of (w * h % 65536) d = some (w * h * pct / 100)) ∧
    ∀ (draws : List Nat) (inst inst1 : MineSweeperGameScreen),
      inst.model.board_width = w → inst.model.board_height = h →
      inst.model.board_difficulty = d → setup_board draws inst = some inst1 →
      spec_mine_count (w * h) d = some (mine_total inst1.model) ∧
      inst1.model.mines_left = mine_total inst1.model ∧
      inst1.model.flags_left = mine_total inst1.model := by
  obtain ⟨_, h9⟩ := supported_tile_count w h hw1 hw2 hh1 hh2
  have hmod : w * h % 65536 = w * h := Nat.mod_eq_of_lt (by omega)
  have heq := num_mines_of_eq_spec (w * h) d h9 hd
  obtain ⟨pct, hp, _, _, hsome⟩ := spec_mine_count_some (w * h) d hd
  rw [hmod]
  refine ⟨heq, ⟨pct, hp, by rw [heq, hsome]⟩, ?_⟩
  intro draws inst inst1 ew eh ed hs
  have hw : inst.model.board_width < 256 := by omega
  have hh : inst.model.board_height < 256 := by omega
  obtain ⟨n, tiles, hn, _, _, ew1, eh1, ed1, _, hm, hf, _, _⟩ :=
    setup_board_spec draws inst inst1 hw hh hs
  have htot := setup_board_mine_total_eq draws inst inst1 hw hh hs
  rw [ew1, eh1, ed1, hn] at htot
  have hnn : n = mine_total inst1.model := Option.some.inj htot
  rw [ew, eh, ed, heq] at hn
  rw [hn, hm, hf, hnn]
  exact ⟨rfl, rfl, rfl⟩

theorem num_mines_floor_density_witness :
    spec_mine_count (16 * 7) 0 = some 16 ∧
    (num_mines_of (16 * 7 % 65536) 0 = spec_mine_count (16 * 7) 0 ∧
    (∃ pct, spec_density_percent[0]? = some pct ∧
      num_mines_of (16 * 7 % 65536) 0 = some (16 * 7 * pct / 100)) ∧
    ∀ (draws : List Nat) (inst inst1 : MineSweeperGameScreen),
      inst.model.board_width = 16 → inst.model.board_height = 7 →
      inst.model.board_difficulty = 0 → setup_board draws inst = some inst1 →
      spec_mine_count (16 * 7) 0 = some (mine_total inst1.model) ∧
      inst1.model.mines_left = mine_total inst1.model ∧
      inst1.model.flags_left = mine_total inst1.model) :=
  ⟨by decide, num_mines_floor_density 16 7 0 (by decide) (by decide) (by decide) (by decide)
    (by decide)⟩
theorem count_tiles_upd_le {α : Type} (n : Nat) (a : Nat → α) (P : α → Bool) (i : Nat) (v : α) :
    count_tiles n (upd a i v) P ≤ count_tiles n a P + 1 := by
  by_cases hi : i < n
  · have h := count_tiles_upd n a P i v hi
    split at h <;> split at h <;> omega
  · have h : count_tiles n (upd a i v) P = count_tiles n a P := by
      apply count_tiles_congr
      intro j hj
      rw [upd_ne a i j v (by omega)]
    omega

theorem count_tiles_lt_exists {α : Type} (n : Nat) (a : Nat → α) (P : α → Bool)
    (h : count_tiles n a P < n) : ∃ i, i < n ∧ ¬ P (a i) = true := by
  induction n with
  | zero => omega
  | succ n ih =>
    rw [count_tiles_succ] at h
    by_cases hp : P (a n) = true
    · rw [if_pos hp] at h
      obtain ⟨i, hi, hn⟩ := ih (by omega)
      exact ⟨i, by omega, hn⟩
    · exact ⟨n, by omega, hp⟩

/-- A position that fails the placement test for being protected is one of six positions. -/
theorem is_invalid_position_cases (w h i : Nat) (hw : 0 < w)
    (hinv : is_invalid_position (w * h) w h i (i / w) (i % w)) :
    i = 0 ∨ i = 1 ∨ i = w ∨ i = w * h - 1 ∨ i = w - 1 ∨ i = (h - 1) * w := by
  have hdm := Nat.div_add_mod i w
  unfold is_invalid_position at hinv
  rcases hinv with h0 | ⟨hx, hy⟩ | ⟨hx, hy⟩ | h3 | ⟨hx, hy⟩ | ⟨hx, hy⟩
  · exact Or.inl h0
  · rw [hx, hy] at hdm
    right; left
    omega
  · rw [hx, hy] at hdm
    right; right; left
    omega
  · right; right; right; left
    omega
  · rw [hx] at hdm
    right; right; right; right; left
    omega
  · generalize i / w = x at hx hdm
    have hx2 : x = h - 1 := by omega
    rw [hx2, hy] at hdm
    right; right; right; right; right
    rw [Nat.mul_comm]
    omega

/-- While more than six tiles of the board hold no mine, some position passes the placement
test. -/
theorem free_position_exists (w h : Nat) (tiles : Nat → Nat) (hw : 0 < w)
    (hc : count_tiles (w * h) tiles (fun t => decide (t = MineSweeperGameScreenTileMine)) + 6 <
      w * h) :
    ∃ i, i < w * h ∧ tiles i ≠ MineSweeperGameScreenTileMine ∧
      ¬ is_invalid_position (w * h) w h i (i / w) (i % w) := by
  have h6 : count_tiles (w * h)
      (upd (upd (upd (upd (upd (upd tiles 0 MineSweeperGameScreenTileMine)
        1 MineSweeperGameScreenTileMine) w MineSweeperGameScreenTileMine)
        (w * h - 1) MineSweeperGameScreenTileMine) (w - 1) MineSweeperGameScreenTileMine)
        ((h - 1) * w) MineSweeperGameScreenTileMine)
      (fun t => decide (t = MineSweeperGameScreenTileMine)) < w * h := by
    have a1 := count_tiles_upd_le (w * h) tiles
      (fun t => decide (t = MineSweeperGameScreenTileMine)) 0 MineSweeperGameScreenTileMine
    have a2 := count_tiles_upd_le (w * h) (upd tiles 0 MineSweeperGameScreenTileMine)
      (fun t => decide (t = MineSweeperGameScreenTileMine)) 1 MineSweeperGameScreenTileMine
    have a3 := count_tiles_upd_le (w * h) (upd (upd tiles 0 MineSweeperGameScreenTileMine)
        1 MineSweeperGameScreenTileMine)
      (fun t => decide (t = MineSweeperGameScreenTileMine)) w MineSweeperGameScreenTileMine
    have a4 := count_tiles_upd_le (w * h) (upd (upd (upd tiles 0 MineSweeperGameScreenTileMine)
        1 MineSweeperGameScreenTileMine) w MineSweeperGameScreenTileMine)
      (fun t => decide (t = MineSweeperGameScreenTileMine)) (w * h - 1)
      MineSweeperGameScreenTileMine
    have a5 := count_tiles_upd_le (w * h) (upd (upd (upd (upd tiles 0
        MineSweeperGameScreenTileMine) 1 MineSweeperGameScreenTileMine)
        w MineSweeperGameScreenTileMine) (w * h - 1) MineSweeperGameScreenTileMine)
      (fun t => decide (t = MineSweeperGameScreenTileMine)) (w - 1)
      MineSweeperGameScreenTileMine
    have a6 := count_tiles_upd_le (w * h) (upd (upd (upd (upd (upd tiles 0
        MineSweeperGameScreenTileMine) 1 MineSweeperGameScreenTileMine)
        w MineSweeperGameScreenTileMine) (w * h - 1) MineSweeperGameScreenTileMine)
        (w - 1) MineSweeperGameScreenTileMine)
      (fun t => decide (t = MineSweeperGameScreenTileMine)) ((h - 1) * w)
      MineSweeperGameScreenTileMine
    omega
  obtain ⟨i, hi, hn⟩ := count_tiles_lt_exists _ _ _ h6
  simp only [decide_eq_true_eq, upd_apply] at hn
  have n1 : i ≠ (h - 1) * w := fun e => hn (by rw [if_pos e])
  rw [if_neg n1] at hn
  have n2 : i ≠ w - 1 := fun e => hn (by rw [if_pos e])
  rw [if_neg n2] at hn
  have n3 : i ≠ w * h - 1 := fun e => hn (by rw [if_pos e])
  rw [if_neg n3] at hn
  have n4 : i ≠ w := fun e => hn (by rw [if_pos e])
  rw [if_neg n4] at hn
  have n5 : i ≠ 1 := fun e => hn (by rw [if_pos e])
  rw [if_neg n5] at hn
  have n6 : i ≠ 0 := fun e => hn (by rw [if_pos e])
  rw [if_neg n6] at hn
  refine ⟨i, hi, hn, fun hinv => ?_⟩
  rcases is_invalid_position_cases w h i hw hinv with e | e | e | e | e | e
  · exact n6 e
  · exact n5 e
  · exact n4 e
  · exact n3 e
  · exact n2 e
  · exact n1 e

/-- A draw of a position that passes the placement test is accepted at once. -/
theorem draw_mine_position_accepts (w h : Nat) (tiles : Nat → Nat) (i : Nat)
    (rest : List Nat) (h65 : w * h < 65536) (hi : i < w * h)
    (hm : tiles i ≠ MineSweeperGameScreenTileMine)
    (hv : ¬ is_invalid_position (w * h) w h i (i / w) (i % w)) :
    draw_mine_position (w * h) w h tiles (i :: rest) = some (i, rest) := by
  have e : i % (w * h) % 65536 = i := by
    rw [Nat.mod_eq_of_lt hi, Nat.mod_eq_of_lt (by omega)]
  simp only [draw_mine_position, e]
  rw [if_neg (fun hc => hc.elim hm hv)]

/-- From any state of the placement loop that leaves more than six tiles without a mine after
the `k` mines still to place, some sequence of draws lets the loop complete. -/
theorem place_mines_completes (w h : Nat) (hw : 0 < w) (h65 : w * h < 65536) :
    ∀ (k : Nat) (tiles : Nat → Nat),
      count_tiles (w * h) tiles (fun t => decide (t = MineSweeperGameScreenTileMine)) + k + 6 ≤
        w * h →
      ∃ draws tiles1, place_mines (w * h) w h k tiles draws = some tiles1 := by
  intro k
  induction k with
  | zero =>
    intro tiles _
    exact ⟨[], tiles, rfl⟩
  | succ k ih =>
    intro tiles hc
    obtain ⟨i, hi, hm, hv⟩ := free_position_exists w h tiles hw (by omega)
    have hu := count_tiles_upd (w * h) tiles
      (fun t => decide (t = MineSweeperGameScreenTileMine)) i MineSweeperGameScreenTileMine hi
    simp only [decide_eq_true_eq, hm, if_false, if_true] at hu
    obtain ⟨draws, tiles1, hp⟩ := ih (upd tiles i MineSweeperGameScreenTileMine) (by omega)
    refine ⟨i :: draws, tiles1, ?_⟩
    simp only [place_mines]
    rw [draw_mine_position_accepts w h tiles i draws h65 hi hm hv]
    exact hp
theorem count_tiles_zero {α : Type} (n : Nat) (a : Nat → α) (P : α → Bool)
    (h : ∀ i, i < n → ¬ P (a i) = true) : count_tiles n a P = 0 := by
  rcases Nat.eq_zero_or_pos (count_tiles n a P) with h0 | hpos
  · exact h0
  · unfold count_tiles at hpos
    obtain ⟨i, hi, hp⟩ := List.countP_pos_iff.1 hpos
    exact absurd hp (h i (List.mem_range.1 hi))

/-- C20: for every width in [16,146], height in [7,64] and difficulty index up to 4 the mine
count `num_mines` leaves at least six tiles: `num_mines + 6 ≤ width * height`. So whenever
fewer than `num_mines` mines are on the board some index below `width * height` is neither a
mine nor a protected position; from every such state of the placement loop some sequence of
draws lets it place the mines still missing; and `setup_board` can complete with exactly
`num_mines` mines. -/
theorem placement_can_complete (w h d : Nat) (hw1 : 16 ≤ w) (hw2 : w ≤ 146) (hh1 : 7 ≤ h)
    (hh2 : h ≤ 64) (hd : d ≤ 4) :
    ∃ n, num_mines_of (w * h % 65536) d = some n ∧ n + 6 ≤ w * h ∧
      (∀ tiles : Nat → Nat,
        count_tiles (w * h) tiles (fun t => decide (t = MineSweeperGameScreenTileMine)) < n →
        ∃ i, i < w * h ∧ tiles i ≠ MineSweeperGameScreenTileMine ∧
          ¬ is_invalid_position (w * h) w h i (i / w) (i % w)) ∧
      (∀ (k : Nat) (tiles : Nat → Nat),
        count_tiles (w * h) tiles (fun t => decide (t = MineSweeperGameScreenTileMine)) + k ≤ n →
        ∃ draws tiles1, place_mines (w * h) w h k tiles draws = some tiles1 ∧
          count_tiles (w * h) tiles1 (fun t => decide (t = MineSweeperGameScreenTileMine)) =
            count_tiles (w * h) tiles (fun t => decide (t = MineSweeperGameScreenTileMine)) +
              k) ∧
      (∀ inst : MineSweeperGameScreen, inst.model.board_width = w →
        inst.model.board_height = h → inst.model.board_difficulty = d →
        ∃ draws inst1, setup_board draws inst = some inst1 ∧ mine_total inst1.model = n) := by
  obtain ⟨h112, h9⟩ := supported_tile_count w h hw1 hw2 hh1 hh2
  have h65 : w * h < 65536 := by omega
  have hmod : w * h % 65536 = w * h := Nat.mod_eq_of_lt h65
  have heq := num_mines_of_eq_spec (w * h) d h9 hd
  obtain ⟨pct, _, _, hp27, hsome⟩ := spec_mine_count_some (w * h) d hd
  rw [hsome] at heq
  have hle : w * h * pct / 100 ≤ w * h * 27 / 100 :=
    Nat.div_le_div_right (Nat.mul_le_mul_left _ hp27)
  have hn6 : w * h * pct / 100 + 6 ≤ w * h := by omega
  have hw0 : 0 < w := by omega
  rw [hmod]
  refine ⟨w * h * pct / 100, heq, hn6, ?_, ?_, ?_⟩
  · intro tiles hc
    exact free_position_exists w h tiles hw0 (by omega)
  · intro k tiles hc
    obtain ⟨draws, tiles1, hp⟩ := place_mines_completes w h hw0 h65 k tiles (by omega)
    exact ⟨draws, tiles1, hp,
      (place_mines_spec (w * h) w h k tiles draws tiles1 hp (Or.inr (by omega))).2.2.2⟩
  · intro inst ew eh ed
    have hz : count_tiles (w * h) (fun _ => MineSweeperGameScreenTileNone)
        (fun t => decide (t = MineSweeperGameScreenTileMine)) = 0 :=
      count_tiles_zero _ _ _ (fun i _ => by decide)
    obtain ⟨draws, tiles1, hp⟩ := place_mines_completes w h hw0 h65 (w * h * pct / 100)
      (fun _ => MineSweeperGameScreenTileNone) (by omega)
    have hst : setup_tiles w h d draws = some (count_pass (w * h) w h tiles1) := by
      unfold setup_tiles
      simp only [hmod, heq, hp]
    have hsb : ∃ inst1, setup_board draws inst = some inst1 := by
      unfold setup_board setup_board_model
      rw [ew, eh, ed]
      simp only [hmod, heq, hst]
      exact ⟨_, rfl⟩
    obtain ⟨inst1, hs⟩ := hsb
    refine ⟨draws, inst1, hs, ?_⟩
    have hwl : inst.model.board_width < 256 := by omega
    have hhl : inst.model.board_height < 256 := by omega
    obtain ⟨_, _, _, _, _, ew1, eh1, ed1, _⟩ := setup_board_spec draws inst inst1 hwl hhl hs
    have htot := setup_board_mine_total_eq draws inst inst1 hwl hhl hs
    rw [ew1, eh1, ed1, ew, eh, ed, heq] at htot
    exact (Option.some.inj htot).symm

theorem placement_can_complete_witness :
    ∃ n, num_mines_of (16 * 7 % 65536) 0 = some n ∧ n + 6 ≤ 16 * 7 ∧
      (∀ tiles : Nat → Nat,
        count_tiles (16 * 7) tiles (fun t => decide (t = MineSweeperGameScreenTileMine)) < n →
        ∃ i, i < 16 * 7 ∧ tiles i ≠ MineSweeperGameScreenTileMine ∧
          ¬ is_invalid_position (16 * 7) 16 7 i (i / 16) (i % 16)) ∧
      (∀ (k : Nat) (tiles : Nat → Nat),
        count_tiles (16 * 7) tiles (fun t => decide (t = MineSweeperGameScreenTileMine)) + k ≤
          n →
        ∃ draws tiles1, place_mines (16 * 7) 16 7 k tiles draws = some tiles1 ∧
          count_tiles (16 * 7) tiles1 (fun t => decide (t = MineSweeperGameScreenTileMine)) =
            count_tiles (16 * 7) tiles (fun t => decide (t = MineSweeperGameScreenTileMine)) +
              k) ∧
      (∀ inst : MineSweeperGameScreen, inst.model.board_width = 16 →
        inst.model.board_height = 7 → inst.model.board_difficulty = 0 →
        ∃ draws inst1, setup_board draws inst = some inst1 ∧ mine_total inst1.model = n) :=
  placement_can_complete 16 7 0 (by decide) (by decide) (by decide) (by decide) (by decide)

/-! ## Index mapping, and mines under the flood fill -/

/-- C24: on a board whose width and height fit a `uint8_t`, the linear index
`row * width + col` of an in-bounds cell lies below the tile count and is taken back to
`(row, col)` by `(idx / width, idx % width)`; every index below the tile count is taken by
`(idx / width, idx % width)` to an in-bounds cell whose linear index is the index itself; and
for every positive width, every row and every column below the width, division and remainder
recover the row and the column. -/
theorem index_mapping_bijection (w h : Nat) (hw0 : 0 < w) (hw : w < 256) (hh : h < 256) :
    (∀ row col : Nat, row < h → col < w →
      pos_1d w (row : Int) (col : Int) = row * w + col ∧ row * w + col < w * h ∧
      pos_1d w (row : Int) (col : Int) / w = row ∧
      pos_1d w (row : Int) (col : Int) % w = col) ∧
    (∀ idx : Nat, idx < w * h →
      in_bounds w h { x := ((idx / w : Nat) : Int), y := ((idx % w : Nat) : Int) } ∧
      idx / w < h ∧ idx % w < w ∧
      pos_1d w ((idx / w : Nat) : Int) ((idx % w : Nat) : Int) = idx) ∧
    (∀ row col : Nat, col < w →
      (row * w + col) / w = row ∧ (row * w + col) % w = col) := by
  have harith : ∀ row col : Nat, col < w →
      (row * w + col) / w = row ∧ (row * w + col) % w = col := by
    intro row col hcol
    constructor
    · rw [Nat.add_comm, Nat.add_mul_div_right _ _ hw0, Nat.div_eq_of_lt hcol, Nat.zero_add]
    · rw [Nat.add_comm, Nat.add_mul_mod_self_right, Nat.mod_eq_of_lt hcol]
  refine ⟨?_, ?_, harith⟩
  · intro row col hrow hcol
    have hb : in_bounds w h { x := (row : Int), y := (col : Int) } := by
      unfold in_bounds
      simp only
      omega
    obtain ⟨h1, h2, _, _⟩ := pos_1d_in_bounds w h hw hh _ hb
    simp only [Int.toNat_ofNat] at h1
    rw [h1]
    rw [h1] at h2
    exact ⟨rfl, h2, (harith row col hcol).1, (harith row col hcol).2⟩
  · intro idx hidx
    obtain ⟨h1, h2⟩ := index_in_bounds w h idx hw hh hidx
    refine ⟨h1, ?_, Nat.mod_lt _ hw0, h2⟩
    unfold in_bounds at h1
    simp only at h1
    omega

theorem index_mapping_bijection_witness :
    (∀ row col : Nat, row < 7 → col < 16 →
      pos_1d 16 (row : Int) (col : Int) = row * 16 + col ∧ row * 16 + col < 16 * 7 ∧
      pos_1d 16 (row : Int) (col : Int) / 16 = row ∧
      pos_1d 16 (row : Int) (col : Int) % 16 = col) ∧
    (∀ idx : Nat, idx < 16 * 7 →
      in_bounds 16 7 { x := ((idx / 16 : Nat) : Int), y := ((idx % 16 : Nat) : Int) } ∧
      idx / 16 < 7 ∧ idx % 16 < 16 ∧
      pos_1d 16 ((idx / 16 : Nat) : Int) ((idx % 16 : Nat) : Int) = idx) ∧
    (∀ row col : Nat, col < 16 →
      (row * 16 + col) / 16 = row ∧ (row * 16 + col) % 16 = col) :=
  index_mapping_bijection 16 7 (by decide) (by decide) (by decide)

/-- What the flood fill does to each tile of a board with consistent counts when it starts on
a tile that is not a Mine: the tile is left as it is, or it is not a Mine, is reached from the
start through tiles of type Zero, and is set to Cleared. -/
theorem flood_cases (model model1 : MineSweeperGameScreenModel)
    (hw : model.board_width < 256) (hh : model.board_height < 256)
    (hc : counts_consistent model)
    (hstart : in_bounds model.board_width model.board_height
      { x := model.curr_pos.x_abs, y := model.curr_pos.y_abs })
    (hnm : type_at model { x := model.curr_pos.x_abs, y := model.curr_pos.y_abs } ≠
      MineSweeperGameScreenTileMine)
    (hrun : bfs_tile_clear model = some model1) :
    same_except_board model1 model ∧
    ∀ i, model1.board i = model.board i ∨
      (model1.board i = { model.board i with
          tile_state := MineSweeperGameScreenTileState.Cleared } ∧
        (model.board i).tile_type ≠ MineSweeperGameScreenTileMine ∧
        ∃ p, pos_1d model.board_width p.x p.y = i ∧
          zero_reach model { x := model.curr_pos.x_abs, y := model.curr_pos.y_abs } p) := by
  obtain ⟨m1, set1, hrun1, hci⟩ := bfs_tile_clear_post model hw hh hstart
  rw [hrun] at hrun1
  obtain rfl := Option.some.inj hrun1
  refine ⟨hci.same, fun i => ?_⟩
  by_cases hex : ∃ p, p ∈ set1 ∧ pos_1d model.board_width p.x p.y = i
  · obtain ⟨p, hp, rfl⟩ := hex
    right
    exact ⟨hci.cleared p hp,
      zero_reach_not_mine model _ p hw hh hc hstart hnm (hci.set_ok p hp).2,
      p, rfl, (hci.set_ok p hp).2⟩
  · left
    exact hci.untouched i (fun p hp heq => hex ⟨p, hp, heq⟩)

/-- C26: on a board with consistent counts, `bfs_tile_clear` started on a tile that is not a
Mine returns and leaves every Mine tile exactly as it was, so a Flagged mine stays Flagged.
Every tile it changes is set to Cleared, is not a Mine, and is the start tile or a valid
neighbour of an in-bounds tile of type Zero. -/
theorem bfs_tile_clear_spares_mines (model : MineSweeperGameScreenModel)
    (hw : model.board_width < 256) (hh : model.board_height < 256)
    (hc : counts_consistent model)
    (hstart : in_bounds model.board_width model.board_height
      { x := model.curr_pos.x_abs, y := model.curr_pos.y_abs })
    (hnm : type_at model { x := model.curr_pos.x_abs, y := model.curr_pos.y_abs } ≠
      MineSweeperGameScreenTileMine) :
    ∃ model1, bfs_tile_clear model = some model1 ∧
      (∀ i, (model.board i).tile_type = MineSweeperGameScreenTileMine →
        model1.board i = model.board i) ∧
      (∀ i, (model.board i).tile_type = MineSweeperGameScreenTileMine →
        (model.board i).tile_state = MineSweeperGameScreenTileState.Flagged →
        (model1.board i).tile_state = MineSweeperGameScreenTileState.Flagged) ∧
      (∀ i, model1.board i ≠ model.board i →
        (model1.board i).tile_state = MineSweeperGameScreenTileState.Cleared ∧
        (model1.board i).tile_type = (model.board i).tile_type ∧
        (model.board i).tile_type ≠ MineSweeperGameScreenTileMine ∧
        (i = pos_1d model.board_width model.curr_pos.x_abs model.curr_pos.y_abs ∨
          ∃ q p, in_bounds model.board_width model.board_height q ∧
            type_at model q = MineSweeperGameScreenTileZero ∧
            p ∈ valid_neighbors model.board_width model.board_height q.x q.y ∧
            pos_1d model.board_width p.x p.y = i)) := by
  obtain ⟨model1, _, hrun, _⟩ := bfs_tile_clear_post model hw hh hstart
  obtain ⟨_, hcase⟩ := flood_cases model model1 hw hh hc hstart hnm hrun
  refine ⟨model1, hrun, fun i hm => ?_, fun i hm hf => ?_, fun i hne => ?_⟩
  · rcases hcase i with h | ⟨_, h, _⟩
    · exact h
    · exact absurd hm h
  · rcases hcase i with h | ⟨_, h, _⟩
    · rw [h]; exact hf
    · exact absurd hm h
  · rcases hcase i with h | ⟨h, hnmi, p, hpi, hreach⟩
    · exact absurd h hne
    · refine ⟨by rw [h], by rw [h], hnmi, ?_⟩
      cases hreach with
      | base => exact Or.inl hpi.symm
      | step q _ hq hz hmem =>
        exact Or.inr ⟨q, p, zero_reach_in_bounds model _ q hstart hq, hz, hmem, hpi⟩

theorem bfs_tile_clear_spares_mines_witness :
    ∃ model1, bfs_tile_clear demo_screen.model = some model1 ∧
      (∀ i, (demo_screen.model.board i).tile_type = MineSweeperGameScreenTileMine →
        model1.board i = demo_screen.model.board i) ∧
      (∀ i, (demo_screen.model.board i).tile_type = MineSweeperGameScreenTileMine →
        (demo_screen.model.board i).tile_state = MineSweeperGameScreenTileState.Flagged →
        (model1.board i).tile_state = MineSweeperGameScreenTileState.Flagged) ∧
      (∀ i, model1.board i ≠ demo_screen.model.board i →
        (model1.board i).tile_state = MineSweeperGameScreenTileState.Cleared ∧
        (model1.board i).tile_type = (demo_screen.model.board i).tile_type ∧
        (demo_screen.model.board i).tile_type ≠ MineSweeperGameScreenTileMine ∧
        (i = pos_1d demo_screen.model.board_width demo_screen.model.curr_pos.x_abs
            demo_screen.model.curr_pos.y_abs ∨
          ∃ q p, in_bounds demo_screen.model.board_width demo_screen.model.board_height q ∧
            type_at demo_screen.model q = MineSweeperGameScreenTileZero ∧
            p ∈ valid_neighbors demo_screen.model.board_width demo_screen.model.board_height
              q.x q.y ∧
            pos_1d demo_screen.model.board_width p.x p.y = i)) :=
  bfs_tile_clear_spares_mines demo_screen.model (by decide!) (by decide!)
    (setup_board_consistent demo_draws demo_fresh demo_screen (by decide) (by decide)
      demo_setup)
    (by decide!) (by decide!)

/-! ## Termination of the two search loops -/

/-- A run of the flood fill loop that returns with some fuel returns the same with more. -/
theorem bfs_tile_clear_loop_mono :
    ∀ (fuel : Nat) (deq set : List Point) (model model1 : MineSweeperGameScreenModel),
      bfs_tile_clear_loop fuel deq set model = some model1 →
      ∀ fuel1, fuel ≤ fuel1 → bfs_tile_clear_loop fuel1 deq set model = some model1 := by
  intro fuel
  induction fuel with
  | zero =>
    intro deq set model model1 hrun fuel1 _
    cases deq with
    | nil =>
      cases fuel1 <;> simpa [bfs_tile_clear_loop] using hrun
    | cons pos rest => simp [bfs_tile_clear_loop] at hrun
  | succ fuel ih =>
    intro deq set model model1 hrun fuel1 hle
    cases deq with
    | nil =>
      cases fuel1 <;> simpa [bfs_tile_clear_loop] using hrun
    | cons pos rest =>
      obtain ⟨f, rfl⟩ : ∃ f, fuel1 = f + 1 := ⟨fuel1 - 1, by omega⟩
      simp only [bfs_tile_clear_loop] at hrun ⊢
      split_ifs at hrun ⊢ with c1 c2
      · exact ih _ _ _ _ hrun f (by omega)
      · exact ih _ _ _ _ hrun f (by omega)
      · exact ih _ _ _ _ hrun f (by omega)

/-- A run of the nearest-tile loop that returns with some fuel returns the same with more. -/
theorem bfs_to_closest_tile_loop_mono (model : MineSweeperGameScreenModel) (start : Point) :
    ∀ (fuel : Nat) (deq set : List Point) (r : Option Point),
      bfs_to_closest_tile_loop model start fuel deq set = some r →
      ∀ fuel1, fuel ≤ fuel1 → bfs_to_closest_tile_loop model start fuel1 deq set = some r := by
  intro fuel
  induction fuel with
  | zero =>
    intro deq set r hrun fuel1 _
    cases deq with
    | nil =>
      cases fuel1 <;> simpa [bfs_to_closest_tile_loop] using hrun
    | cons pos rest => simp [bfs_to_closest_tile_loop] at hrun
  | succ fuel ih =>
    intro deq set r hrun fuel1 hle
    cases deq with
    | nil =>
      cases fuel1 <;> simpa [bfs_to_closest_tile_loop] using hrun
    | cons pos rest =>
      obtain ⟨f, rfl⟩ : ∃ f, fuel1 = f + 1 := ⟨fuel1 - 1, by omega⟩
      simp only [bfs_to_closest_tile_loop] at hrun ⊢
      split_ifs at hrun ⊢ with c1 c2
      · exact hrun
      · exact ih _ _ _ hrun f (by omega)
      · exact ih _ _ _ hrun f (by omega)

/-- The flood fill loop runs to the end within as many pops as the deque is long plus eight
for every position of the board not yet in the visited set. -/
theorem bfs_tile_clear_loop_terminates (w h : Nat) (hw : w < 256) (hh : h < 256) :
    ∀ (fuel : Nat) (deq set : List Point) (model : MineSweeperGameScreenModel),
      model.board_width = w → model.board_height = h → set.Nodup →
      (∀ p, p ∈ set → in_bounds w h p) → (∀ p, p ∈ deq → in_bounds w h p) →
      deq.length + 8 * (w * h - set.length) ≤ fuel →
      ∃ model1, bfs_tile_clear_loop fuel deq set model = some model1 := by
  intro fuel
  induction fuel with
  | zero =>
    intro deq set model _ _ _ _ _ hf
    cases deq with
    | nil => exact ⟨model, by simp [bfs_tile_clear_loop]⟩
    | cons pos rest => simp only [List.length_cons] at hf; omega
  | succ fuel ih =>
    intro deq set model ew eh hnd hset hdeq hf
    cases deq with
    | nil => exact ⟨model, by simp [bfs_tile_clear_loop]⟩
    | cons pos rest =>
      have hpos := hdeq pos (List.mem_cons_self _ _)
      have hrest : ∀ p, p ∈ rest → in_bounds w h p :=
        fun p hp => hdeq p (List.mem_cons_of_mem _ hp)
      simp only [List.length_cons] at hf
      simp only [bfs_tile_clear_loop]
      by_cases hmem : pos ∈ set
      · rw [if_pos hmem]
        exact ih rest set model ew eh hnd hset hrest (by omega)
      · rw [if_neg hmem]
        have hnd1 : (pos :: set).Nodup := List.nodup_cons.2 ⟨hmem, hnd⟩
        have hset1 : ∀ p, p ∈ pos :: set → in_bounds w h p := by
          intro p hp
          rcases List.mem_cons.1 hp with e | e
          · exact e ▸ hpos
          · exact hset p e
        have hlen := visited_length_le w h hw hh (pos :: set) hnd1 hset1
        simp only [List.length_cons] at hlen
        split_ifs with c
        · exact ih rest (pos :: set) _ ew eh hnd1 hset1 hrest
            (by simp only [List.length_cons]; omega)
        · refine ih _ (pos :: set) _ ew eh hnd1 hset1 ?_ ?_
          · intro p hp
            rcases List.mem_append.1 hp with e | e
            · exact hrest p e
            · rw [ew, eh] at e
              exact ((mem_valid_neighbors _ _ _ _ _).1 e).1
          · have hnb := valid_neighbors_length_le model.board_width model.board_height
              pos.x pos.y
            simp only [List.length_append, List.length_cons]
            omega

/-- The nearest-tile loop runs to the end within as many pops as the deque is long plus eight
for every position of the board not yet in the visited set; its result is unassigned, or an
in-bounds Uncleared position other than the start. -/
theorem bfs_to_closest_tile_loop_terminates (model : MineSweeperGameScreenModel)
    (start : Point) (hw : model.board_width < 256) (hh : model.board_height < 256) :
    ∀ (fuel : Nat) (deq set : List Point),
      set.Nodup →
      (∀ p, p ∈ set → in_bounds model.board_width model.board_height p) →
      (∀ p, p ∈ deq → in_bounds model.board_width model.board_height p) →
      deq.length + 8 * (model.board_width * model.board_height - set.length) ≤ fuel →
      ∃ r, bfs_to_closest_tile_loop model start fuel deq set = some r ∧
        ∀ p, r = some p → in_bounds model.board_width model.board_height p ∧
          is_target model start p := by
  intro fuel
  induction fuel with
  | zero =>
    intro deq set _ _ _ hf
    cases deq with
    | nil => exact ⟨none, by simp [bfs_to_closest_tile_loop], fun p hp => absurd hp (by simp)⟩
    | cons pos rest => simp only [List.length_cons] at hf; omega
  | succ fuel ih =>
    intro deq set hnd hset hdeq hf
    cases deq with
    | nil => exact ⟨none, by simp [bfs_to_closest_tile_loop], fun p hp => absurd hp (by simp)⟩
    | cons pos rest =>
      have hpos := hdeq pos (List.mem_cons_self _ _)
      have hrest : ∀ p, p ∈ rest → in_bounds model.board_width model.board_height p :=
        fun p hp => hdeq p (List.mem_cons_of_mem _ hp)
      simp only [List.length_cons] at hf
      simp only [bfs_to_closest_tile_loop]
      split_ifs with c1 c2
      · refine ⟨some pos, rfl, fun p hp => ?_⟩
        obtain rfl := Option.some.inj hp
        exact ⟨hpos, c1.1, (point_ne_iff _ _).2 c1.2⟩
      · exact ih rest set hnd hset hrest (by omega)
      · have hnd1 : (pos :: set).Nodup := List.nodup_cons.2 ⟨c2, hnd⟩
        have hset1 : ∀ p, p ∈ pos :: set →
            in_bounds model.board_width model.board_height p := by
          intro p hp
          rcases List.mem_cons.1 hp with e | e
          · exact e ▸ hpos
          · exact hset p e
        have hlen := visited_length_le _ _ hw hh (pos :: set) hnd1 hset1
        simp only [List.length_cons] at hlen
        refine ih _ (pos :: set) hnd1 hset1 ?_ ?_
        · intro p hp
          rcases List.mem_append.1 hp with e | e
          · exact hrest p e
          · exact ((mem_valid_neighbors _ _ _ _ _).1 e).1
        · have hnb := valid_neighbors_length_le model.board_width model.board_height
            pos.x pos.y
          simp only [List.length_append, List.length_cons]
          omega

/-- C25: on a board whose width and height fit a `uint8_t`, with the cursor on the board, the
loops of `bfs_tile_clear` and of `bfs_to_closest_tile` terminate. A position is added to the
visited set when it is first popped and not expanded again, and an expansion enqueues at most
eight neighbours, so both loops run to the end within `8 * width * height + 1` pops: with any
fuel of at least that many pops they return, and return what the functions return. -/
theorem bfs_loops_terminate (model : MineSweeperGameScreenModel)
    (hw : model.board_width < 256) (hh : model.board_height < 256)
    (hstart : in_bounds model.board_width model.board_height
      { x := model.curr_pos.x_abs, y := model.curr_pos.y_abs }) :
    (∃ model1, bfs_tile_clear model = some model1 ∧
      ∀ fuel, 8 * (model.board_width * model.board_height) + 1 ≤ fuel →
        bfs_tile_clear_loop fuel [{ x := model.curr_pos.x_abs, y := model.curr_pos.y_abs }] []
          model = some model1) ∧
    (∃ r, bfs_to_closest_tile model = some r ∧
      ∀ fuel, 8 * (model.board_width * model.board_height) + 1 ≤ fuel →
        bfs_to_closest_tile_loop model { x := model.curr_pos.x_abs, y := model.curr_pos.y_abs }
          fuel [{ x := model.curr_pos.x_abs, y := model.curr_pos.y_abs }] [] = some r) := by
  have hdeq : ∀ p, p ∈ [({ x := model.curr_pos.x_abs, y := model.curr_pos.y_abs } : Point)] →
      in_bounds model.board_width model.board_height p := by
    intro p hp
    rw [List.mem_singleton] at hp
    exact hp ▸ hstart
  constructor
  · obtain ⟨model1, h1⟩ := bfs_tile_clear_loop_terminates model.board_width model.board_height
      hw hh (8 * (model.board_width * model.board_height) + 1)
      [{ x := model.curr_pos.x_abs, y := model.curr_pos.y_abs }] [] model rfl rfl
      List.nodup_nil (fun p hp => absurd hp (List.not_mem_nil _)) hdeq
      (by simp only [List.length_singleton, List.length_nil]; omega)
    refine ⟨model1, ?_, fun fuel hf => bfs_tile_clear_loop_mono _ _ _ _ _ h1 fuel hf⟩
    unfold bfs_tile_clear
    exact bfs_tile_clear_loop_mono _ _ _ _ _ h1 _ (by unfold bfs_fuel; omega)
  · obtain ⟨r, h1, _⟩ := bfs_to_closest_tile_loop_terminates model
      { x := model.curr_pos.x_abs, y := model.curr_pos.y_abs } hw hh
      (8 * (model.board_width * model.board_height) + 1)
      [{ x := model.curr_pos.x_abs, y := model.curr_pos.y_abs }] []
      List.nodup_nil (fun p hp => absurd hp (List.not_mem_nil _)) hdeq
      (by simp only [List.length_singleton, List.length_nil]; omega)
    refine ⟨r, ?_, fun fuel hf => bfs_to_closest_tile_loop_mono _ _ _ _ _ _ h1 fuel hf⟩
    unfold bfs_to_closest_tile
    exact bfs_to_closest_tile_loop_mono _ _ _ _ _ _ h1 _ (by unfold bfs_fuel; omega)

theorem bfs_loops_terminate_witness :
    (∃ model1, bfs_tile_clear demo_screen.model = some model1 ∧
      ∀ fuel, 8 * (demo_screen.model.board_width * demo_screen.model.board_height) + 1 ≤ fuel →
        bfs_tile_clear_loop fuel
          [{ x := demo_screen.model.curr_pos.x_abs, y := demo_screen.model.curr_pos.y_abs }] []
          demo_screen.model = some model1) ∧
    (∃ r, bfs_to_closest_tile demo_screen.model = some r ∧
      ∀ fuel, 8 * (demo_screen.model.board_width * demo_screen.model.board_height) + 1 ≤ fuel →
        bfs_to_closest_tile_loop demo_screen.model
          { x := demo_screen.model.curr_pos.x_abs, y := demo_screen.model.curr_pos.y_abs }
          fuel
          [{ x := demo_screen.model.curr_pos.x_abs, y := demo_screen.model.curr_pos.y_abs }] [] =
          some r) :=
  bfs_loops_terminate demo_screen.model (by decide!) (by decide!) (by decide!)

/-- C23: on a board on which no tile other than the cursor position is Uncleared, the loop of
`bfs_to_closest_tile` runs until the deque is empty and never assigns `result`: the search
returns with `result` unassigned, with any fuel of at least `8 * width * height + 1` pops, and
neither the start nor any other position is returned. A jump of the play input callback then
reads the unassigned `result`, which is undefined. -/
theorem bfs_to_closest_tile_unassigned (inst : MineSweeperGameScreen) (event : InputEvent)
    (draws : List Nat)
    (hw : inst.model.board_width < 256) (hh : inst.model.board_height < 256)
    (hstart : in_bounds inst.model.board_width inst.model.board_height
      { x := inst.model.curr_pos.x_abs, y := inst.model.curr_pos.y_abs })
    (hnone : ∀ p, in_bounds inst.model.board_width inst.model.board_height p →
      p ≠ { x := inst.model.curr_pos.x_abs, y := inst.model.curr_pos.y_abs } →
      state_at inst.model p ≠ MineSweeperGameScreenTileState.Uncleared) :
    bfs_to_closest_tile inst.model = some none ∧
    (∀ fuel, 8 * (inst.model.board_width * inst.model.board_height) + 1 ≤ fuel →
      bfs_to_closest_tile_loop inst.model
        { x := inst.model.curr_pos.x_abs, y := inst.model.curr_pos.y_abs } fuel
        [{ x := inst.model.curr_pos.x_abs, y := inst.model.curr_pos.y_abs }] [] = some none) ∧
    (inst.callbacks = ViewCallbacks.play → event.key = InputKey.Back →
      (event.type = InputType.Long ∨ event.type = InputType.Repeat) →
      (inst.model.board (pos_1d inst.model.board_width inst.model.curr_pos.x_abs
        inst.model.curr_pos.y_abs)).tile_state = MineSweeperGameScreenTileState.Cleared →
      view_input event draws inst = none) := by
  obtain ⟨r, h1, hr⟩ := bfs_to_closest_tile_loop_terminates inst.model
    { x := inst.model.curr_pos.x_abs, y := inst.model.curr_pos.y_abs } hw hh
    (8 * (inst.model.board_width * inst.model.board_height) + 1)
    [{ x := inst.model.curr_pos.x_abs, y := inst.model.curr_pos.y_abs }] []
    List.nodup_nil (fun p hp => absurd hp (List.not_mem_nil _))
    (fun p hp => by rw [List.mem_singleton] at hp; exact hp ▸ hstart)
    (by simp only [List.length_singleton, List.length_nil]; omega)
  have hrn : r = none := by
    cases r with
    | none => rfl
    | some p =>
      obtain ⟨hpb, hpt⟩ := hr p rfl
      exact absurd hpt.1 (hnone p hpb hpt.2)
  subst hrn
  have hfun : bfs_to_closest_tile inst.model = some none := by
    unfold bfs_to_closest_tile
    exact bfs_to_closest_tile_loop_mono _ _ _ _ _ _ h1 _ (by unfold bfs_fuel; omega)
  refine ⟨hfun, fun fuel hf => bfs_to_closest_tile_loop_mono _ _ _ _ _ _ h1 fuel hf, ?_⟩
  intro hplay hk ht hs
  unfold view_input
  rw [hplay]
  simp only
  unfold mine_sweeper_game_screen_view_play_input_callback
  simp only
  have hnr : ¬ (event.key = InputKey.Back ∧ event.type = InputType.Release) := by
    rintro ⟨_, h⟩
    rcases ht with e | e <;> rw [e] at h <;> exact absurd h (by decide)
  rw [if_neg (by rw [hk]; decide), if_neg hnr, if_pos ⟨hk, ht⟩, if_pos hs, hfun]

theorem bfs_to_closest_tile_unassigned_witness :
    bfs_to_closest_tile demo_all_cleared.model = some none ∧
    (∀ fuel,
      8 * (demo_all_cleared.model.board_width * demo_all_cleared.model.board_height) + 1 ≤
        fuel →
      bfs_to_closest_tile_loop demo_all_cleared.model
        { x := demo_all_cleared.model.curr_pos.x_abs,
          y := demo_all_cleared.model.curr_pos.y_abs } fuel
        [{ x := demo_all_cleared.model.curr_pos.x_abs,
           y := demo_all_cleared.model.curr_pos.y_abs }] [] = some none) ∧
    (demo_all_cleared.callbacks = ViewCallbacks.play →
      ({ key := InputKey.Back, type := InputType.Long } : InputEvent).key = InputKey.Back →
      (({ key := InputKey.Back, type := InputType.Long } : InputEvent).type = InputType.Long ∨
        ({ key := InputKey.Back, type := InputType.Long } : InputEvent).type =
          InputType.Repeat) →
      (demo_all_cleared.model.board (pos_1d demo_all_cleared.model.board_width
        demo_all_cleared.model.curr_pos.x_abs
        demo_all_cleared.model.curr_pos.y_abs)).tile_state =
        MineSweeperGameScreenTileState.Cleared →
      view_input { key := InputKey.Back, type := InputType.Long } [] demo_all_cleared = none) :=
  bfs_to_closest_tile_unassigned demo_all_cleared { key := InputKey.Back, type := InputType.Long }
    [] (by decide) (by decide) (by decide)
    (fun p _ _ => by
      show MineSweeperGameScreenTileState.Cleared ≠ MineSweeperGameScreenTileState.Uncleared
      decide)

/-! ## A board without mines -/

/-- On a board whose tiles all have type Zero the flood fill reaches every position. -/
theorem zero_reach_all (model : MineSweeperGameScreenModel) (start : Point)
    (hw : model.board_width < 256) (hh : model.board_height < 256)
    (hs : in_bounds model.board_width model.board_height start)
    (hz : ∀ i, i < model.board_width * model.board_height →
      (model.board i).tile_type = MineSweeperGameScreenTileZero) :
    ∀ (d : Nat) (t : Point), in_bounds model.board_width model.board_height t →
      grid_distance start t = d → zero_reach model start t := by
  intro d
  induction d with
  | zero =>
    intro t _ hd
    have : t = start := by
      obtain ⟨tx, ty⟩ := t
      obtain ⟨sx, sy⟩ := start
      unfold grid_distance at hd
      simp only at hd
      simp only [Point.mk.injEq]
      omega
    rw [this]
    exact zero_reach.base
  | succ k ih =>
    intro t ht hd
    obtain ⟨q, hqb, hqd, hqn⟩ := exists_closer_neighbor _ _ start t k hs ht hd
    refine zero_reach.step q t (ih q hqb hqd) ?_ hqn
    unfold type_at
    exact hz _ (pos_1d_in_bounds _ _ hw hh q hqb).2.1

/-- On a board whose tiles all have type Zero the flood fill sets every tile to Cleared. -/
theorem flood_all_zero (model : MineSweeperGameScreenModel)
    (hw : model.board_width < 256) (hh : model.board_height < 256)
    (hstart : in_bounds model.board_width model.board_height
      { x := model.curr_pos.x_abs, y := model.curr_pos.y_abs })
    (hz : ∀ i, i < model.board_width * model.board_height →
      (model.board i).tile_type = MineSweeperGameScreenTileZero) :
    ∃ model1, bfs_tile_clear model = some model1 ∧ same_except_board model1 model ∧
      ∀ i, i < model.board_width * model.board_height →
        model1.board i = { model.board i with
          tile_state := MineSweeperGameScreenTileState.Cleared } := by
  obtain ⟨model1, set1, hrun, hci⟩ := bfs_tile_clear_post model hw hh hstart
  refine ⟨model1, hrun, hci.same, fun i hi => ?_⟩
  obtain ⟨hib, hip⟩ := index_in_bounds _ _ i hw hh hi
  have hreach := zero_reach_all model _ hw hh hstart hz _ _ hib rfl
  have hmem := clear_inv_complete model model1 _ set1 hci _ hreach
  have := hci.cleared _ hmem
  simp only [hip] at this
  exact this

/-- C22, as stated, fails: on a 4 x 4 board with every tile of type Zero and both counters 0,
with the play callbacks installed and the cursor on a Cleared tile, an Ok press returns the
game screen with the other fifteen tiles still Uncleared. -/
theorem reveal_on_cleared_tile_clears_nothing :
    demo_cursor_cleared.callbacks = ViewCallbacks.play ∧
    (∀ i, i < demo_cursor_cleared.model.board_width * demo_cursor_cleared.model.board_height →
      (demo_cursor_cleared.model.board i).tile_type = MineSweeperGameScreenTileZero) ∧
    demo_cursor_cleared.model.flags_left = 0 ∧ demo_cursor_cleared.model.mines_left = 0 ∧
    in_bounds demo_cursor_cleared.model.board_width demo_cursor_cleared.model.board_height
      { x := demo_cursor_cleared.model.curr_pos.x_abs,
        y := demo_cursor_cleared.model.curr_pos.y_abs } ∧
    (demo_cursor_cleared.model.board (pos_1d demo_cursor_cleared.model.board_width
      demo_cursor_cleared.model.curr_pos.x_abs
      demo_cursor_cleared.model.curr_pos.y_abs)).tile_state =
      MineSweeperGameScreenTileState.Cleared ∧
    (view_input { key := InputKey.Ok, type := InputType.Press } [] demo_cursor_cleared).map
      (fun s => (s.callbacks,
        count_tiles (s.model.board_width * s.model.board_height) s.model.board
          (fun t => decide (t.tile_state = MineSweeperGameScreenTileState.Uncleared)),
        (s.model.board 0).tile_state)) =
      some (ViewCallbacks.play, 15, MineSweeperGameScreenTileState.Uncleared) ∧
    ¬ ((view_input { key := InputKey.Ok, type := InputType.Press } []
        demo_cursor_cleared).map
      (fun s => decide (∀ i, i < s.model.board_width * s.model.board_height →
        (s.model.board i).tile_state = MineSweeperGameScreenTileState.Cleared)) =
      some true) := by
  decide!

/-- C22, amended: on a board of `uint8_t` size whose tiles all have type Zero, with the play
callbacks installed and the cursor on the board, an Ok press while the tile under the cursor
is Uncleared returns
with every tile of the board Cleared, whatever the states of the other tiles were, and leaves
the play callbacks installed and the cursor, the tile types, the board size and both counters
alone; an Ok press while the tile under the cursor is not Uncleared returns the game screen
unchanged. -/
theorem reveal_clears_mine_free_board (inst : MineSweeperGameScreen) (draws : List Nat)
    (hplay : inst.callbacks = ViewCallbacks.play)
    (hw : inst.model.board_width < 256) (hh : inst.model.board_height < 256)
    (hc : in_bounds inst.model.board_width inst.model.board_height
      { x := inst.model.curr_pos.x_abs, y := inst.model.curr_pos.y_abs })
    (hz : ∀ i, i < inst.model.board_width * inst.model.board_height →
      (inst.model.board i).tile_type = MineSweeperGameScreenTileZero) :
    ((inst.model.board (pos_1d inst.model.board_width inst.model.curr_pos.x_abs
        inst.model.curr_pos.y_abs)).tile_state = MineSweeperGameScreenTileState.Uncleared →
      ∃ inst1, view_input { key := InputKey.Ok, type := InputType.Press } draws inst =
          some inst1 ∧
        inst1.callbacks = ViewCallbacks.play ∧
        inst1.model.board_width = inst.model.board_width ∧
        inst1.model.board_height = inst.model.board_height ∧
        (∀ i, i < inst.model.board_width * inst.model.board_height →
          (inst1.model.board i).tile_state = MineSweeperGameScreenTileState.Cleared ∧
          (inst1.model.board i).tile_type = MineSweeperGameScreenTileZero) ∧
        inst1.model.curr_pos = inst.model.curr_pos ∧
        inst1.model.flags_left = inst.model.flags_left ∧
        inst1.model.mines_left = inst.model.mines_left) ∧
    ((inst.model.board (pos_1d inst.model.board_width inst.model.curr_pos.x_abs
        inst.model.curr_pos.y_abs)).tile_state ≠ MineSweeperGameScreenTileState.Uncleared →
      view_input { key := InputKey.Ok, type := InputType.Press } draws inst = some inst) := by
  have hidx := (pos_1d_in_bounds _ _ hw hh _ hc).2.1
  simp only at hidx
  have e1 : MineSweeperGameScreenTileZero = 1 := rfl
  have e10 : MineSweeperGameScreenTileMine = 10 := rfl
  have hnm : ¬ (inst.model.board (pos_1d inst.model.board_width inst.model.curr_pos.x_abs
      inst.model.curr_pos.y_abs)).tile_type = MineSweeperGameScreenTileMine := by
    rw [hz _ hidx]; omega
  constructor
  · intro hu
    obtain ⟨model1, hrun, hsame, hall⟩ := flood_all_zero
      { inst.model with
        board := upd inst.model.board
          (pos_1d inst.model.board_width inst.model.curr_pos.x_abs inst.model.curr_pos.y_abs)
          { inst.model.board (pos_1d inst.model.board_width inst.model.curr_pos.x_abs
              inst.model.curr_pos.y_abs) with
            tile_state := MineSweeperGameScreenTileState.Cleared } }
      hw hh hc
      (fun i hi => by
        simp only [upd_apply]
        split_ifs with hji
        · rw [← hji]; exact hz i hi
        · exact hz i hi)
    obtain ⟨s1, s2, s3, _, s5, s6, _, _⟩ := hsame
    refine ⟨{ inst with model := model1 }, ?_, hplay, s2, s3, fun i hi => ?_, s1, s6, s5⟩
    · unfold view_input
      rw [hplay]
      simp only
      unfold mine_sweeper_game_screen_view_play_input_callback
      simp only [if_true]
      rw [if_neg (fun h => hnm h.2), if_pos hu, hrun]
      simp only [hplay]
    · show (model1.board i).tile_state = MineSweeperGameScreenTileState.Cleared ∧
        (model1.board i).tile_type = MineSweeperGameScreenTileZero
      rw [hall i hi]
      simp only [upd_apply]
      refine ⟨trivial, ?_⟩
      split_ifs with hji
      · rw [← hji]; exact hz i hi
      · exact hz i hi
  · intro hnu
    unfold view_input
    rw [hplay]
    simp only
    unfold mine_sweeper_game_screen_view_play_input_callback
    simp only [if_true, hnu, false_and, if_false]

theorem reveal_clears_mine_free_board_witness :
    demo_mine_free.callbacks = ViewCallbacks.play ∧
    (∀ i, i < demo_mine_free.model.board_width * demo_mine_free.model.board_height →
      (demo_mine_free.model.board i).tile_type = MineSweeperGameScreenTileZero) ∧
    (demo_mine_free.model.board (pos_1d demo_mine_free.model.board_width
      demo_mine_free.model.curr_pos.x_abs demo_mine_free.model.curr_pos.y_abs)).tile_state =
      MineSweeperGameScreenTileState.Uncleared ∧
    ∃ inst1, view_input { key := InputKey.Ok, type := InputType.Press } [] demo_mine_free =
        some inst1 ∧
      inst1.callbacks = ViewCallbacks.play ∧
      inst1.model.board_width = demo_mine_free.model.board_width ∧
      inst1.model.board_height = demo_mine_free.model.board_height ∧
      (∀ i, i < demo_mine_free.model.board_width * demo_mine_free.model.board_height →
        (inst1.model.board i).tile_state = MineSweeperGameScreenTileState.Cleared ∧
        (inst1.model.board i).tile_type = MineSweeperGameScreenTileZero) ∧
      inst1.model.curr_pos = demo_mine_free.model.curr_pos ∧
      inst1.model.flags_left = demo_mine_free.model.flags_left ∧
      inst1.model.mines_left = demo_mine_free.model.mines_left :=
  ⟨rfl, fun _ _ => rfl, rfl,
    (reveal_clears_mine_free_board demo_mine_free [] rfl (by decide) (by decide) (by decide)
      (fun _ _ => rfl)).1 rfl⟩

/-! ## What one input does to the board -/

/-- The flag toggle changes at most the state of the tile it is applied to: a Flagged tile
becomes Uncleared, another tile becomes Flagged. -/
theorem toggle_flag_board (model : MineSweeperGameScreenModel) (idx : Nat) :
    (toggle_flag model idx).board_width = model.board_width ∧
    (toggle_flag model idx).board_height = model.board_height ∧
    (toggle_flag model idx).curr_pos = model.curr_pos ∧
    ∀ i, (toggle_flag model idx).board i = model.board i ∨
      (i = idx ∧ (model.board i).tile_state = MineSweeperGameScreenTileState.Flagged ∧
        (toggle_flag model idx).board i =
          { model.board i with tile_state := MineSweeperGameScreenTileState.Uncleared }) ∨
      (i = idx ∧ (model.board i).tile_state ≠ MineSweeperGameScreenTileState.Flagged ∧
        (toggle_flag model idx).board i =
          { model.board i with tile_state := MineSweeperGameScreenTileState.Flagged }) := by
  unfold toggle_flag
  simp only
  by_cases c1 : (model.board idx).tile_state = MineSweeperGameScreenTileState.Flagged
  · rw [if_pos c1]
    refine ⟨rfl, rfl, rfl, fun i => ?_⟩
    by_cases hi : i = idx
    · subst hi
      exact Or.inr (Or.inl ⟨rfl, c1, by simp only [upd_same]⟩)
    · exact Or.inl (upd_ne _ _ _ _ hi)
  · rw [if_neg c1]
    by_cases c2 : model.flags_left > 0
    · rw [if_pos c2]
      refine ⟨rfl, rfl, rfl, fun i => ?_⟩
      by_cases hi : i = idx
      · subst hi
        exact Or.inr (Or.inr ⟨rfl, c1, by simp only [upd_same]⟩)
      · exact Or.inl (upd_ne _ _ _ _ hi)
    · rw [if_neg c2]
      exact ⟨rfl, rfl, rfl, fun i => Or.inl rfl⟩

/-- What an input handled by the play input callback does to the board of a session state: it
leaves the board and the flag counter alone; or it is a reveal of an Uncleared tile, which
leaves the flag counter alone and sets tiles to Cleared, a Mine among them only when the lose
callbacks are installed; or it reaches the flag branch and applies the flag toggle. -/
theorem play_input_effect (event : InputEvent) (inst inst1 : MineSweeperGameScreen)
    (hinv : model_inv inst.model)
    (hrun : mine_sweeper_game_screen_view_play_input_callback event inst = some inst1) :
    inst1.model.board_width = inst.model.board_width ∧
    inst1.model.board_height = inst.model.board_height ∧
    ((inst1.model.board = inst.model.board ∧
        inst1.model.flags_left = inst.model.flags_left) ∨
      (event.key = InputKey.Ok ∧ event.type = InputType.Press ∧
        (inst.model.board (pos_1d inst.model.board_width inst.model.curr_pos.x_abs
          inst.model.curr_pos.y_abs)).tile_state = MineSweeperGameScreenTileState.Uncleared ∧
        inst1.model.flags_left = inst.model.flags_left ∧
        ∀ i, inst1.model.board i = inst.model.board i ∨
          (inst1.model.board i = { inst.model.board i with
              tile_state := MineSweeperGameScreenTileState.Cleared } ∧
            ((inst.model.board i).tile_type ≠ MineSweeperGameScreenTileMine ∨
              inst1.callbacks = ViewCallbacks.lose))) ∨
      (flag_check_made event inst.model ∧
        inst1.model = toggle_flag inst.model (pos_1d inst.model.board_width
          inst.model.curr_pos.x_abs inst.model.curr_pos.y_abs))) := by
  unfold flag_check_made
  unfold mine_sweeper_game_screen_view_play_input_callback at hrun
  simp only at hrun
  split_ifs at hrun with c1 c2 c3 c4 c5 c6 c7 c8 c9 c10
  · obtain rfl := Option.some.inj hrun
    refine ⟨rfl, rfl, Or.inr (Or.inl ⟨c1, c2, c3.1, rfl, fun i => ?_⟩)⟩
    by_cases hi : i = pos_1d inst.model.board_width inst.model.curr_pos.x_abs
        inst.model.curr_pos.y_abs
    · right
      subst hi
      exact ⟨by simp only [upd_same], Or.inr rfl⟩
    · exact Or.inl (upd_ne _ _ _ _ hi)
  · have hcl := clear_cursor_inv inst.model hinv c4
    split at hrun
    · exact absurd hrun (by simp)
    · rename_i model1 hbfs
      obtain rfl := Option.some.inj hrun
      have htype : ¬ (inst.model.board (pos_1d inst.model.board_width
          inst.model.curr_pos.x_abs inst.model.curr_pos.y_abs)).tile_type =
          MineSweeperGameScreenTileMine := fun hm => c3 ⟨c4, hm⟩
      obtain ⟨hsame, hcase⟩ := flood_cases _ model1 hcl.width_lt hcl.height_lt
        hcl.consistent hcl.cursor
        (by unfold type_at; simp only [upd_same]; exact htype) hbfs
      obtain ⟨_, s2, s3, _, _, s6, _, _⟩ := hsame
      refine ⟨s2, s3, Or.inr (Or.inl ⟨c1, c2, c4, s6, fun i => ?_⟩)⟩
      by_cases hi : i = pos_1d inst.model.board_width inst.model.curr_pos.x_abs
          inst.model.curr_pos.y_abs
      · right
        subst hi
        refine ⟨?_, Or.inl htype⟩
        rcases hcase _ with h | ⟨h, _⟩
        · rw [h]; simp only [upd_same]
        · rw [h]; simp only [upd_same]
      · rcases hcase i with h | ⟨h, hnm, _⟩
        · left
          rw [h]
          exact upd_ne _ _ _ _ hi
        · right
          simp only [upd_ne _ _ _ _ hi] at h hnm
          exact ⟨h, Or.inl hnm⟩
  · obtain rfl := Option.some.inj hrun
    exact ⟨rfl, rfl, Or.inl ⟨rfl, rfl⟩⟩
  · obtain rfl := Option.some.inj hrun
    exact ⟨rfl, rfl, Or.inl ⟨rfl, rfl⟩⟩
  · obtain rfl := Option.some.inj hrun
    exact ⟨rfl, rfl, Or.inl ⟨rfl, rfl⟩⟩
  · split at hrun
    · obtain rfl := Option.some.inj hrun
      exact ⟨rfl, rfl, Or.inl ⟨rfl, rfl⟩⟩
    · exact absurd hrun (by simp)
  · obtain rfl := Option.some.inj hrun
    simp only [Bool.not_eq_true] at c8
    obtain ⟨t1, t2, _, _⟩ := toggle_flag_board inst.model (pos_1d inst.model.board_width
      inst.model.curr_pos.x_abs inst.model.curr_pos.y_abs)
    exact ⟨t1, t2, Or.inr (Or.inr ⟨⟨c6.1, c6.2, c7, c8.1⟩, rfl⟩)⟩
  · obtain rfl := Option.some.inj hrun
    simp only [Bool.not_eq_true] at c8
    obtain ⟨t1, t2, _, _⟩ := toggle_flag_board inst.model (pos_1d inst.model.board_width
      inst.model.curr_pos.x_abs inst.model.curr_pos.y_abs)
    exact ⟨t1, t2, Or.inr (Or.inr ⟨⟨c6.1, c6.2, c7, c8.1⟩, rfl⟩)⟩
  · obtain rfl := Option.some.inj hrun
    exact ⟨rfl, rfl, Or.inl ⟨rfl, rfl⟩⟩
  · obtain rfl := Option.some.inj hrun
    obtain ⟨m1, m2, m3⟩ := move_cursor_board event.key inst.model
    refine ⟨m2, m3, Or.inl ⟨m1, ?_⟩⟩
    cases event.key <;> rfl
  · obtain rfl := Option.some.inj hrun
    exact ⟨rfl, rfl, Or.inl ⟨rfl, rfl⟩⟩

/-- An input handled by the play input callback in a session state changes no tile type. -/
theorem play_input_types (event : InputEvent) (inst inst1 : MineSweeperGameScreen)
    (hinv : model_inv inst.model)
    (hrun : mine_sweeper_game_screen_view_play_input_callback event inst = some inst1) :
    ∀ j, (inst1.model.board j).tile_type = (inst.model.board j).tile_type := by
  obtain ⟨_, _, h | ⟨_, _, _, _, h⟩ | ⟨_, h⟩⟩ := play_input_effect event inst inst1 hinv hrun
  · intro j; rw [h.1]
  · intro j
    rcases h j with e | ⟨e, _⟩ <;> rw [e]
  · intro j
    rw [h]
    obtain ⟨_, _, _, ht⟩ := toggle_flag_board inst.model (pos_1d inst.model.board_width
      inst.model.curr_pos.x_abs inst.model.curr_pos.y_abs)
    rcases ht j with e | ⟨_, _, e⟩ | ⟨_, _, e⟩ <;> rw [e]

/-! ## An Uncleared tile remains while the game is played -/

/-- After `setup_board` every tile of the board is Uncleared. -/
theorem setup_board_all_uncleared (draws : List Nat) (inst inst1 : MineSweeperGameScreen)
    (hw : inst.model.board_width < 256) (hh : inst.model.board_height < 256)
    (hs : setup_board draws inst = some inst1) :
    ∀ i, i < inst1.model.board_width * inst1.model.board_height →
      (inst1.model.board i).tile_state = MineSweeperGameScreenTileState.Uncleared := by
  obtain ⟨n, tiles, _, _, _, ew, eh, _, _, _, _, _, hb⟩ := setup_board_spec draws inst inst1 hw hh hs
  intro i hi
  rw [ew, eh] at hi
  rw [hb i, if_pos hi]

theorem setup_board_no_cleared_mine (draws : List Nat) (inst inst1 : MineSweeperGameScreen)
    (hw : inst.model.board_width < 256) (hh : inst.model.board_height < 256)
    (hs : setup_board draws inst = some inst1) : no_cleared_mine inst1 := by
  intro _ i hi _
  rw [setup_board_all_uncleared draws inst inst1 hw hh hs i hi]
  decide

theorem apply_action_no_cleared_mine (a : Action × List Nat)
    (inst inst1 : MineSweeperGameScreen) (hinv : model_inv inst.model)
    (hnc : no_cleared_mine inst) (hrun : apply_action a inst = some inst1) :
    no_cleared_mine inst1 := by
  unfold apply_action at hrun
  split at hrun
  · rename_i event ha
    unfold view_input at hrun
    split at hrun
    · rename_i hplay
      obtain ⟨ew, eh, heff⟩ := play_input_effect event inst inst1 hinv hrun
      have htypes := play_input_types event inst inst1 hinv hrun
      intro hplay1 i hi hm hc
      rw [ew, eh] at hi
      rw [htypes i] at hm
      have hold := hnc hplay i hi hm
      rcases heff with h | ⟨_, _, _, _, h⟩ | ⟨_, h⟩
      · rw [h.1] at hc
        exact hold hc
      · rcases h i with e | ⟨_, e | e⟩
        · rw [e] at hc; exact hold hc
        · exact e hm
        · rw [hplay1] at e; exact absurd e (by decide)
      · rw [h] at hc
        obtain ⟨_, _, _, ht⟩ := toggle_flag_board inst.model (pos_1d inst.model.board_width
          inst.model.curr_pos.x_abs inst.model.curr_pos.y_abs)
        rcases ht i with e | ⟨_, _, e⟩ | ⟨_, _, e⟩
        · rw [e] at hc; exact hold hc
        · rw [e] at hc; simp at hc
        · rw [e] at hc; simp at hc
    · rename_i hnplay
      unfold mine_sweeper_game_screen_view_end_input_callback at hrun
      split_ifs at hrun with c1
      · split at hrun
        · obtain rfl := Option.some.inj hrun
          exact fun hp => absurd hp (hnplay)
        · obtain rfl := Option.some.inj hrun
          exact fun hp => absurd hp (hnplay)
        · obtain rfl := Option.some.inj hrun
          exact fun hp => absurd hp (hnplay)
        · obtain rfl := Option.some.inj hrun
          exact fun hp => absurd hp (hnplay)
        · exact setup_board_no_cleared_mine a.2
            { callbacks := ViewCallbacks.play, model := inst.model } inst1
            hinv.width_lt hinv.height_lt hrun
      · obtain rfl := Option.some.inj hrun
        exact hnc
  · rename_i w h d ha
    unfold mine_sweeper_game_screen_reset at hrun
    obtain ⟨d1, d2, d3, d4, _⟩ := set_board_information_dims w h d inst
    exact setup_board_no_cleared_mine a.2 _ inst1 (by omega) (by omega) hrun

theorem run_actions_no_cleared_mine (actions : List (Action × List Nat)) :
    ∀ (inst inst1 : MineSweeperGameScreen), model_inv inst.model → no_cleared_mine inst →
      run_actions actions inst = some inst1 → no_cleared_mine inst1 := by
  induction actions with
  | nil =>
    intro inst inst1 _ hnc hrun
    simp only [run_actions, Option.some.injEq] at hrun
    exact hrun ▸ hnc
  | cons a rest ih =>
    intro inst inst1 hinv hnc hrun
    simp only [run_actions] at hrun
    split at hrun
    · exact absurd hrun (by simp)
    · rename_i inst2 h2
      exact ih inst2 inst1 (apply_action_inv a inst inst2 hinv h2)
        (apply_action_no_cleared_mine a inst inst2 hinv hnc h2) hrun

theorem session_no_cleared_mine (width height difficulty : Nat) (draws : List Nat)
    (model0 : MineSweeperGameScreenModel) (actions : List (Action × List Nat))
    (inst : MineSweeperGameScreen)
    (hrun : session width height difficulty draws model0 actions = some inst) :
    no_cleared_mine inst := by
  unfold session at hrun
  split at hrun
  · exact absurd hrun (by simp)
  · rename_i inst0 h0
    refine run_actions_no_cleared_mine actions inst0 inst (alloc_inv _ _ _ _ _ inst0 h0) ?_ hrun
    unfold mine_sweeper_game_screen_alloc at h0
    obtain ⟨d1, d2, d3, d4, _⟩ := set_board_information_dims width height difficulty
      { callbacks := ViewCallbacks.play, model := model0 }
    exact setup_board_no_cleared_mine draws _ inst0 (by omega) (by omega) h0

/-- A state with the play callbacks installed that satisfies the session invariants has an
Uncleared tile: otherwise every mine and nothing else would be Flagged, which only occurs with
the win callbacks installed. -/
theorem playing_has_uncleared (inst : MineSweeperGameScreen) (hinv : model_inv inst.model)
    (hph : phase_inv inst) (hnc : no_cleared_mine inst)
    (hplay : inst.callbacks = ViewCallbacks.play) :
    ∃ i, i < inst.model.board_width * inst.model.board_height ∧
      (inst.model.board i).tile_state = MineSweeperGameScreenTileState.Uncleared := by
  by_contra hno
  have hall : ∀ i, i < inst.model.board_width * inst.model.board_height →
      (inst.model.board i).tile_state ≠ MineSweeperGameScreenTileState.Uncleared :=
    fun i hi hu => hno ⟨i, hi, hu⟩
  have hmf : ∀ i, i < inst.model.board_width * inst.model.board_height →
      (inst.model.board i).tile_type = MineSweeperGameScreenTileMine →
      (inst.model.board i).tile_state = MineSweeperGameScreenTileState.Flagged := by
    intro i hi hm
    have h1 := hall i hi
    have h2 := hnc hplay i hi hm
    cases hs : (inst.model.board i).tile_state
    · rfl
    · exact absurd hs h1
    · exact absurd hs h2
  have hfm : flagged_mine_count inst.model = mine_total inst.model := by
    unfold flagged_mine_count mine_total
    apply count_tiles_congr
    intro i hi
    simp only [decide_eq_true_eq]
    exact ⟨fun h => h.2, fun h => ⟨hmf i hi h, h⟩⟩
  have h1 := hinv.mines_left
  have h2 := hinv.flags_left
  have h3 := flagged_mine_le_flagged inst.model
  have hwon := (win_check_iff inst.model hinv).1 ⟨by omega, by omega⟩
  have := hph.won_only hwon
  rw [hplay] at this
  exact absurd this (by decide)

/-- When some tile other than the cursor position is Uncleared, the nearest-tile search returns
an assigned result: an in-bounds Uncleared position other than the cursor position. -/
theorem bfs_to_closest_tile_finds (model : MineSweeperGameScreenModel) (v : Point)
    (hw : model.board_width < 256) (hh : model.board_height < 256)
    (hstart : in_bounds model.board_width model.board_height
      { x := model.curr_pos.x_abs, y := model.curr_pos.y_abs })
    (hv : in_bounds model.board_width model.board_height v)
    (hvne : v ≠ { x := model.curr_pos.x_abs, y := model.curr_pos.y_abs })
    (hvs : state_at model v = MineSweeperGameScreenTileState.Uncleared) :
    ∃ p, bfs_to_closest_tile model = some (some p) ∧
      in_bounds model.board_width model.board_height p ∧
      p ≠ { x := model.curr_pos.x_abs, y := model.curr_pos.y_abs } ∧
      state_at model p = MineSweeperGameScreenTileState.Uncleared := by
  have hinit : closest_inv model { x := model.curr_pos.x_abs, y := model.curr_pos.y_abs } 0
      [{ x := model.curr_pos.x_abs, y := model.curr_pos.y_abs }] [] [] :=
    { nodup := List.nodup_nil
      set_ok := fun p hp => absurd hp (List.not_mem_nil _)
      below := fun p _ hd => absurd hd (by omega)
      level := fun p _ hd => by
        right
        rw [List.mem_singleton]
        obtain ⟨px, py⟩ := p
        unfold grid_distance at hd
        simp only at hd
        simp only [Point.mk.injEq]
        omega
      a_ok := fun p hp => by
        rw [List.mem_singleton] at hp
        subst hp
        refine ⟨hstart, ?_⟩
        unfold grid_distance
        simp
      b_ok := fun p hp => absurd hp (List.not_mem_nil _)
      next := fun p hp => absurd hp (List.not_mem_nil _) }
  obtain ⟨p, hrun, hpb, hpt, _⟩ :=
    bfs_to_closest_tile_loop_spec model _ v hw hh hstart hv ⟨hvs, hvne⟩ (bfs_fuel model)
      [{ x := model.curr_pos.x_abs, y := model.curr_pos.y_abs }] []
      ⟨0, _, [], by simp, hinit⟩
      (by simp only [bfs_fuel, List.length_singleton, List.length_nil]; omega)
  exact ⟨p, hrun, hpb, hpt.2, hpt.1⟩

/-- In a state with the play callbacks installed that satisfies the session invariants, with
the cursor on a Cleared tile, the nearest-tile search returns an assigned result. -/
theorem jump_finds (inst : MineSweeperGameScreen) (hinv : model_inv inst.model)
    (hph : phase_inv inst) (hnc : no_cleared_mine inst)
    (hplay : inst.callbacks = ViewCallbacks.play)
    (hcl : (inst.model.board (pos_1d inst.model.board_width inst.model.curr_pos.x_abs
      inst.model.curr_pos.y_abs)).tile_state = MineSweeperGameScreenTileState.Cleared) :
    ∃ res, bfs_to_closest_tile inst.model = some (some res) ∧
      in_bounds inst.model.board_width inst.model.board_height res ∧
      res ≠ { x := inst.model.curr_pos.x_abs, y := inst.model.curr_pos.y_abs } ∧
      state_at inst.model res = MineSweeperGameScreenTileState.Uncleared := by
  obtain ⟨i, hi, hu⟩ := playing_has_uncleared inst hinv hph hnc hplay
  obtain ⟨hib, hip⟩ := index_in_bounds _ _ i hinv.width_lt hinv.height_lt hi
  refine bfs_to_closest_tile_finds inst.model _ hinv.width_lt hinv.height_lt hinv.cursor hib
    ?_ ?_
  · intro heq
    have h1 : pos_1d inst.model.board_width inst.model.curr_pos.x_abs
        inst.model.curr_pos.y_abs = i := by
      rw [← hip]
      simp only [Point.mk.injEq] at heq
      rw [heq.1, heq.2]
    rw [h1, hu] at hcl
    exact absurd hcl (by decide)
  · unfold state_at
    simp only [hip]
    exact hu

/-- In a state with the play callbacks installed that satisfies the session invariants, every
input event is handled: the play input callback returns. -/
theorem play_input_total (event : InputEvent) (inst : MineSweeperGameScreen)
    (hinv : model_inv inst.model) (hph : phase_inv inst) (hnc : no_cleared_mine inst)
    (hplay : inst.callbacks = ViewCallbacks.play) :
    ∃ inst1, mine_sweeper_game_screen_view_play_input_callback event inst = some inst1 := by
  unfold mine_sweeper_game_screen_view_play_input_callback
  simp only
  split_ifs with c1 c2 c3 c4 c5 c6 c7 c8 c9 c10
  · exact ⟨_, rfl⟩
  · have hcl := clear_cursor_inv inst.model hinv c4
    obtain ⟨model1, _, hrun, _⟩ := bfs_tile_clear_post _ hcl.width_lt hcl.height_lt hcl.cursor
    rw [hrun]
    exact ⟨_, rfl⟩
  · exact ⟨_, rfl⟩
  · exact ⟨_, rfl⟩
  · exact ⟨_, rfl⟩
  · obtain ⟨res, hrun, _⟩ := jump_finds inst hinv hph hnc hplay c7
    rw [hrun]
    exact ⟨_, rfl⟩
  · exact ⟨_, rfl⟩
  · exact ⟨_, rfl⟩
  · exact ⟨_, rfl⟩
  · exact ⟨_, rfl⟩
  · exact ⟨_, rfl⟩

theorem demo_after_reveal_run :
    session 16 7 0 demo_draws zero_model demo_actions = some demo_after_reveal :=
  option_eq_some_getD _ _ (by decide!)

/-- C21: in every state of a session with the play callbacks installed, every input event is
handled, and whatever it does (a reveal with its flood fill, a flag toggle, a cursor move, a
jump) the type of every tile and the size of the board are afterwards what they were
before. -/
theorem player_action_keeps_tile_types (width height difficulty : Nat) (draws : List Nat)
    (model0 : MineSweeperGameScreenModel) (actions : List (Action × List Nat))
    (inst : MineSweeperGameScreen) (event : InputEvent) (draws1 : List Nat)
    (hrun : session width height difficulty draws model0 actions = some inst)
    (hplay : inst.callbacks = ViewCallbacks.play) :
    ∃ inst1, view_input event draws1 inst = some inst1 ∧
      (∀ j, (inst1.model.board j).tile_type = (inst.model.board j).tile_type) ∧
      inst1.model.board_width = inst.model.board_width ∧
      inst1.model.board_height = inst.model.board_height := by
  have hinv := session_inv width height difficulty draws model0 actions inst hrun
  have hph := session_phase_inv width height difficulty draws model0 actions inst hrun
  have hnc := session_no_cleared_mine width height difficulty draws model0 actions inst hrun
  obtain ⟨inst1, hstep⟩ := play_input_total event inst hinv hph hnc hplay
  obtain ⟨ew, eh, _⟩ := play_input_effect event inst inst1 hinv hstep
  refine ⟨inst1, ?_, play_input_types event inst inst1 hinv hstep, ew, eh⟩
  unfold view_input
  rw [hplay]
  exact hstep

theorem player_action_keeps_tile_types_witness :
    session 16 7 0 demo_draws zero_model (demo_actions.take 4) = some demo_before_reveal ∧
    demo_before_reveal.callbacks = ViewCallbacks.play ∧
    ∃ inst1, view_input { key := InputKey.Ok, type := InputType.Press } [] demo_before_reveal =
        some inst1 ∧
      (∀ j, (inst1.model.board j).tile_type = (demo_before_reveal.model.board j).tile_type) ∧
      inst1.model.board_width = demo_before_reveal.model.board_width ∧
      inst1.model.board_height = demo_before_reveal.model.board_height := by
  have hp : demo_before_reveal.callbacks = ViewCallbacks.play := by decide!
  exact ⟨demo_before_reveal_run, hp,
    player_action_keeps_tile_types 16 7 0 demo_draws zero_model (demo_actions.take 4)
      demo_before_reveal { key := InputKey.Ok, type := InputType.Press } []
      demo_before_reveal_run hp⟩

/-- C27: in every state of a session with the play callbacks installed the board holds at
least one mine and at least one tile is Uncleared. So a jump (a long or repeated Back with the
cursor on a Cleared tile) finds `bfs_to_closest_tile` returning an assigned result, and the
cursor it writes back is an in-bounds position, other than the old one, whose tile is
Uncleared; the board and the installed callbacks stay as they are. -/
theorem playing_jump_assigns (width height difficulty : Nat) (draws : List Nat)
    (model0 : MineSweeperGameScreenModel) (actions : List (Action × List Nat))
    (inst : MineSweeperGameScreen)
    (hrun : session width height difficulty draws model0 actions = some inst)
    (hplay : inst.callbacks = ViewCallbacks.play) :
    1 ≤ mine_total inst.model ∧
    (∃ i, i < inst.model.board_width * inst.model.board_height ∧
      (inst.model.board i).tile_state = MineSweeperGameScreenTileState.Uncleared) ∧
    ∀ (event : InputEvent) (draws1 : List Nat), event.key = InputKey.Back →
      (event.type = InputType.Long ∨ event.type = InputType.Repeat) →
      (inst.model.board (pos_1d inst.model.board_width inst.model.curr_pos.x_abs
        inst.model.curr_pos.y_abs)).tile_state = MineSweeperGameScreenTileState.Cleared →
      ∃ inst1 res, bfs_to_closest_tile inst.model = some (some res) ∧
        view_input event draws1 inst = some inst1 ∧
        inst1.callbacks = ViewCallbacks.play ∧
        inst1.model.board = inst.model.board ∧
        inst1.model.board_width = inst.model.board_width ∧
        inst1.model.board_height = inst.model.board_height ∧
        inst1.model.curr_pos = { x_abs := res.x, y_abs := res.y } ∧
        in_bounds inst1.model.board_width inst1.model.board_height
          { x := inst1.model.curr_pos.x_abs, y := inst1.model.curr_pos.y_abs } ∧
        inst1.model.curr_pos ≠ inst.model.curr_pos ∧
        (inst1.model.board (pos_1d inst1.model.board_width inst1.model.curr_pos.x_abs
          inst1.model.curr_pos.y_abs)).tile_state =
          MineSweeperGameScreenTileState.Uncleared := by
  have hinv := session_inv width height difficulty draws model0 actions inst hrun
  have hph := session_phase_inv width height difficulty draws model0 actions inst hrun
  have hnc := session_no_cleared_mine width height difficulty draws model0 actions inst hrun
  obtain ⟨hlo, hhi⟩ := supported_tile_count _ _ hph.width_ge hph.width_le hph.height_ge
    hph.height_le
  refine ⟨num_mines_of_pos _ _ _ hlo hhi hinv.mines,
    playing_has_uncleared inst hinv hph hnc hplay, ?_⟩
  intro event draws1 hk ht hcl
  obtain ⟨res, hbfs, hrb, hrne, hrs⟩ := jump_finds inst hinv hph hnc hplay hcl
  have hnr : ¬ (event.key = InputKey.Back ∧ event.type = InputType.Release) := by
    rintro ⟨_, h⟩
    rcases ht with e | e <;> rw [e] at h <;> exact absurd h (by decide)
  refine ⟨{ inst with model := { inst.model with
      curr_pos := { x_abs := res.x, y_abs := res.y }
      is_holding_down_button := true } }, res, hbfs, ?_, hplay, rfl, rfl, rfl, rfl, hrb, ?_, hrs⟩
  · unfold view_input
    rw [hplay]
    simp only
    unfold mine_sweeper_game_screen_view_play_input_callback
    simp only
    rw [if_neg (by rw [hk]; decide), if_neg hnr, if_pos ⟨hk, ht⟩, if_pos hcl, hbfs]
    simp only [hplay]
  · intro heq
    apply hrne
    have h1 : res.x = inst.model.curr_pos.x_abs := congrArg CurrentPosition.x_abs heq
    have h2 : res.y = inst.model.curr_pos.y_abs := congrArg CurrentPosition.y_abs heq
    obtain ⟨rx, ry⟩ := res
    simp only at h1 h2
    rw [h1, h2]

theorem playing_jump_assigns_witness :
    session 16 7 0 demo_draws zero_model demo_actions = some demo_after_reveal ∧
    demo_after_reveal.callbacks = ViewCallbacks.play ∧
    (demo_after_reveal.model.board (pos_1d demo_after_reveal.model.board_width
      demo_after_reveal.model.curr_pos.x_abs
      demo_after_reveal.model.curr_pos.y_abs)).tile_state =
      MineSweeperGameScreenTileState.Cleared ∧
    1 ≤ mine_total demo_after_reveal.model ∧
    (∃ i, i < demo_after_reveal.model.board_width * demo_after_reveal.model.board_height ∧
      (demo_after_reveal.model.board i).tile_state =
        MineSweeperGameScreenTileState.Uncleared) ∧
    ∃ inst1 res, bfs_to_closest_tile demo_after_reveal.model = some (some res) ∧
      view_input { key := InputKey.Back, type := InputType.Long } [] demo_after_reveal =
        some inst1 ∧
      inst1.callbacks = ViewCallbacks.play ∧
      inst1.model.board = demo_after_reveal.model.board ∧
      inst1.model.board_width = demo_after_reveal.model.board_width ∧
      inst1.model.board_height = demo_after_reveal.model.board_height ∧
      inst1.model.curr_pos = { x_abs := res.x, y_abs := res.y } ∧
      in_bounds inst1.model.board_width inst1.model.board_height
        { x := inst1.model.curr_pos.x_abs, y := inst1.model.curr_pos.y_abs } ∧
      inst1.model.curr_pos ≠ demo_after_reveal.model.curr_pos ∧
      (inst1.model.board (pos_1d inst1.model.board_width inst1.model.curr_pos.x_abs
        inst1.model.curr_pos.y_abs)).tile_state =
        MineSweeperGameScreenTileState.Uncleared := by
  have hp : demo_after_reveal.callbacks = ViewCallbacks.play ∧
      (demo_after_reveal.model.board (pos_1d demo_after_reveal.model.board_width
        demo_after_reveal.model.curr_pos.x_abs
        demo_after_reveal.model.curr_pos.y_abs)).tile_state =
        MineSweeperGameScreenTileState.Cleared := by decide!
  have h := playing_jump_assigns 16 7 0 demo_draws zero_model demo_actions demo_after_reveal
    demo_after_reveal_run hp.1
  exact ⟨demo_after_reveal_run, hp.1, hp.2, h.1, h.2.1,
    h.2.2 { key := InputKey.Back, type := InputType.Long } [] rfl (Or.inl rfl) hp.2⟩

/-! ## The flag counter and the flags on the board -/

theorem run_swallowed_fst (actions : List (Action × List Nat)) :
    ∀ (inst : MineSweeperGameScreen) (k : Nat),
      (run_swallowed actions inst k).map Prod.fst = run_actions actions inst := by
  induction actions with
  | nil => intro inst k; rfl
  | cons a rest ih =>
    intro inst k
    simp only [run_swallowed, run_actions]
    cases apply_action a inst with
    | none => rfl
    | some inst1 => exact ih inst1 _

theorem session_swallowed_fst (width height difficulty : Nat) (draws : List Nat)
    (model0 : MineSweeperGameScreenModel) (actions : List (Action × List Nat)) :
    (session_swallowed width height difficulty draws model0 actions).map Prod.fst =
      session width height difficulty draws model0 actions := by
  unfold session_swallowed session
  cases mine_sweeper_game_screen_alloc width height difficulty draws model0 with
  | none => rfl
  | some inst => exact run_swallowed_fst actions inst 0

/-- When every tile is left as it is or set to Cleared, the Flagged tiles before are the
Flagged tiles after and the Flagged tiles that were set to Cleared. -/
theorem flagged_split (n : Nat) (b b1 : Nat → MineSweeperTile)
    (h : ∀ i, i < n → b1 i = b i ∨
      b1 i = { b i with tile_state := MineSweeperGameScreenTileState.Cleared }) :
    count_tiles n b (fun t => decide (t.tile_state = MineSweeperGameScreenTileState.Flagged)) =
      count_tiles n b1
        (fun t => decide (t.tile_state = MineSweeperGameScreenTileState.Flagged)) +
      count_tiles n (fun i => (b i, b1 i))
        (fun t => decide (t.1.tile_state = MineSweeperGameScreenTileState.Flagged ∧
          t.2.tile_state = MineSweeperGameScreenTileState.Cleared)) := by
  induction n with
  | zero => simp [count_tiles]
  | succ n ih =>
    rw [count_tiles_succ, count_tiles_succ, count_tiles_succ, ih (fun i hi => h i (by omega))]
    rcases h n (by omega) with e | e
    · rw [e]
      by_cases hf : (b n).tile_state = MineSweeperGameScreenTileState.Flagged
      · simp [hf]
        omega
      · simp [hf]
    · rw [e]
      by_cases hf : (b n).tile_state = MineSweeperGameScreenTileState.Flagged
      · simp [hf]
        omega
      · simp [hf]

theorem swallowed_count_zero (model model1 : MineSweeperGameScreenModel)
    (h : ∀ i, i < model.board_width * model.board_height →
      (model.board i).tile_state = MineSweeperGameScreenTileState.Flagged →
      (model1.board i).tile_state ≠ MineSweeperGameScreenTileState.Cleared) :
    swallowed_count model model1 = 0 := by
  unfold swallowed_count
  apply count_tiles_zero
  intro i hi
  simp only [decide_eq_true_eq]
  exact fun hc => h i hi hc.1 hc.2

theorem mine_total_congr (model model1 : MineSweeperGameScreenModel)
    (ew : model1.board_width = model.board_width)
    (eh : model1.board_height = model.board_height)
    (ht : ∀ j, (model1.board j).tile_type = (model.board j).tile_type) :
    mine_total model1 = mine_total model := by
  unfold mine_total
  rw [ew, eh]
  apply count_tiles_congr
  intro i _
  rw [ht i]

/-- A freshly generated board: the flag counter is the number of mines and no tile is
Flagged. -/
theorem setup_board_flag_balance (draws : List Nat) (inst inst1 : MineSweeperGameScreen)
    (hw : inst.model.board_width < 256) (hh : inst.model.board_height < 256)
    (hs : setup_board draws inst = some inst1) :
    inst1.model.flags_left + flagged_count inst1.model + 0 = mine_total inst1.model := by
  obtain ⟨n, tiles, hn, _, _, ew, eh, ed, _, _, hf, _, _⟩ :=
    setup_board_spec draws inst inst1 hw hh hs
  have htot := setup_board_mine_total_eq draws inst inst1 hw hh hs
  rw [ew, eh, ed, hn] at htot
  have hnn : n = mine_total inst1.model := Option.some.inj htot
  have hfc : flagged_count inst1.model = 0 := by
    unfold flagged_count
    apply count_tiles_zero
    intro i hi
    rw [setup_board_all_uncleared draws inst inst1 hw hh hs i hi]
    decide
  omega

/-- The flag toggle in a session state keeps the sum of the flag counter and the number of
Flagged tiles, and sets no tile to Cleared. -/
theorem toggle_flag_balance (model : MineSweeperGameScreenModel) (hinv : model_inv model) :
    (toggle_flag model (pos_1d model.board_width model.curr_pos.x_abs
        model.curr_pos.y_abs)).flags_left +
      flagged_count (toggle_flag model (pos_1d model.board_width model.curr_pos.x_abs
        model.curr_pos.y_abs)) = model.flags_left + flagged_count model ∧
    swallowed_count model (toggle_flag model (pos_1d model.board_width model.curr_pos.x_abs
      model.curr_pos.y_abs)) = 0 := by
  have hi := cursor_index_lt model hinv
  have hmt := mine_total_lt model hinv
  have h2 := hinv.flags_left
  constructor
  · generalize pos_1d model.board_width model.curr_pos.x_abs model.curr_pos.y_abs = i at hi
    unfold toggle_flag
    simp only
    by_cases c1 : (model.board i).tile_state = MineSweeperGameScreenTileState.Flagged
    · rw [if_pos c1]
      have hu := count_tiles_upd (model.board_width * model.board_height) model.board
        (fun t => decide (t.tile_state = MineSweeperGameScreenTileState.Flagged)) i
        { model.board i with tile_state := MineSweeperGameScreenTileState.Uncleared } hi
      simp only [c1, decide_True, if_true] at hu
      have hne : ¬ MineSweeperGameScreenTileState.Uncleared =
          MineSweeperGameScreenTileState.Flagged := by decide
      simp only [hne, decide_False, Bool.false_eq_true, if_false] at hu
      unfold flagged_count
      simp only
      unfold flagged_count at h2
      omega
    · rw [if_neg c1]
      by_cases c2 : model.flags_left > 0
      · rw [if_pos c2]
        have hu := count_tiles_upd (model.board_width * model.board_height) model.board
          (fun t => decide (t.tile_state = MineSweeperGameScreenTileState.Flagged)) i
          { model.board i with tile_state := MineSweeperGameScreenTileState.Flagged } hi
        simp only [c1, decide_False, Bool.false_eq_true, if_false, decide_True, if_true] at hu
        unfold flagged_count
        simp only
        unfold flagged_count at h2
        omega
      · rw [if_neg c2]
  · apply swallowed_count_zero
    intro i _ hf
    obtain ⟨_, _, _, ht⟩ := toggle_flag_board model (pos_1d model.board_width
      model.curr_pos.x_abs model.curr_pos.y_abs)
    rcases ht i with e | ⟨_, _, e⟩ | ⟨_, _, e⟩
    · rw [e, hf]; decide
    · rw [e]; simp
    · rw [e]; simp

/-- A step that leaves the board, its size and the flag counter alone keeps the balance of
flags and turns no Flagged tile to Cleared. -/
theorem same_board_balance (model model1 : MineSweeperGameScreenModel) (k : Nat)
    (eb : model1.board = model.board) (ew : model1.board_width = model.board_width)
    (eh : model1.board_height = model.board_height)
    (ef : model1.flags_left = model.flags_left)
    (hbal : model.flags_left + flagged_count model + k = mine_total model) :
    swallowed_count model model1 = 0 ∧
    model1.flags_left + flagged_count model1 + (k + swallowed_count model model1) =
      mine_total model1 := by
  have hz : swallowed_count model model1 = 0 := by
    apply swallowed_count_zero
    intro i _ hf
    rw [eb, hf]
    decide
  have hfc : flagged_count model1 = flagged_count model := by
    unfold flagged_count
    rw [eb, ew, eh]
  have hmt : mine_total model1 = mine_total model :=
    mine_total_congr model model1 ew eh (fun j => by rw [eb])
  refine ⟨hz, ?_⟩
  rw [hz, hfc, hmt, ef]
  omega

/-- The reveal of an Uncleared Mine sets that tile to Cleared and changes no other tile. -/
theorem reveal_mine_board (event : InputEvent) (inst inst1 : MineSweeperGameScreen)
    (hrm : reveals_mine event inst.model)
    (hrun : mine_sweeper_game_screen_view_play_input_callback event inst = some inst1) :
    inst1.model.board = upd inst.model.board
      (pos_1d inst.model.board_width inst.model.curr_pos.x_abs inst.model.curr_pos.y_abs)
      { inst.model.board (pos_1d inst.model.board_width inst.model.curr_pos.x_abs
          inst.model.curr_pos.y_abs) with
        tile_state := MineSweeperGameScreenTileState.Cleared } := by
  obtain ⟨c1, c2, c3, c4⟩ := hrm
  unfold mine_sweeper_game_screen_view_play_input_callback at hrun
  simp only at hrun
  rw [if_pos c1, if_pos c2, if_pos ⟨c3, c4⟩] at hrun
  obtain rfl := Option.some.inj hrun
  rfl

/-- What a step handled by the play input callback does to the balance of flags: the flag
counter, the Flagged tiles and the Flagged tiles turned to Cleared by the step add up to what
the flag counter and the Flagged tiles were before; and a Flagged tile is turned to Cleared
only by the reveal of an Uncleared tile that is not a Mine. -/
theorem play_input_flag_balance (event : InputEvent) (inst inst1 : MineSweeperGameScreen)
    (hinv : model_inv inst.model)
    (hrun : mine_sweeper_game_screen_view_play_input_callback event inst = some inst1) :
    mine_total inst1.model = mine_total inst.model ∧
    inst1.model.flags_left + flagged_count inst1.model +
      swallowed_count inst.model inst1.model =
      inst.model.flags_left + flagged_count inst.model ∧
    (0 < swallowed_count inst.model inst1.model →
      event.key = InputKey.Ok ∧ event.type = InputType.Press ∧
      (inst.model.board (pos_1d inst.model.board_width inst.model.curr_pos.x_abs
        inst.model.curr_pos.y_abs)).tile_state = MineSweeperGameScreenTileState.Uncleared ∧
      (inst.model.board (pos_1d inst.model.board_width inst.model.curr_pos.x_abs
        inst.model.curr_pos.y_abs)).tile_type ≠ MineSweeperGameScreenTileMine) := by
  obtain ⟨ew, eh, heff⟩ := play_input_effect event inst inst1 hinv hrun
  have hmt := mine_total_congr inst.model inst1.model ew eh
    (play_input_types event inst inst1 hinv hrun)
  refine ⟨hmt, ?_⟩
  rcases heff with ⟨eb, ef⟩ | ⟨c1, c2, c3, ef, hcase⟩ | ⟨hfc, hm⟩
  · have hz : swallowed_count inst.model inst1.model = 0 := by
      apply swallowed_count_zero
      intro i _ hf
      rw [eb, hf]
      decide
    have hfc : flagged_count inst1.model = flagged_count inst.model := by
      unfold flagged_count
      rw [eb, ew, eh]
    rw [hz, hfc, ef]
    exact ⟨rfl, fun h => absurd h (by omega)⟩
  · have hsplit := flagged_split (inst.model.board_width * inst.model.board_height)
      inst.model.board inst1.model.board
      (fun i _ => by
        rcases hcase i with e | ⟨e, _⟩
        · exact Or.inl e
        · exact Or.inr e)
    have hfc1 : flagged_count inst1.model =
        count_tiles (inst.model.board_width * inst.model.board_height) inst1.model.board
          (fun t => decide (t.tile_state = MineSweeperGameScreenTileState.Flagged)) := by
      unfold flagged_count
      rw [ew, eh]
    refine ⟨?_, fun hpos => ⟨c1, c2, c3, fun hmine => ?_⟩⟩
    · rw [hfc1, ef]
      unfold flagged_count swallowed_count
      omega
    · have hb := reveal_mine_board event inst inst1 ⟨c1, c2, c3, hmine⟩ hrun
      have hz : swallowed_count inst.model inst1.model = 0 := by
        apply swallowed_count_zero
        intro i _ hf
        rw [hb]
        by_cases hi : i = pos_1d inst.model.board_width inst.model.curr_pos.x_abs
            inst.model.curr_pos.y_abs
        · rw [hi, c3] at hf
          exact absurd hf (by decide)
        · rw [upd_ne _ _ _ _ hi, hf]
          decide
      omega
  · obtain ⟨hb, hz⟩ := toggle_flag_balance inst.model hinv
    rw [hm, hz, hb]
    exact ⟨rfl, fun h => absurd h (by omega)⟩

/-- One action keeps the balance of flags: the flag counter, the Flagged tiles and the count
of Flagged tiles turned to Cleared since the board was generated add up to the number of
mines. -/
theorem apply_action_flag_balance (a : Action × List Nat)
    (inst inst1 : MineSweeperGameScreen) (k : Nat) (hinv : model_inv inst.model)
    (hbal : inst.model.flags_left + flagged_count inst.model + k = mine_total inst.model)
    (hrun : apply_action a inst = some inst1) :
    inst1.model.flags_left + flagged_count inst1.model +
      (if generates_board a inst then 0
        else k + swallowed_count inst.model inst1.model) = mine_total inst1.model ∧
    (0 < swallowed_count inst.model inst1.model → generates_board a inst ∨
      (inst.callbacks = ViewCallbacks.play ∧
        ∃ event, a.1 = Action.input event ∧
          event.key = InputKey.Ok ∧ event.type = InputType.Press ∧
          (inst.model.board (pos_1d inst.model.board_width inst.model.curr_pos.x_abs
            inst.model.curr_pos.y_abs)).tile_state =
            MineSweeperGameScreenTileState.Uncleared ∧
          (inst.model.board (pos_1d inst.model.board_width inst.model.curr_pos.x_abs
            inst.model.curr_pos.y_abs)).tile_type ≠ MineSweeperGameScreenTileMine)) := by
  unfold apply_action at hrun
  split at hrun
  · rename_i event ha
    unfold view_input at hrun
    split at hrun
    · rename_i hplay
      have hg : ¬ generates_board a inst := by
        unfold generates_board
        rw [ha]
        simp only [hplay, ne_eq, not_true_eq_false, false_and, not_false_eq_true]
      rw [if_neg hg]
      obtain ⟨hmt, hb, hsw⟩ := play_input_flag_balance event inst inst1 hinv hrun
      exact ⟨by omega, fun hpos => Or.inr ⟨hplay, event, ha, hsw hpos⟩⟩
    · rename_i hnplay
      unfold mine_sweeper_game_screen_view_end_input_callback at hrun
      have hmove : ∀ key, is_direction key → event.key = key →
          inst1 = { callbacks := inst.callbacks, model := move_cursor key inst.model } →
          inst1.model.flags_left + flagged_count inst1.model +
            (if generates_board a inst then 0
              else k + swallowed_count inst.model inst1.model) = mine_total inst1.model ∧
          (0 < swallowed_count inst.model inst1.model → generates_board a inst ∨
            (inst.callbacks = ViewCallbacks.play ∧
              ∃ event, a.1 = Action.input event ∧
                event.key = InputKey.Ok ∧ event.type = InputType.Press ∧
                (inst.model.board (pos_1d inst.model.board_width inst.model.curr_pos.x_abs
                  inst.model.curr_pos.y_abs)).tile_state =
                  MineSweeperGameScreenTileState.Uncleared ∧
                (inst.model.board (pos_1d inst.model.board_width inst.model.curr_pos.x_abs
                  inst.model.curr_pos.y_abs)).tile_type ≠ MineSweeperGameScreenTileMine)) := by
        intro key hdir hk h1
        subst h1
        have hg : ¬ generates_board a inst := by
          unfold generates_board
          rw [ha]
          simp only
          rw [hk]
          exact fun h => h.2.2 hdir
        rw [if_neg hg]
        obtain ⟨m1, m2, m3⟩ := move_cursor_board key inst.model
        have mf : (move_cursor key inst.model).flags_left = inst.model.flags_left := by
          cases key <;> rfl
        obtain ⟨hz, hb⟩ := same_board_balance inst.model (move_cursor key inst.model) k
          m1 m2 m3 mf hbal
        exact ⟨hb, fun hpos => absurd hpos (by simp only at hz ⊢; omega)⟩
      split_ifs at hrun with c1
      · split at hrun
        · rename_i hk
          exact hmove InputKey.Up (Or.inl rfl) hk (Option.some.inj hrun).symm
        · rename_i hk
          exact hmove InputKey.Down (Or.inr (Or.inl rfl)) hk (Option.some.inj hrun).symm
        · rename_i hk
          exact hmove InputKey.Left (Or.inr (Or.inr (Or.inl rfl))) hk
            (Option.some.inj hrun).symm
        · rename_i hk
          exact hmove InputKey.Right (Or.inr (Or.inr (Or.inr rfl))) hk
            (Option.some.inj hrun).symm
        · rename_i n1 n2 n3 n4
          have hg : generates_board a inst := by
            unfold generates_board
            rw [ha]
            refine ⟨hnplay, c1, ?_⟩
            rintro (h | h | h | h)
            · exact n1 h
            · exact n2 h
            · exact n3 h
            · exact n4 h
          rw [if_pos hg]
          exact ⟨setup_board_flag_balance a.2
            { callbacks := ViewCallbacks.play, model := inst.model } inst1
            hinv.width_lt hinv.height_lt hrun, fun _ => Or.inl hg⟩
      · obtain rfl := Option.some.inj hrun
        have hg : ¬ generates_board a inst := by
          unfold generates_board
          rw [ha]
          exact fun h => c1 h.2.1
        rw [if_neg hg]
        obtain ⟨hz, hb⟩ := same_board_balance inst.model inst.model k rfl rfl rfl rfl hbal
        exact ⟨hb, fun hpos => absurd hpos (by omega)⟩
  · rename_i w h d ha
    have hg : generates_board a inst := by
      unfold generates_board
      rw [ha]
      trivial
    rw [if_pos hg]
    unfold mine_sweeper_game_screen_reset at hrun
    obtain ⟨d1, d2, d3, d4, _⟩ := set_board_information_dims w h d inst
    exact ⟨setup_board_flag_balance a.2 _ inst1 (by omega) (by omega) hrun, fun _ => Or.inl hg⟩

theorem run_swallowed_flag_balance (actions : List (Action × List Nat)) :
    ∀ (inst inst1 : MineSweeperGameScreen) (k k1 : Nat), model_inv inst.model →
      inst.model.flags_left + flagged_count inst.model + k = mine_total inst.model →
      run_swallowed actions inst k = some (inst1, k1) →
      inst1.model.flags_left + flagged_count inst1.model + k1 = mine_total inst1.model := by
  induction actions with
  | nil =>
    intro inst inst1 k k1 _ hbal hrun
    simp only [run_swallowed, Option.some.injEq, Prod.mk.injEq] at hrun
    obtain ⟨rfl, rfl⟩ := hrun
    exact hbal
  | cons a rest ih =>
    intro inst inst1 k k1 hinv hbal hrun
    simp only [run_swallowed] at hrun
    split at hrun
    · exact absurd hrun (by simp)
    · rename_i inst2 h2
      exact ih inst2 inst1 _ k1 (apply_action_inv a inst inst2 hinv h2)
        (apply_action_flag_balance a inst inst2 k hinv hbal h2).1 hrun

theorem session_swallowed_flag_balance (width height difficulty : Nat) (draws : List Nat)
    (model0 : MineSweeperGameScreenModel) (actions : List (Action × List Nat))
    (inst : MineSweeperGameScreen) (k : Nat)
    (hrun : session_swallowed width height difficulty draws model0 actions = some (inst, k)) :
    inst.model.flags_left + flagged_count inst.model + k = mine_total inst.model := by
  unfold session_swallowed at hrun
  split at hrun
  · exact absurd hrun (by simp)
  · rename_i inst0 h0
    refine run_swallowed_flag_balance actions inst0 inst 0 k (alloc_inv _ _ _ _ _ inst0 h0)
      ?_ hrun
    unfold mine_sweeper_game_screen_alloc at h0
    obtain ⟨d1, d2, d3, d4, _⟩ := set_board_information_dims width height difficulty
      { callbacks := ViewCallbacks.play, model := model0 }
    exact setup_board_flag_balance draws _ inst0 (by omega) (by omega) h0

/-- C28: in every state of a session the flag counter and the number of Flagged tiles add up
to at most the number of mines placed when the board was generated, so the flag counter is at
most the number of mines less the Flagged tiles; and what is missing to the number of mines
is exactly the number of Flagged tiles turned to Cleared since the board was generated. A
step turns a Flagged tile to Cleared only if it is the reveal of an Uncleared tile that is
not a Mine, the step that runs the flood fill (or it generates a new board). -/
theorem flags_left_balance (width height difficulty : Nat) (draws : List Nat)
    (model0 : MineSweeperGameScreenModel) (actions : List (Action × List Nat))
    (inst : MineSweeperGameScreen)
    (hrun : session width height difficulty draws model0 actions = some inst) :
    ∃ k, session_swallowed width height difficulty draws model0 actions = some (inst, k) ∧
      num_mines_of (inst.model.board_width * inst.model.board_height)
        inst.model.board_difficulty = some (mine_total inst.model) ∧
      inst.model.flags_left + flagged_count inst.model ≤ mine_total inst.model ∧
      inst.model.flags_left + flagged_count inst.model + k = mine_total inst.model ∧
      inst.model.flags_left ≤ mine_total inst.model - flagged_count inst.model ∧
      ∀ (a : Action × List Nat) (inst1 : MineSweeperGameScreen),
        apply_action a inst = some inst1 →
        0 < swallowed_count inst.model inst1.model →
        generates_board a inst ∨
          (inst.callbacks = ViewCallbacks.play ∧
            ∃ event, a.1 = Action.input event ∧
              event.key = InputKey.Ok ∧ event.type = InputType.Press ∧
              (inst.model.board (pos_1d inst.model.board_width inst.model.curr_pos.x_abs
                inst.model.curr_pos.y_abs)).tile_state =
                MineSweeperGameScreenTileState.Uncleared ∧
              (inst.model.board (pos_1d inst.model.board_width inst.model.curr_pos.x_abs
                inst.model.curr_pos.y_abs)).tile_type ≠ MineSweeperGameScreenTileMine) := by
  have hinv := session_inv width height difficulty draws model0 actions inst hrun
  have hfst := session_swallowed_fst width height difficulty draws model0 actions
  rw [hrun] at hfst
  cases hsw : session_swallowed width height difficulty draws model0 actions with
  | none => rw [hsw] at hfst; simp at hfst
  | some r =>
    rw [hsw] at hfst
    simp only [Option.map_some', Option.some.injEq] at hfst
    obtain ⟨i, k⟩ := r
    simp only at hfst
    subst hfst
    have hbal := session_swallowed_flag_balance width height difficulty draws model0 actions
      i k hsw
    have h2 := hinv.flags_left
    exact ⟨k, rfl, hinv.mines, h2, hbal, by omega,
      fun a inst1 hstep hpos => (apply_action_flag_balance a i inst1 k hinv hbal hstep).2 hpos⟩

theorem flags_left_balance_witness :
    session 16 7 0 demo_draws zero_model demo_actions = some demo_after_reveal ∧
    (session_swallowed 16 7 0 demo_draws zero_model demo_actions).map Prod.snd = some 1 ∧
    ∃ k, session_swallowed 16 7 0 demo_draws zero_model demo_actions =
        some (demo_after_reveal, k) ∧
      num_mines_of (demo_after_reveal.model.board_width * demo_after_reveal.model.board_height)
        demo_after_reveal.model.board_difficulty = some (mine_total demo_after_reveal.model) ∧
      demo_after_reveal.model.flags_left + flagged_count demo_after_reveal.model ≤
        mine_total demo_after_reveal.model ∧
      demo_after_reveal.model.flags_left + flagged_count demo_after_reveal.model + k =
        mine_total demo_after_reveal.model ∧
      demo_after_reveal.model.flags_left ≤
        mine_total demo_after_reveal.model - flagged_count demo_after_reveal.model ∧
      ∀ (a : Action × List Nat) (inst1 : MineSweeperGameScreen),
        apply_action a demo_after_reveal = some inst1 →
        0 < swallowed_count demo_after_reveal.model inst1.model →
        generates_board a demo_after_reveal ∨
          (demo_after_reveal.callbacks = ViewCallbacks.play ∧
            ∃ event, a.1 = Action.input event ∧
              event.key = InputKey.Ok ∧ event.type = InputType.Press ∧
              (demo_after_reveal.model.board (pos_1d demo_after_reveal.model.board_width
                demo_after_reveal.model.curr_pos.x_abs
                demo_after_reveal.model.curr_pos.y_abs)).tile_state =
                MineSweeperGameScreenTileState.Uncleared ∧
              (demo_after_reveal.model.board (pos_1d demo_after_reveal.model.board_width
                demo_after_reveal.model.curr_pos.x_abs
                demo_after_reveal.model.curr_pos.y_abs)).tile_type ≠
                MineSweeperGameScreenTileMine) :=
  ⟨demo_after_reveal_run, by decide!,
    flags_left_balance 16 7 0 demo_draws zero_model demo_actions demo_after_reveal
      demo_after_reveal_run⟩

end MineSweeper
